import Mathlib

/-!
Verification development for the `enum-spanner-rs` repository: a shallow
embedding, in Lean 4, of the enumeration engine for regex spanners
(variable-NFA, level-DAG with jump index, per-level marker expansion,
naive reference enumerator), together with theorems settling the
specification claims.

Modelling conventions:
* Rust `Vec` and `LinkedList` become `List`; `HashMap` becomes an
  association list updated in place (`setAssoc`); `HashSet` becomes a
  duplicate-free list in insertion order (Rust's hash iteration order is
  arbitrary; the embedding fixes insertion order).
* A Rust stack (`Vec::push`/`Vec::pop`) is modelled as a list whose head
  is the top of the stack; a `VecDeque` FIFO queue keeps its natural
  list order (`pop_front` = head, `push_back` = append).
* Rust panics (`unwrap`, `panic!`, failed `assert!`) are modelled by
  returning `none` from an `Option`-valued function.
* Machine integers (`usize`) are modelled by `Nat`; the program never
  relies on overflow.
-/

namespace EnumSpanner

/-- Replace-or-append update of an association list (models `HashMap::insert`). -/
def setAssoc {α β : Type} [DecidableEq α] (k : α) (v : β) :
    List (α × β) → List (α × β)
  | [] => [(k, v)]
  | (k₀, v₀) :: rest =>
    if k₀ = k then (k, v) :: rest else (k₀, v₀) :: setAssoc k v rest

/-- Remove a key from an association list (models `HashMap::remove`). -/
def delAssoc {α β : Type} [DecidableEq α] (k : α) :
    List (α × β) → List (α × β)
  | [] => []
  | (k₀, v₀) :: rest =>
    if k₀ = k then rest else (k₀, v₀) :: delAssoc k rest

/-- Set-insertion for duplicate-free lists (models `HashSet::insert`);
keeps insertion order. -/
def insertSet {α : Type} [DecidableEq α] (x : α) (l : List α) : List α :=
  if x ∈ l then l else l ++ [x]

/-- Set-removal (models `HashSet::remove`). -/
def removeSet {α : Type} [DecidableEq α] (x : α) (l : List α) : List α :=
  l.filter (fun y => y ≠ x)

/-- `set1 ⊆ set2` as a boolean on list-sets (models `HashSet::is_subset`). -/
def subsetB {α : Type} [DecidableEq α] (l₁ l₂ : List α) : Bool :=
  l₁.all (fun x => x ∈ l₂)

--  Markers and labels -------------------------------------------------------

/-- `Marker` from `src/mapping/mod.rs`: `Open(v)` or `Close(v)` for a capture
variable.  Variables compare by their numeric id only (the display name does
not take part in equality in the source), so the embedding carries the id. -/
inductive Marker where
  | Open : Nat → Marker
  | Close : Nat → Marker
deriving DecidableEq, Repr

/-- `Marker::variable` from `src/mapping/mod.rs`. -/
def Marker.variable : Marker → Nat
  | .Open v => v
  | .Close v => v

/-- `Label` from `src/automaton/mod.rs`: either a consuming atom (embedded as
its `is_match` predicate on characters) or an assignation marker. -/
inductive Label where
  | atom : (Char → Bool) → Label
  | assign : Marker → Label

--  Automaton ----------------------------------------------------------------

/-- `Automaton` from `src/automaton/mod.rs` (states are bare `usize` ids;
the `State` newtype adds nothing to the semantics). -/
structure Automaton where
  nb_states : Nat
  transitions : List (Nat × Label × Nat)
  finals : List Nat

/-- `Automaton::get_initial`. -/
def Automaton.get_initial (_ : Automaton) : Nat := 0

/-- `Automaton::init_adj`: outgoing edges of each state, in transition order. -/
def Automaton.adj (a : Automaton) (s : Nat) : List (Label × Nat) :=
  a.transitions.filterMap
    (fun e => if e.1 = s then some (e.2.1, e.2.2) else none)

/-- `Automaton::get_adj_for_char`: targets reachable from a state by an atom
labelled transition whose atom matches the character, in transition order
(the per-character `HashMap` cache in the source is pure memoisation). -/
def Automaton.adj_for_char (a : Automaton) (c : Char) (s : Nat) : List Nat :=
  a.transitions.filterMap
    (fun e => match e.2.1 with
      | .atom m => if e.1 = s ∧ m c = true then some e.2.2 else none
      | .assign _ => none)

/-- `Automaton::init_assignations`: outgoing marker edges of each state.
The source stores the full label and later unwraps it with `get_marker`;
since only assignation labels are ever inserted, the embedding stores the
marker directly. -/
def Automaton.assignations (a : Automaton) (s : Nat) : List (Marker × Nat) :=
  a.transitions.filterMap
    (fun e => match e.2.1 with
      | .assign m => if e.1 = s then some (m, e.2.2) else none
      | .atom _ => none)

/-- `Automaton::init_rev_assignations`: for each state `t`, the list of
`(marker, source)` pairs such that `source -marker-> t` is a transition. -/
def Automaton.rev_assignations (a : Automaton) (t : Nat) : List (Marker × Nat) :=
  a.transitions.filterMap
    (fun e => match e.2.1 with
      | .assign m => if e.2.2 = t then some (m, e.1) else none
      | .atom _ => none)

--  Marker closure (init_closure_for_assignations) ---------------------------

/-- Processing of one adjacency target inside the DFS loop of
`Automaton::init_closure_for_assignations`: always append the target to the
closure list; push it on the heap and mark it seen when it is new.  The
accumulator is `(heap, seen, clos)`. -/
def closurePush (acc : List Nat × List Nat × List Nat) (target : Nat) :
    List Nat × List Nat × List Nat :=
  if target ∈ acc.2.1 then (acc.1, acc.2.1, acc.2.2 ++ [target])
  else (target :: acc.1, acc.2.1 ++ [target], acc.2.2 ++ [target])

/-- The DFS loop of `Automaton::init_closure_for_assignations`: `heap` is
the work stack (head = top, matching `Vec::pop`), `seen` the visited set and
`clos` the accumulated closure list of the start state; returns the final
`(heap, seen, clos)` state. -/
def closureLoop (adj : Nat → List Nat) :
    Nat → List Nat × List Nat × List Nat → List Nat × List Nat × List Nat
  | 0, st => st
  | _ + 1, ([], seen, clos) => ([], seen, clos)
  | fuel + 1, (source :: heap, seen, clos) =>
    closureLoop adj fuel ((adj source).foldl closurePush (heap, seen, clos))

/-- The marker adjacency used by `init_closure_for_assignations`
(`assignations[i].iter().map(|(_, j)| *j)`). -/
def Automaton.assignAdj (a : Automaton) (s : Nat) : List Nat :=
  (a.assignations s).map (fun e => e.2)

/-- `Automaton::init_closure_for_assignations` for one start state.  The
fuel `nb_states + 1` dominates the number of loop iterations: every state
enters the heap at most once. -/
def Automaton.closure_for_assignations (a : Automaton) (state : Nat) : List Nat :=
  (closureLoop a.assignAdj (a.nb_states + 1) ([state], [state], [])).2.2

--  Mapping assembly (Mapping::from_markers) ---------------------------------

/-- A `Mapping` value: the variable → span dictionary, canonically sorted by
variable id (two Rust `Mapping`s over the same text are equal exactly when
these dictionaries are equal). -/
def MappingDict := List (Nat × Nat × Nat)

instance : DecidableEq MappingDict := by
  unfold MappingDict; infer_instance

/-- One event step of `Mapping::from_markers`: returns `none` on the
`panic!` branches (an endpoint assigned twice). -/
def fromMarkersStep (dict : List (Nat × Option Nat × Option Nat))
    (ev : Marker × Nat) : Option (List (Nat × Option Nat × Option Nat)) :=
  let v := ev.1.variable
  let span := match dict.lookup v with
    | none => (none, none)
    | some s => s
  match ev.1 with
  | .Open _ =>
    match span.1 with
    | none => some (setAssoc v (some ev.2, span.2) dict)
    | some _ => none
  | .Close _ =>
    match span.2 with
    | none => some (setAssoc v (span.1, some ev.2) dict)
    | some _ => none

/-- The event-accumulation loop of `Mapping::from_markers`. -/
def buildSpans (evs : List (Marker × Nat)) :
    Option (List (Nat × Option Nat × Option Nat)) :=
  evs.foldl (fun acc ev => acc.bind (fun d => fromMarkersStep d ev)) (some [])

/-- The final check of `Mapping::from_markers`: every variable must have both
endpoints with `start ≤ end`, otherwise the `panic!("Invalid mapping
ordering")` branch is taken. -/
def checkSpans : List (Nat × Option Nat × Option Nat) → Option (List (Nat × Nat × Nat))
  | [] => some []
  | (v, some i, some j) :: rest =>
    if i ≤ j then (checkSpans rest).map (fun r => (v, i, j) :: r) else none
  | _ :: _ => none

/-- Insert into a list sorted by variable id (used to canonicalise the
dictionary; Rust's `HashMap` has no observable order, equality of mappings
is order-independent). -/
def insertByVar (e : Nat × Nat × Nat) : List (Nat × Nat × Nat) → List (Nat × Nat × Nat)
  | [] => [e]
  | f :: rest => if e.1 ≤ f.1 then e :: f :: rest else f :: insertByVar e rest

/-- `Mapping::from_markers` from `src/mapping/mod.rs`; `none` models the
panics. -/
def from_markers (evs : List (Marker × Nat)) : Option MappingDict :=
  (buildSpans evs).bind (fun d =>
    (checkSpans d).map (fun r => r.foldl (fun acc e => insertByVar e acc) []))

--  Regex reformatting (src/regex/mod.rs::reformat) ---------------------------

/-- `reformat` from `src/regex/mod.rs`, on the character list of the regex.
The source tests the first/last byte against `^`/`$`; since those are
single-byte characters and UTF-8 continuation bytes are ≥ 0x80, testing the
first/last character is equivalent. -/
def reformat (regex : List Char) : List Char :=
  let anchor_begin := regex.head? = some '^'
  let anchor_end := regex.getLast? = some '$'
  let r := if anchor_begin then regex.drop 1 else regex
  let r := if anchor_end then r.dropLast else r
  let r := "(?P<match>".toList ++ r ++ [')']
  let r := if ¬ anchor_begin then "(.|\\s)*".toList ++ r else r
  if ¬ anchor_end then r ++ "(.|\\s)*".toList else r

--  Parser AST (collaborator) and its flattening ------------------------------

/-- Modelled from the spec (§6): repetition kinds of the external
`regex-syntax` AST, which is not part of this repository. -/
inductive LibRepKind where
  | ZeroOrOne
  | ZeroOrMore
  | OneOrMore
  | RangeExactly : Nat → LibRepKind
  | RangeAtLeast : Nat → LibRepKind
  | RangeBounded : Nat → Nat → LibRepKind

/-- Modelled from the spec (§6): group kinds of the external AST. -/
inductive LibGroupKind where
  | NonCapturing
  | CaptureIndex : Nat → LibGroupKind
  | CaptureName : String → LibGroupKind

/-- Modelled from the spec (§6): the node kinds produced by the external
regex parser (Empty, Literal, Class, Concat, Alternation, Repetition,
Group).  Only the shapes used by the claims are needed. -/
inductive LibHir where
  | Empty : LibHir
  | Literal : Char → LibHir
  | Class : (Char → Bool) → LibHir
  | Concat : List LibHir → LibHir
  | Alternation : List LibHir → LibHir
  | Repetition : LibRepKind → LibHir → LibHir
  | Group : LibGroupKind → LibHir → LibHir

/-- `Hir` from `src/regex/parse.rs`: the internal binary AST. -/
inductive Hir where
  | Empty : Hir
  | HLabel : Label → Hir
  | Concat : Hir → Hir → Hir
  | Alternation : Hir → Hir → Hir
  | Option : Hir → Hir
  | Closure : Hir → Hir

/-- `Hir::epsilon` from `src/regex/parse.rs`. -/
def Hir.epsilon : Hir := .Option .Empty

/-- The `(min, max)` bounds extracted at the top of `Hir::repetition`
(`none` = unbounded). -/
def rangeBounds : LibRepKind → Nat × Option Nat
  | .RangeExactly n => (n, some n)
  | .RangeAtLeast n => (n, none)
  | .RangeBounded m n => (m, some n)
  | _ => (0, some 0)

/-- `Hir::repetition` from `src/regex/parse.rs`: desugar `{m,n}`. -/
def Hir.repetition (hir : Hir) (range : LibRepKind) : Hir :=
  let mn := rangeBounds range
  let result := (List.range mn.1).foldl
    (fun acc i =>
      if i = mn.1 - 1 ∧ mn.2 = none then .Concat acc (.Closure hir)
      else .Concat acc hir)
    Hir.epsilon
  match mn.2 with
  | none => result
  | some mx =>
    let optionals := (List.range (mx - mn.1)).foldl
      (fun acc _ => .Option (.Concat hir acc)) Hir.epsilon
    .Concat result optionals

/-- `Hir::from_lib_hir` from `src/regex/parse.rs`: flatten the external AST
into the binary `Hir`, assigning variable ids to named groups in traversal
order (`nb_ext_vars` is the count of variables created so far).  The fuel
makes the recursion through child lists structural; any fuel at least the
AST depth gives the source function (the concrete ASTs below use an ample
fuel). -/
def Hir.fromLibAux (fuel : Nat) (hir : LibHir) (nb_ext_vars : Nat) : Nat × Hir :=
  match fuel with
  | 0 => (0, Hir.epsilon)
  | fuel + 1 =>
    match hir with
    | .Empty => (0, Hir.epsilon)
    | .Literal lit => (0, .HLabel (.atom (fun c => c = lit)))
    | .Class cls => (0, .HLabel (.atom cls))
    | .Repetition kind sub =>
      let r := Hir.fromLibAux fuel sub nb_ext_vars
      let new_hir := match kind with
        | .ZeroOrOne => Hir.Option r.2
        | .ZeroOrMore => Hir.Option (.Closure r.2)
        | .OneOrMore => Hir.Closure r.2
        | range => Hir.repetition r.2 range
      (r.1, new_hir)
    | .Group kind sub =>
      let r := Hir.fromLibAux fuel sub nb_ext_vars
      match kind with
      | .NonCapturing => (r.1, r.2)
      | .CaptureIndex _ => (r.1, r.2)
      | .CaptureName _ =>
        let var := nb_ext_vars + r.1
        let marker_open := Label.assign (.Open var)
        let marker_close := Label.assign (.Close var)
        (r.1 + 1, .Concat (.Concat (.HLabel marker_open) r.2) (.HLabel marker_close))
    | .Concat sub =>
      sub.foldl
        (fun acc branch =>
          let r := Hir.fromLibAux fuel branch (nb_ext_vars + acc.1)
          (acc.1 + r.1, .Concat acc.2 r.2))
        (0, Hir.epsilon)
    | .Alternation sub =>
      sub.foldl
        (fun acc branch =>
          let r := Hir.fromLibAux fuel branch (nb_ext_vars + acc.1)
          (acc.1 + r.1, .Alternation acc.2 r.2))
        (0, Hir.Empty)

/-- `Hir::from_lib_hir` with an ample fuel. -/
def Hir.from_lib_hir (hir : LibHir) (nb_ext_vars : Nat) : Nat × Hir :=
  Hir.fromLibAux 1000 hir nb_ext_vars

--  Glushkov construction (src/regex/glushkov.rs) -----------------------------

/-- `GlushkovTerm` from `src/regex/glushkov.rs`. -/
structure GlushkovTerm where
  id : Nat
  label : Label

/-- `GlushkovFactors` from `src/regex/glushkov.rs`. -/
structure GlushkovFactors where
  p : List GlushkovTerm
  d : List GlushkovTerm
  f : List (GlushkovTerm × GlushkovTerm)
  g : Bool

/-- `LocalLang` from `src/regex/glushkov.rs`. -/
structure LocalLang where
  nb_terms : Nat
  factors : GlushkovFactors

/-- `LocalLang::empty`. -/
def LocalLang.empty : LocalLang :=
  ⟨0, ⟨[], [], [], false⟩⟩

/-- `LocalLang::label`: the language of a single fresh term. -/
def LocalLang.label (label : Label) (id_offset : Nat) : LocalLang :=
  let term : GlushkovTerm := ⟨id_offset, label⟩
  ⟨1, ⟨[term], [term], [], false⟩⟩

/-- `LocalLang::concatenation`. -/
def LocalLang.concatenation (lang1 lang2 : LocalLang) : LocalLang :=
  let f := lang1.factors.f ++ lang2.factors.f ++
    lang1.factors.d.flatMap (fun x => lang2.factors.p.map (fun y => (x, y)))
  let p := if lang1.factors.g then lang1.factors.p ++ lang2.factors.p
           else lang1.factors.p
  let d := if lang2.factors.g then lang2.factors.d ++ lang1.factors.d
           else lang2.factors.d
  ⟨lang1.nb_terms + lang2.nb_terms, ⟨p, d, f, lang1.factors.g ∧ lang2.factors.g⟩⟩

/-- `LocalLang::alternation`. -/
def LocalLang.alternation (lang1 lang2 : LocalLang) : LocalLang :=
  ⟨lang1.nb_terms + lang2.nb_terms,
   ⟨lang1.factors.p ++ lang2.factors.p,
    lang1.factors.d ++ lang2.factors.d,
    lang1.factors.f ++ lang2.factors.f,
    lang1.factors.g ∨ lang2.factors.g⟩⟩

/-- `LocalLang::optional`. -/
def LocalLang.optional (lang : LocalLang) : LocalLang :=
  ⟨lang.nb_terms, ⟨lang.factors.p, lang.factors.d, lang.factors.f, true⟩⟩

/-- `LocalLang::closure`. -/
def LocalLang.closure (lang : LocalLang) : LocalLang :=
  ⟨lang.nb_terms,
   ⟨lang.factors.p, lang.factors.d,
    lang.factors.f ++
      lang.factors.d.flatMap (fun x => lang.factors.p.map (fun y => (x, y))),
    lang.factors.g⟩⟩

/-- `LocalLang::from_hir` from `src/regex/glushkov.rs`. -/
def LocalLang.from_hir : Hir → Nat → LocalLang
  | .Empty, _ => LocalLang.empty
  | .HLabel label, id_offset => LocalLang.label label id_offset
  | .Concat h1 h2, id_offset =>
    let lang1 := LocalLang.from_hir h1 id_offset
    let lang2 := LocalLang.from_hir h2 (id_offset + lang1.nb_terms)
    LocalLang.concatenation lang1 lang2
  | .Alternation h1 h2, id_offset =>
    let lang1 := LocalLang.from_hir h1 id_offset
    let lang2 := LocalLang.from_hir h2 (id_offset + lang1.nb_terms)
    LocalLang.alternation lang1 lang2
  | .Option h, id_offset => LocalLang.optional (LocalLang.from_hir h id_offset)
  | .Closure h, id_offset => LocalLang.closure (LocalLang.from_hir h id_offset)

/-- `LocalLang::into_automaton` from `src/regex/glushkov.rs`. -/
def LocalLang.into_automaton (lang : LocalLang) : Automaton :=
  let iner := lang.factors.f.map
    (fun e => (e.1.id + 1, e.2.label, e.2.id + 1))
  let pref := lang.factors.p.map (fun t => (0, t.label, t.id + 1))
  let finals := lang.factors.d.map (fun t => t.id + 1) ++
    (if lang.factors.g then [0] else [])
  ⟨lang.nb_terms + 1, iner ++ pref, finals⟩

--  Level set (src/mapping/levelset.rs) ---------------------------------------

/-- `LevelSet` from `src/mapping/levelset.rs`: the per-layer vertex lists and
the `(layer, vertex) → position` index. -/
structure LevelSet where
  levels : List (Nat × List Nat)
  vertex_index : List ((Nat × Nat) × Nat)

/-- `LevelSet::new`. -/
def LevelSet.new : LevelSet := ⟨[], []⟩

/-- `LevelSet::has_level`. -/
def LevelSet.has_level (ls : LevelSet) (level : Nat) : Bool :=
  (ls.levels.lookup level).isSome

/-- `LevelSet::get_level`. -/
def LevelSet.get_level (ls : LevelSet) (level : Nat) : Option (List Nat) :=
  ls.levels.lookup level

/-- `LevelSet::get_nb_levels`. -/
def LevelSet.get_nb_levels (ls : LevelSet) : Nat := ls.levels.length

/-- `LevelSet::get_vertex_index`. -/
def LevelSet.get_vertex_index (ls : LevelSet) (level vertex : Nat) : Option Nat :=
  ls.vertex_index.lookup (level, vertex)

/-- `LevelSet::get_vertex_index` at a point where the source `unwrap`s the
result (a miss is a Rust panic; all proved uses stay inside the domain). -/
def LevelSet.vertexIndexD (ls : LevelSet) (level vertex : Nat) : Nat :=
  (ls.get_vertex_index level vertex).getD 0

/-- `LevelSet::register`: append the vertex to the layer (creating it if
needed) unless the `(layer, vertex)` pair is already indexed. -/
def LevelSet.register (ls : LevelSet) (level vertex : Nat) : LevelSet :=
  match ls.get_vertex_index level vertex with
  | some _ => ls
  | none =>
    let old := (ls.get_level level).getD []
    ⟨setAssoc level (old ++ [vertex]) ls.levels,
     setAssoc (level, vertex) old.length ls.vertex_index⟩

/-- `LevelSet::iter_level`: `(vertex, vertex_index)` pairs of a layer. -/
def LevelSet.iter_level (ls : LevelSet) (level : Nat) : List (Nat × Nat) :=
  ((ls.get_level level).getD []).map (fun v => (v, ls.vertexIndexD level v))

/-- `LevelSet::remove_from_level`: drop a set of vertices from a layer,
renumbering the survivors; an emptied layer is deleted. -/
def LevelSet.remove_from_level (ls : LevelSet) (level : Nat)
    (del_vertices : List Nat) : LevelSet :=
  let old := (ls.get_level level).getD []
  let step := old.foldl
    (fun (acc : List Nat × List ((Nat × Nat) × Nat)) v =>
      if v ∈ del_vertices then (acc.1, delAssoc (level, v) acc.2)
      else (acc.1 ++ [v], setAssoc (level, v) acc.1.length acc.2))
    ([], ls.vertex_index)
  if step.1.isEmpty then
    ⟨delAssoc level ls.levels, step.2⟩
  else
    ⟨setAssoc level step.1 ls.levels, step.2⟩

--  Boolean matrix (src/matrix.rs) ---------------------------------------------

/-- `Matrix<bool>` from `src/matrix.rs`: a dense row-major bit matrix. -/
structure BMatrix where
  height : Nat
  width : Nat
  data : List Bool
deriving DecidableEq, Repr

/-- `Matrix::new`. -/
def BMatrix.new (height width : Nat) (value : Bool) : BMatrix :=
  ⟨height, width, List.replicate (height * width) value⟩

/-- `Matrix::index`/`Matrix::at` read access (`data[col + row*width]`). -/
def BMatrix.get (m : BMatrix) (row col : Nat) : Bool :=
  m.data.getD (col + row * m.width) false

/-- `Matrix::at` used as a write (`*m.at(r, c) = b`). -/
def BMatrix.set (m : BMatrix) (row col : Nat) (b : Bool) : BMatrix :=
  ⟨m.height, m.width, m.data.set (col + row * m.width) b⟩

/-- `Matrix::iter_row`. -/
def BMatrix.iter_row (m : BMatrix) (row : Nat) : List Bool :=
  (m.data.drop (row * m.width)).take m.width

/-- `Matrix::iter_col` (`skip(col).step_by(width).take(height)`). -/
def BMatrix.iter_col (m : BMatrix) (col : Nat) : List Bool :=
  (List.range m.height).map (fun i => m.data.getD (col + i * m.width) false)

/-- `Mul for &Matrix<bool>` from `src/matrix.rs`: boolean matrix product,
entry `(r, c)` = `row_iter.zip(col_iter).any(|(x, y)| x && y)`. -/
def BMatrix.mul (m other : BMatrix) : BMatrix :=
  ⟨m.height, other.width,
   (List.range m.height).flatMap (fun row =>
     (List.range other.width).map (fun col =>
       ((m.iter_row row).zip (other.iter_col col)).any (fun p => p.1 && p.2)))⟩

/-- `tools::iter_complement`: ascending elements of `[start, e)` not in
`dels` (the source sorts `dels` and scans; for in-range elements this is the
same as filtering the range). -/
def iterComplement (start e : Nat) (dels : List Nat) : List Nat :=
  (List.range' start (e - start)).filter (fun x => x ∉ dels)

/-- `Matrix::truncate` (via `submatrix_sorted`): keep the complement rows and
columns, in ascending order. -/
def BMatrix.truncate (m : BMatrix) (del_rows del_cols : List Nat) : BMatrix :=
  let rows := iterComplement 0 m.height del_rows
  let cols := iterComplement 0 m.width del_cols
  ⟨rows.length, cols.length,
   rows.flatMap (fun r => cols.map (fun c => m.data.getD (c + r * m.width) false))⟩

--  Jump index (src/mapping/jump.rs) -------------------------------------------

/-- `Jump` from `src/mapping/jump.rs`.  `HashMap`/`HashSet` fields become
association lists / insertion-ordered duplicate-free lists. -/
structure Jump where
  levelset : LevelSet
  last_level : Nat
  nonjump_vertices : List (Nat × Nat)
  count_ingoing_jumps : List ((Nat × Nat) × Nat)
  jl : List ((Nat × Nat) × Nat)
  rlevel : List (Nat × List Nat)
  rev_rlevel : List (Nat × List Nat)
  reach : List ((Nat × Nat) × BMatrix)

/-- `Jump::extend_level`: close the layer under the non-jumpable (marker)
adjacency, marking the targets non-jumpable. -/
def Jump.extend_level (j : Jump) (level : Nat) (nonjump_adj : List (List Nat)) :
    Jump :=
  let old_level := (j.levelset.get_level level).getD []
  old_level.foldl
    (fun j source =>
      (nonjump_adj.getD source []).foldl
        (fun j target =>
          { j with
            levelset := j.levelset.register level target,
            nonjump_vertices := insertSet (level, target) j.nonjump_vertices })
        j)
    j

/-- `Jump::new`.  The source calls `levelset.register(state, 0)` — with the
argument order `(level, vertex)` — for each state of `initial_level`, which
registers vertex 0 in level `state`; `initial_level` is always
`iter::once(0)`, so this is the pair `(0, 0)` (the embedding mirrors the
call as written). -/
def Jump.new (initial_level : List Nat) (nonjump_adj : List (List Nat)) : Jump :=
  let j : Jump :=
    { levelset := LevelSet.new, last_level := 0, nonjump_vertices := [],
      count_ingoing_jumps := [], jl := [], rlevel := [(0, [])],
      rev_rlevel := [(0, [])], reach := [] }
  let j := initial_level.foldl
    (fun j state =>
      { j with
        levelset := j.levelset.register state 0,
        jl := setAssoc (0, state) 0 j.jl,
        count_ingoing_jumps := setAssoc (0, state) 0 j.count_ingoing_jumps })
    j
  let j := j.extend_level 0 nonjump_adj
  ((j.levelset.get_level 0).getD []).foldl
    (fun j vertex =>
      { j with count_ingoing_jumps := setAssoc (0, vertex) 0 j.count_ingoing_jumps })
    j

/-- `Jump::is_disconnected`. -/
def Jump.is_disconnected (j : Jump) : Bool :=
  ¬ j.levelset.has_level j.last_level

/-- `Jump::finals`: vertices of the last built layer. -/
def Jump.finals (j : Jump) : List Nat :=
  if j.is_disconnected then []
  else (j.levelset.get_level j.last_level).getD []

/-- `Jump::get_nb_levels`. -/
def Jump.get_nb_levels (j : Jump) : Nat := j.levelset.get_nb_levels

/-- The closure `cmpt_jump_level` of `Jump::init_next_level`.  When the
source is not non-jumpable the code `unwrap`s its jump level; that unwrap
cannot fail on reachable states (every registered vertex either has a `jl`
entry or is non-jumpable), and is modelled by `getD 0`. -/
def cmptJumpLevel (nonjump : List (Nat × Nat)) (last_level source : Nat)
    (source_jl : Option Nat) (previous_jl : Option Nat) : Nat :=
  if (last_level, source) ∈ nonjump then last_level
  else match previous_jl with
    | none => source_jl.getD 0
    | some p => max (source_jl.getD 0) p

/-- Registration of one jumpable edge's target inside
`Jump::init_next_level` (`ll` is the last level, `source_jl` the jump level
of the edge's source, captured before the edge loop). -/
def registerTarget (ll source : Nat) (source_jl : Option Nat) (j : Jump)
    (target : Nat) : Jump :=
  match j.jl.lookup (ll + 1, target) with
  | some target_jl =>
    let v := cmptJumpLevel j.nonjump_vertices ll source source_jl
      (some target_jl)
    { j with jl := setAssoc (ll + 1, target) v j.jl }
  | none =>
    let v := cmptJumpLevel j.nonjump_vertices ll source source_jl none
    { j with
      levelset := j.levelset.register (ll + 1) target,
      jl := setAssoc (ll + 1, target) v j.jl }

/-- The registration loop of `Jump::init_next_level`: follow the jumpable
(atom) adjacency from the last layer, registering targets in the next layer
and updating their jump levels. -/
def Jump.registerNextLevel (j : Jump) (jump_adj : List (List Nat)) : Jump :=
  let last_level := j.last_level
  let last_level_vertices := (j.levelset.get_level last_level).getD []
  last_level_vertices.foldl
    (fun j source =>
      (jump_adj.getD source []).foldl
        (registerTarget last_level source (j.jl.lookup (last_level, source)))
        j)
    j

/-- The `rlevel` value computed at the start of `Jump::init_reach`: the image
of the level's vertices by their jump levels. -/
def rlevelVal (j : Jump) (level : Nat) : List Nat :=
  ((j.levelset.get_level level).getD []).foldl
    (fun acc source =>
      match j.jl.lookup (level, source) with
      | some target => insertSet target acc
      | none => acc)
    []

/-- The layer-to-layer adjacency matrix built by `Jump::init_reach` from the
jumpable (atom) edges between the previous layer and the given one. -/
def Jump.newReachMatrix (j : Jump) (level : Nat) (jump_adj : List (List Nat)) :
    BMatrix :=
  let curr_level := (j.levelset.get_level level).getD []
  let prev_level := (j.levelset.get_level (level - 1)).getD []
  prev_level.foldl
    (fun m source =>
      let id_source := j.levelset.vertexIndexD (level - 1) source
      (jump_adj.getD source []).foldl
        (fun m target =>
          m.set id_source (j.levelset.vertexIndexD level target) true)
        m)
    (BMatrix.new prev_level.length curr_level.length false)

/-- The `rlevel`/`rev_rlevel` bookkeeping at the start of
`Jump::init_reach`. -/
def Jump.initReachRlevels (j : Jump) (level : Nat) (rlevel_val : List Nat) :
    Jump :=
  let j := { j with rlevel := setAssoc level rlevel_val j.rlevel }
  let j := { j with rev_rlevel := setAssoc level [] j.rev_rlevel }
  rlevel_val.foldl
    (fun j sublevel =>
      let v := insertSet level ((j.rev_rlevel.lookup sublevel).getD [])
      { j with rev_rlevel := setAssoc sublevel v j.rev_rlevel })
    j

/-- One step of the dynamic-product loop of `Jump::init_reach`: store the
product matrix towards one strict sublevel. -/
def productStep (level : Nat) (new_reach : BMatrix) (j : Jump)
    (sublevel : Nat) : Jump :=
  if sublevel ≥ level - 1 then j
  else
    let m := BMatrix.mul
      ((j.reach.lookup (sublevel, level - 1)).getD (BMatrix.new 0 0 false))
      new_reach
    { j with reach := setAssoc (sublevel, level) m j.reach }

/-- The counter bookkeeping at the end of `Jump::init_reach`: reset the
counters of the current level, then count the ingoing jump pointers of each
sublevel. -/
def Jump.initReachCounters (j : Jump) (level : Nat)
    (rlevel_val curr_level : List Nat) : Jump :=
  let j := curr_level.foldl
    (fun j vertex =>
      let c := setAssoc (level, vertex) 0 j.count_ingoing_jumps
      { j with count_ingoing_jumps := c })
    j
  rlevel_val.foldl
    (fun j sublevel =>
      let adjacency := (j.reach.lookup (sublevel, level)).getD (BMatrix.new 0 0 false)
      (j.levelset.iter_level sublevel).foldl
        (fun j vp =>
          let nb_pointers := ((adjacency.iter_row vp.2).filter (fun x => x)).length
          if nb_pointers ≠ 0 then
            let old := (j.count_ingoing_jumps.lookup (sublevel, vp.1)).getD 0
            let c := setAssoc (sublevel, vp.1) (old + nb_pointers)
              j.count_ingoing_jumps
            { j with count_ingoing_jumps := c }
          else j)
        j)
    j

/-- `Jump::init_reach`: store the layer-to-layer adjacency matrix, the
products towards the sublayers of `rlevel[level]`, and update the ingoing
jump counters. -/
def Jump.init_reach (j : Jump) (level : Nat) (jump_adj : List (List Nat)) :
    Jump :=
  let curr_level := (j.levelset.get_level level).getD []
  let rlevel_val := rlevelVal j level
  let new_reach := j.newReachMatrix level jump_adj
  let j := j.initReachRlevels level rlevel_val
  let j := { j with reach := setAssoc (level - 1, level) new_reach j.reach }
  let j := rlevel_val.foldl (productStep level new_reach) j
  let j := if (level - 1) ∈ rlevel_val then j
    else { j with reach := delAssoc (level - 1, level) j.reach }
  j.initReachCounters level rlevel_val curr_level

/-- `Jump::init_next_level`: register the next layer along the jumpable
adjacency; if it stays empty return unchanged (the caller will keep feeding
characters), otherwise extend it by the marker closure, build the reach
information and move `last_level` forward. -/
def Jump.init_next_level (j : Jump) (jump_adj nonjump_adj : List (List Nat)) :
    Jump :=
  let next_level := j.last_level + 1
  let j := j.registerNextLevel jump_adj
  if (j.levelset.get_level next_level).isNone then j
  else
    let j := j.extend_level next_level nonjump_adj
    let j := j.init_reach next_level jump_adj
    { j with last_level := next_level }

/-- `Jump::jump`: find the next relevant layer from `gamma` (the maximal
jump level of its vertices) and project `gamma` onto it through the reach
matrix.  The source always returns `Some`; missing-key accesses (Rust
panics) are modelled by defaults and are not exercised by the theorems. -/
def Jump.jump (j : Jump) (level : Nat) (gamma : List Nat) : Nat × List Nat :=
  let jump_level := (gamma.filterMap (fun v => j.jl.lookup (level, v))).max?
  match jump_level with
  | none => (level, [])
  | some lvl =>
    if lvl = level then (level, [])
    else
      let jump_level_vertices := (j.levelset.get_level lvl).getD []
      let adjacency := (j.reach.lookup (lvl, level)).getD (BMatrix.new 0 0 false)
      let gamma2 := (jump_level_vertices.enum.filter
        (fun li => gamma.any (fun source =>
          match j.levelset.get_vertex_index level source with
          | some k => adjacency.get li.1 k
          | none => false))).map (fun li => li.2)
      (lvl, gamma2)

/-- The depth-first traversal of `Jump::clean_level` that classifies the
vertices of a level as useful or deletable.  The heap holds `(vertex, path)`
pairs (head = top of the Rust `Vec`); returns the final `(seen, del)` pair.
The fuel dominates the number of pops (each vertex is pushed at most once
per incoming closure edge). -/
def cleanInner (counts : List ((Nat × Nat) × Nat)) (level : Nat)
    (jump_adj : List (List Nat)) (lvl_vertices : List Nat) :
    Nat → List (Nat × List Nat) → List Nat → List Nat → List Nat × List Nat
  | 0, _, seen, del => (seen, del)
  | _ + 1, [], seen, del => (seen, del)
  | fuel + 1, (source, path) :: heap, seen, del =>
    let seen := insertSet source seen
    let usefull_path := ((counts.lookup (level, source)).getD 0 > 0) ∨
      ((jump_adj.getD source []).any
        (fun v => v ∈ lvl_vertices ∧ v ∉ del))
    let del := if usefull_path then del.filter (fun v => v ∉ path) else del
    let path := if usefull_path then [] else path
    let heap := (jump_adj.getD source []).foldl
      (fun h target =>
        if target ∈ lvl_vertices ∧ target ∉ seen then
          (target, path ++ [target]) :: h
        else h)
      heap
    cleanInner counts level jump_adj lvl_vertices fuel heap seen del

/-- `Jump::clean_level` from `src/mapping/jump.rs`: remove the useless
vertices of a level (no ingoing jump and no marker path to a useful vertex),
dropping or truncating the affected reach matrices and counters.  The
`assert!` checks of the source (a Rust abort when violated) are not
modelled; counter decrements saturate at 0 as they cannot underflow on
reachable states. -/
def Jump.clean_level (j : Jump) (level : Nat) (jump_adj : List (List Nat)) :
    Jump × Bool :=
  if level = 0 then (j, false)
  else match j.levelset.get_level level with
  | none => (j, false)
  | some curr_level =>
    let lvl_vertices := curr_level
    let fl := (curr_level.length + 1) * (curr_level.length + 1) + 1
    let res := curr_level.foldl
      (fun (acc : List Nat × List Nat) start =>
        if start ∈ acc.1 then acc
        else cleanInner j.count_ingoing_jumps level jump_adj lvl_vertices fl
          [(start, [start])] acc.1 acc.2)
      ([], curr_level)
    let del_vertices := res.2
    if del_vertices.isEmpty then (j, false)
    else
      let removed_columns := del_vertices.map
        (fun v => j.levelset.vertexIndexD level v)
      let j := { j with levelset := j.levelset.remove_from_level level del_vertices }
      let curr_level2 := (j.levelset.get_level level).getD []
      let j := del_vertices.foldl
        (fun j v =>
          { j with jl := delAssoc (level, v) j.jl,
                   count_ingoing_jumps := delAssoc (level, v) j.count_ingoing_jumps })
        j
      if j.levelset.has_level level = false then
        let j := ((j.rlevel.lookup level).getD []).foldl
          (fun j sublevel =>
            let adjacency := (j.reach.lookup (sublevel, level)).getD (BMatrix.new 0 0 false)
            (j.levelset.iter_level sublevel).foldl
              (fun j vp =>
                let nb := ((adjacency.iter_row vp.2).filter (fun x => x)).length
                if nb ≠ 0 then
                  let old := (j.count_ingoing_jumps.lookup (sublevel, vp.1)).getD 0
                  let c := setAssoc (sublevel, vp.1) (old + nb) j.count_ingoing_jumps
                  { j with count_ingoing_jumps := c }
                else j)
              j)
          j
        let j := ((j.rev_rlevel.lookup level).getD []).foldl
          (fun j uplevel =>
            let rl := removeSet level ((j.rlevel.lookup uplevel).getD [])
            { j with reach := delAssoc (level, uplevel) j.reach,
                     rlevel := setAssoc uplevel rl j.rlevel })
          j
        let j := ((j.rlevel.lookup level).getD []).foldl
          (fun j sublevel =>
            let rr := removeSet level ((j.rev_rlevel.lookup sublevel).getD [])
            { j with rev_rlevel := setAssoc sublevel rr j.rev_rlevel })
          j
        ({ j with rlevel := delAssoc level j.rlevel,
                  rev_rlevel := delAssoc level j.rev_rlevel }, true)
      else
        let new_rlevel := curr_level2.foldl
          (fun acc v =>
            match j.jl.lookup (level, v) with
            | some x => insertSet x acc
            | none => acc)
          []
        let old_rlevel := (j.rlevel.lookup level).getD []
        let j := (old_rlevel.filter (fun s => s ∉ new_rlevel)).foldl
          (fun j sublevel =>
            ((j.levelset.get_level sublevel).getD []).foldl
              (fun j vertex =>
                let adjacency := (j.reach.lookup (sublevel, level)).getD (BMatrix.new 0 0 false)
                let vidx := j.levelset.vertexIndexD sublevel vertex
                let nb := ((adjacency.iter_row vidx).filter (fun x => x)).length
                if nb > 0 then
                  let old := (j.count_ingoing_jumps.lookup (sublevel, vertex)).getD 0
                  let c := setAssoc (sublevel, vertex) (old - nb) j.count_ingoing_jumps
                  { j with count_ingoing_jumps := c }
                else j)
              j)
          j
        let j := new_rlevel.foldl
          (fun j sublevel =>
            ((j.levelset.get_level sublevel).getD []).foldl
              (fun j vertex =>
                let adjacency := (j.reach.lookup (sublevel, level)).getD (BMatrix.new 0 0 false)
                let vidx := j.levelset.vertexIndexD sublevel vertex
                let nb := (removed_columns.filter (fun col => adjacency.get vidx col)).length
                if nb > 0 then
                  let old := (j.count_ingoing_jumps.lookup (sublevel, vertex)).getD 0
                  let c := setAssoc (sublevel, vertex) (old - nb) j.count_ingoing_jumps
                  { j with count_ingoing_jumps := c }
                else j)
              j)
          j
        let j := (old_rlevel.filter (fun s => s ∉ new_rlevel)).foldl
          (fun j sublevel =>
            let rr := removeSet level ((j.rev_rlevel.lookup sublevel).getD [])
            { j with rev_rlevel := setAssoc sublevel rr j.rev_rlevel,
                     reach := delAssoc (sublevel, level) j.reach })
          j
        let j := { j with rlevel := setAssoc level new_rlevel j.rlevel }
        let j := del_vertices.foldl
          (fun j v =>
            { j with count_ingoing_jumps := delAssoc (level, v) j.count_ingoing_jumps })
          j
        let j := ((j.rev_rlevel.lookup level).getD []).foldl
          (fun j uplevel =>
            let m := ((j.reach.lookup (level, uplevel)).getD (BMatrix.new 0 0 false)).truncate
              removed_columns []
            { j with reach := setAssoc (level, uplevel) m j.reach })
          j
        let j := ((j.rlevel.lookup level).getD []).foldl
          (fun j sublevel =>
            let m := ((j.reach.lookup (sublevel, level)).getD (BMatrix.new 0 0 false)).truncate
              [] removed_columns
            { j with reach := setAssoc (sublevel, level) m j.reach })
          j
        (j, true)

--  Preprocessing (IndexedDag::compile, src/mapping/indexed_dag.rs) -----------

/-- Fuel-structural helper for `lowBit` (the fuel `n` itself dominates the
number of halvings). -/
def lowBitAux : Nat → Nat → Nat
  | 0, _ => 0
  | _ + 1, 0 => 0
  | fuel + 1, n => if n % 2 = 1 then 1 else 2 * lowBitAux fuel (n / 2)

/-- `curr_level & -curr_level`: the largest power of two dividing `n`
(for `n > 0`). -/
def lowBit (n : Nat) : Nat := lowBitAux n n

/-- The per-state jumpable adjacency used for one character
(`Automaton::get_adj_for_char` as a plain list of lists). -/
def adjForCharList (a : Automaton) (c : Char) : List (List Nat) :=
  (List.range a.nb_states).map (fun s => a.adj_for_char c s)

/-- `Automaton::get_closure_for_assignations` as a list of lists. -/
def closureList (a : Automaton) : List (List Nat) :=
  (List.range a.nb_states).map (fun s => a.closure_for_assignations s)

/-- The character loop of `IndexedDag::compile`; also counts the loop
iterations (= characters consumed before the `is_disconnected` break). -/
def compileLoop (a : Automaton) (nonjump : List (List Nat)) :
    List Char → Jump → Nat → Nat → Jump × Nat
  | [], jump, _, consumed => (jump, consumed)
  | c :: rest, jump, curr_level, consumed =>
    let jump := jump.init_next_level (adjForCharList a c) nonjump
    let jump := if curr_level > 0 then
        let depth := lowBit curr_level
        ((List.range' (curr_level - depth + 1) depth).reverse).foldl
          (fun j lvl => (j.clean_level lvl nonjump).1) jump
      else jump
    if jump.is_disconnected then (jump, consumed + 1)
    else compileLoop a nonjump rest jump (curr_level + 1) (consumed + 1)

/-- Byte offsets of the characters of a text plus the total byte length
(the `char_offsets` table of `IndexedDag::compile`). -/
def charOffsets : List Char → Nat → List Nat
  | [], off => [off]
  | c :: rest, off => off :: charOffsets rest (off + c.utf8Size)

/-- `IndexedDag` from `src/mapping/indexed_dag.rs`. -/
structure IndexedDag where
  automaton : Automaton
  text : List Char
  jump : Jump
  char_offsets : List Nat

/-- `IndexedDag::compile`, additionally reporting how many characters the
loop consumed (the progress/`ToggleProgress` machinery is display glue). -/
def compileWithCount (a : Automaton) (text : List Char) : IndexedDag × Nat :=
  let closure := closureList a
  let jump0 := Jump.new [a.get_initial] closure
  let r := compileLoop a closure text jump0 0 0
  (⟨a, text, r.1, charOffsets text 0⟩, r.2)

/-- `IndexedDag::compile`. -/
def IndexedDag.compile (a : Automaton) (text : List Char) : IndexedDag :=
  (compileWithCount a text).1

--  follow_sp_sm (NextLevelIterator::follow_sp_sm) ----------------------------

/-- `are_incomparable` from `NextLevelIterator::follow_sp_sm`. -/
def areIncomparable (set1 set2 : List Marker) : Bool :=
  ¬ subsetB set1 set2 ∧ ¬ subsetB set2 set1

/-- One relaxation of `follow_sp_sm`: process the reverse edge `e`
(`e = (label, target)`, for an original transition `target -label-> source`)
from the popped `source`.  The accumulator is `(queue, path_set)`; `none`
models the two Rust panics (indexing a missing `path_set` entry, or
`unwrap`ping a ⊤ entry). -/
def followRelax (s_p s_m : List Marker) (source : Nat)
    (acc : List Nat × List (Nat × Option (List Marker))) (e : Marker × Nat) :
    Option (List Nat × List (Nat × Option (List Marker))) :=
  let label := e.1
  let target := e.2
  if label ∈ s_m then some acc
  else
    let q := if (acc.2.lookup target).isNone then acc.1 ++ [target] else acc.1
    match acc.2.lookup source with
    | none => none
    | some none => none
    | some (some src_ps) =>
      let new_ps := if label ∈ s_p then insertSet label src_ps else src_ps
      match acc.2.lookup target with
      | some (some old_ps) =>
        if areIncomparable new_ps old_ps then
          some (q, setAssoc target none acc.2)
        else
          some (q, setAssoc target (some new_ps) acc.2)
      | some none => some (q, acc.2)
      | none => some (q, setAssoc target (some new_ps) acc.2)

/-- The BFS loop of `follow_sp_sm`.  `ps` is `path_set`
(`vertex ↦ some trace` for a concrete marker set, `vertex ↦ none` for ⊤);
the queue is FIFO. -/
def followLoop (revAdj : Nat → List (Marker × Nat)) (s_p s_m : List Marker) :
    Nat → List Nat → List (Nat × Option (List Marker)) →
    Option (List (Nat × Option (List Marker)))
  | 0, _, _ => none
  | _ + 1, [], ps => some ps
  | fuel + 1, source :: queue, ps =>
    match (revAdj source).foldlM (followRelax s_p s_m source) (queue, ps) with
    | none => none
    | some (queue, ps) => followLoop revAdj s_p s_m fuel queue ps

/-- `NextLevelIterator::follow_sp_sm` from `src/mapping/indexed_dag.rs`:
the set of vertices whose `path_set` is a concrete set of size `|S⁺|`.
The fuel dominates the loop: every vertex enters the queue at most once
beyond the initial `gamma`. -/
def follow_sp_sm (a : Automaton) (gamma : List Nat) (s_p s_m : List Marker) :
    Option (List Nat) :=
  let ps0 := gamma.foldl
    (fun ps state => setAssoc state (some ([] : List Marker)) ps) []
  match followLoop a.rev_assignations s_p s_m
      (gamma.length + a.transitions.length + 1) gamma ps0 with
  | none => none
  | some ps => some (ps.filterMap (fun e =>
      match e.2 with
      | some vps => if vps.length = s_p.length then some e.1 else none
      | none => none))

--  Per-level marker exploration (NextLevelIterator) ---------------------------

/-- The BFS of `IndexedDag::next_level` that collects `K`, the markers
reachable backwards from `gamma` inside the level.  The work stack mirrors
the Rust `Vec` (head = top; the initial `gamma.clone()` is reversed so that
pops come from the end of `gamma`). -/
def nextLevelKLoop (revAdj : Nat → List (Marker × Nat)) :
    Nat → List Nat → List Nat → List Marker → List Marker
  | 0, _, _, k => k
  | _ + 1, [], _, k => k
  | fuel + 1, source :: stack, marks, k =>
    let step := (revAdj source).foldl
      (fun (acc : List Nat × List Nat × List Marker) e =>
        let kk := insertSet e.1 acc.2.2
        if e.2 ∈ acc.2.1 then (acc.1, acc.2.1, kk)
        else (e.2 :: acc.1, acc.2.1 ++ [e.2], kk))
      (stack, marks, k)
    nextLevelKLoop revAdj fuel step.1 step.2.1 step.2.2

/-- `IndexedDag::next_level`: the list `K` of expected markers of a level
(the source collects them in a `HashSet`; the embedding fixes first-insertion
order). -/
def nextLevelK (a : Automaton) (gamma : List Nat) : List Marker :=
  nextLevelKLoop a.rev_assignations (gamma.length + a.transitions.length + 1)
    gamma.reverse gamma []

/-- The inner `while` of `NextLevelIterator::next`: starting from the popped
`(S⁺, S⁻)` pair, decide each remaining marker of `expected_markers` in turn,
pushing the sibling branch when both sides stay feasible.  Returns the
emitted `(S⁺, γ₂)` pair together with the sibling pushes (head = most
recent).  `rem` is the number of markers still to decide. -/
def nliInner (a : Automaton) (expected : List Marker) (gamma : List Nat) :
    Nat → List Marker → List Marker → Option (List Nat) →
    List (List Marker × List Marker) →
    Option ((List Marker × List Nat) × List (List Marker × List Marker))
  | 0, s_p, s_m, gamma2, pushes =>
    (match gamma2 with
     | none => follow_sp_sm a gamma s_p s_m
     | some v => some v).map (fun g => ((s_p, g), pushes))
  | rem + 1, s_p, s_m, _, pushes =>
    let depth := s_p.length + s_m.length
    let m := expected.getD depth (Marker.Open 0)
    let s_p2 := insertSet m s_p
    match follow_sp_sm a gamma s_p2 s_m with
    | none => none
    | some g2 =>
      if g2.isEmpty then
        nliInner a expected gamma rem s_p (insertSet m s_m) none pushes
      else
        nliInner a expected gamma rem s_p2 s_m (some g2)
          ((removeSet m s_p2, insertSet m s_m) :: pushes)

/-- The drained sequence of `NextLevelIterator::next` emissions from a given
DFS stack (head = top). -/
def nliRun (a : Automaton) (expected : List Marker) (gamma : List Nat) :
    Nat → List (List Marker × List Marker) →
    Option (List (List Marker × List Nat))
  | 0, _ => none
  | _ + 1, [] => some []
  | fuel + 1, (s_p, s_m) :: stack =>
    match follow_sp_sm a gamma s_p s_m with
    | none => none
    | some g =>
      if g.isEmpty then nliRun a expected gamma fuel stack
      else
        let rem := expected.length - (s_p.length + s_m.length)
        match nliInner a expected gamma rem s_p s_m (some g) [] with
        | none => none
        | some (emit, pushes) =>
          (nliRun a expected gamma fuel (pushes ++ stack)).map
            (fun rest => emit :: rest)

/-- All `(S⁺, γ₂)` pairs produced by one full run of `NextLevelIterator`
(`NextLevelIterator::explore` followed by draining `next`). -/
def nextLevelEmissions (a : Automaton) (gamma : List Nat) :
    Option (List (List Marker × List Nat)) :=
  nliRun a (nextLevelK a gamma) gamma (2 ^ (nextLevelK a gamma).length + 1)
    [([], [])]

--  The engine iterator (IndexedDagIterator) -----------------------------------

/-- Process the emissions of one per-level expansion inside
`IndexedDagIterator::next`: skip unwitnessed pairs, emit a `Mapping` when
level 0 is reached with the initial state, otherwise jump and stack the new
frame.  Returns the emitted mappings (in order) and the pushed frames
(head = most recent). -/
def processEmits (dag : IndexedDag) (level : Nat) (mapping : List (Marker × Nat)) :
    List (List Marker × List Nat) → List MappingDict →
    List (Nat × List Nat × List (Marker × Nat)) →
    Option (List MappingDict × List (Nat × List Nat × List (Marker × Nat)))
  | [], outs, pushes => some (outs, pushes)
  | (s_p, new_gamma) :: rest, outs, pushes =>
    if new_gamma.isEmpty then processEmits dag level mapping rest outs pushes
    else
      let new_mapping := mapping ++ s_p.map (fun m => (m, level))
      if level = 0 ∧ dag.automaton.get_initial ∈ new_gamma then
        let aligned := new_mapping.map
          (fun e => (e.1, dag.char_offsets.getD e.2 0))
        match from_markers aligned with
        | none => none
        | some md => processEmits dag level mapping rest (outs ++ [md]) pushes
      else
        let r := dag.jump.jump level new_gamma
        if r.2.isEmpty then processEmits dag level mapping rest outs pushes
        else processEmits dag level mapping rest outs
          ((r.1, r.2, new_mapping) :: pushes)

/-- The frame loop of `IndexedDagIterator`: pop a frame, expand its level,
emit / push, continue. -/
def engineLoop (dag : IndexedDag) :
    Nat → List (Nat × List Nat × List (Marker × Nat)) →
    Option (List MappingDict)
  | 0, _ => none
  | _ + 1, [] => some []
  | fuel + 1, (level, gamma, mapping) :: stack =>
    match nextLevelEmissions dag.automaton gamma with
    | none => none
    | some emits =>
      match processEmits dag level mapping emits [] [] with
      | none => none
      | some (outs, pushes) =>
        (engineLoop dag fuel (pushes ++ stack)).map (fun rest => outs ++ rest)

/-- `IndexedDagIterator::init` followed by draining the iterator: the full
output sequence of the engine (`none` models a Rust panic during the run). -/
def engineMappings (dag : IndexedDag) (fuel : Nat) : Option (List MappingDict) :=
  let start := dag.jump.finals.filter (fun x => x ∈ dag.automaton.finals)
  engineLoop dag fuel [(dag.text.length, start, [])]

--  Naive reference enumerator (src/mapping/naive.rs) --------------------------

/-- The frame loop of `NaiveEnum::next` (depth-first simulation of the
automaton over the text): frames are `(state, char index, assignations)`,
the stack mirrors the Rust `Vec` (head = top).  Emits de-duplicated
mappings in discovery order; `none` models a `from_markers` panic. -/
def naiveLoop (a : Automaton) (text : List Char) (offsets : List Nat)
    (byteLen : Nat) :
    Nat → List (Nat × Nat × List (Marker × Nat)) → List MappingDict →
    Option (List MappingDict)
  | 0, _, _ => none
  | _ + 1, [], _ => some []
  | fuel + 1, (state, i, assigns) :: stack, seen =>
    let curr_char := text.get? i
    let stack := (a.adj state).foldl
      (fun st e =>
        match e.1 with
        | .atom atom =>
          match curr_char with
          | none => st
          | some c => if atom c then (e.2, i + 1, assigns) :: st else st
        | .assign marker =>
          let pos := match curr_char with
            | none => byteLen
            | some _ => offsets.getD i 0
          (e.2, i, assigns ++ [(marker, pos)]) :: st)
      stack
    if curr_char = none ∧ state ∈ a.finals then
      match from_markers assigns with
      | none => none
      | some md =>
        if md ∈ seen then naiveLoop a text offsets byteLen fuel stack seen
        else
          (naiveLoop a text offsets byteLen fuel stack (md :: seen)).map
            (fun rest => md :: rest)
    else naiveLoop a text offsets byteLen fuel stack seen

/-- `NaiveEnum::new` followed by draining the iterator. -/
def naiveMappings (a : Automaton) (text : List Char) (fuel : Nat) :
    Option (List MappingDict) :=
  let offsets := charOffsets text 0
  let byteLen := (offsets.getLast?).getD 0
  naiveLoop a text offsets byteLen fuel [(0, 0, [])] []

--  Concrete instances used by the claims --------------------------------------

/-- The `.` character class (any character but a newline). -/
def dotP : Char → Bool := fun c => c ≠ '\n'

/-- The `\s` whitespace character class. -/
def wsP : Char → Bool := fun c => c = ' ' ∨ c = '\t' ∨ c = '\n' ∨ c = '\r'

/-- Modelled from the spec (§6, the external regex parser): the AST of
`(.|\s)*` — a `ZeroOrMore` repetition of a capture-index group holding the
alternation of the `.` and `\s` classes (`idx` is the group's index). -/
def parsedPadStar (idx : Nat) : LibHir :=
  .Repetition .ZeroOrMore
    (.Group (.CaptureIndex idx) (.Alternation [.Class dotP, .Class wsP]))

/-- Modelled from the spec (§6, the external regex parser): the AST of
`(?P<match>(?P<x>(?P<y>)?))`. -/
def parsedMatchXY : LibHir :=
  .Group (.CaptureName "match")
    (.Group (.CaptureName "x")
      (.Repetition .ZeroOrOne (.Group (.CaptureName "y") .Empty)))

/-- Modelled from the spec (§6, the external regex parser): the AST of the
reformatted regex `(.|\s)*(?P<match>(?P<x>(?P<y>)?))(.|\s)*`, i.e. of
`reformat "(?P<x>(?P<y>)?)"`. -/
def parsedReformattedXY : LibHir :=
  .Concat [parsedPadStar 1, parsedMatchXY, parsedPadStar 2]

/-- The automaton the engine compiles for the regex `(?P<x>(?P<y>)?)`:
the embedded `Hir::from_lib_hir` / `LocalLang::from_hir` /
`into_automaton` pipeline applied to the parsed reformatted regex
(variable ids in traversal order: `y` = 0, `x` = 1, `match` = 2). -/
def autXY : Automaton :=
  (LocalLang.from_hir (Hir.from_lib_hir parsedReformattedXY 0).2 0).into_automaton

/-- The compiled index of `autXY` over the empty text. -/
def dagXY : IndexedDag := IndexedDag.compile autXY []

/-- The mapping `{y = [0,0), x = [0,0), match = [0,0)}`. -/
def mappingWithY : MappingDict := [(0, 0, 0), (1, 0, 0), (2, 0, 0)]

/-- The mapping `{x = [0,0), match = [0,0)}`. -/
def mappingXOnly : MappingDict := [(1, 0, 0), (2, 0, 0)]

/-- C1: the claim states that for every regex and text on which the naive
enumerator terminates, the engine (`IndexedDag::compile` +
`IndexedDagIterator`) and `NaiveEnum` produce the same set of mappings.
The code violates this: for the regex `(?P<x>(?P<y>)?)` on the empty text,
the naive enumerator produces both the mapping binding only `x`/`match` and
the mapping additionally binding `y`, while the engine only produces the
first — `follow_sp_sm`'s BFS never re-propagates an updated `path_set`
entry, so the branch `S⁺ = {all six markers}` is judged unfeasible and the
`y` mapping is lost.  The theorem evaluates both embedded enumerators at
this failing input (`some` means the runs completed without panic or fuel
exhaustion). -/
theorem c1_engine_misses_naive_mapping :
    reformat "(?P<x>(?P<y>)?)".toList =
      "(.|\\s)*(?P<match>(?P<x>(?P<y>)?))(.|\\s)*".toList
    ∧ naiveMappings autXY [] 1000 = some [mappingXOnly, mappingWithY]
    ∧ engineMappings dagXY 1000 = some [mappingXOnly]
    ∧ mappingWithY ∈ [mappingXOnly, mappingWithY]
    ∧ mappingWithY ∉ [mappingXOnly] :=
  ⟨rfl, rfl, rfl, by decide, by decide⟩

/-- Modelled from the spec (§6, the external regex parser): the AST of
`(?P<match>a)`, i.e. of `reformat "^a$"`. -/
def parsedMatchA : LibHir := .Group (.CaptureName "match") (.Literal 'a')

/-- The automaton the engine compiles for the anchored regex `^a$`. -/
def autMatchA : Automaton :=
  (LocalLang.from_hir (Hir.from_lib_hir parsedMatchA 0).2 0).into_automaton

/-- C7: the claim states that when the layer `i+1` built while consuming
the character at index `i` receives no vertex, preprocessing stops — no
further characters are consumed and no layer beyond `i` is ever created.
The code violates both parts. `is_disconnected` tests whether the *last
registered* layer still exists; when the next layer stays empty,
`init_next_level` returns without moving `last_level`, so the test keeps
looking at the old layer and the break cannot fire from an empty new layer
(layer 0 is never cleaned and `clean_level` is a no-op on a missing layer).
On the automaton of `^a$`: layer 1 receives no vertex while consuming the
first `'b'`, yet over `"bb"` both characters are consumed and over `"bbb"`
all three; over `"ba"` the second character re-extends the stale layer 0
and creates layer 1 — a layer beyond 0 — which the subsequent cleaning pass
happens to empty again, and enumeration still yields no mappings. -/
theorem c7_first_char_disconnection_does_not_stop :
    reformat "^a$".toList = "(?P<match>a)".toList
    ∧ ((Jump.new [autMatchA.get_initial] (closureList autMatchA)).init_next_level
        (adjForCharList autMatchA 'b') (closureList autMatchA)).levelset.has_level 1
        = false
    ∧ (compileWithCount autMatchA "bb".toList).2 = 2
    ∧ (compileWithCount autMatchA "bbb".toList).2 = 3
    ∧ (((Jump.new [autMatchA.get_initial] (closureList autMatchA)).init_next_level
          (adjForCharList autMatchA 'b') (closureList autMatchA)).init_next_level
          (adjForCharList autMatchA 'a') (closureList autMatchA)).levelset.has_level 1
        = true
    ∧ engineMappings (IndexedDag.compile autMatchA "bb".toList) 1000 = some []
    ∧ engineMappings (IndexedDag.compile autMatchA "ba".toList) 1000 = some [] :=
  ⟨rfl, rfl, rfl, rfl, rfl, rfl, rfl⟩

--  C9: reformat ---------------------------------------------------------------

/-- The reformatting rule as described by the claim, parameterised by the
padding expression placed on either side: wrap the (anchor-stripped) regex
in `(?P<match>…)`, prepend the padding unless the regex begins with `^`,
append it unless the regex ends with `$`. -/
def reformatRule (pad : List Char) (regex : List Char) : List Char :=
  let begins := regex.head? = some '^'
  let ends := regex.getLast? = some '$'
  let core := if begins then regex.drop 1 else regex
  let core := if ends then core.dropLast else core
  (if begins then [] else pad) ++ "(?P<match>".toList ++ core ++ [')'] ++
    (if ends then [] else pad)

/-- C9 (counterexample): the claim states the padding is `(.|\n)*`; already
on the regex `a` the code produces `(.|\s)*(?P<match>a)(.|\s)*`, not
`(.|\n)*(?P<match>a)(.|\n)*`. -/
theorem c9_padding_is_not_dot_or_newline :
    reformat "a".toList ≠ reformatRule "(.|\\n)*".toList "a".toList := by
  decide

/-- C9 (amended): `reformat` produces `(?P<match>R)` surrounded by `(.|\s)*`
on either side, except that a leading `^` drops the anchor character and the
left padding, and a trailing `$` drops the anchor character and the right
padding. -/
theorem c9_reformat_rule (regex : List Char) :
    reformat regex = reformatRule "(.|\\s)*".toList regex := by
  unfold reformat reformatRule
  by_cases h1 : regex.head? = some '^' <;>
    by_cases h2 : regex.getLast? = some '$' <;>
      simp [h1, h2]

--  C8: the marker closure -----------------------------------------------------

/-- A single Marker edge of the automaton (the spec's "following only
Marker edges"). -/
def MarkerStep (a : Automaton) (s t : Nat) : Prop :=
  ∃ m : Marker, (s, Label.assign m, t) ∈ a.transitions

/-- States and transition endpoints stay below `nb_states` (enforced in the
source by the `Vec` adjacency indexing of `Automaton::new`). -/
def WellFormed (a : Automaton) : Prop :=
  ∀ e ∈ a.transitions, e.1 < a.nb_states ∧ e.2.2 < a.nb_states

theorem mem_assignAdj (a : Automaton) (s t : Nat) :
    t ∈ a.assignAdj s ↔ MarkerStep a s t := by
  constructor
  · intro h
    rcases List.mem_map.1 h with ⟨⟨m, t'⟩, hmem, ht⟩
    rcases List.mem_filterMap.1 hmem with ⟨⟨src, l, tgt⟩, he, hf⟩
    cases l with
    | atom f => simp [Automaton.assignations] at hf
    | assign m2 =>
      dsimp only at hf
      by_cases hsrc : src = s
      · rw [if_pos hsrc] at hf
        cases hf
        exact ⟨m, by simpa [hsrc, ← ht] using he⟩
      · rw [if_neg hsrc] at hf
        cases hf
  · rintro ⟨m, hm⟩
    refine List.mem_map.2 ⟨(m, t), ?_, rfl⟩
    refine List.mem_filterMap.2 ⟨(s, Label.assign m, t), hm, ?_⟩
    simp

/-- In a well-formed automaton the marker adjacency stays below `nb_states`. -/
theorem assignAdj_lt {a : Automaton} (wf : WellFormed a) {s t : Nat}
    (h : t ∈ a.assignAdj s) : t < a.nb_states := by
  rcases List.mem_map.1 h with ⟨⟨m, t'⟩, hmem, ht⟩
  rcases List.mem_filterMap.1 hmem with ⟨⟨src, l, tgt⟩, he, hf⟩
  cases l with
  | atom f => simp [Automaton.assignations] at hf
  | assign m2 =>
    dsimp only at hf
    by_cases hsrc : src = s
    · rw [if_pos hsrc] at hf
      cases hf
      exact ht ▸ (wf _ he).2
    · rw [if_neg hsrc] at hf
      cases hf

/-- The step relation explored by the closure DFS. -/
def stepRel (adj : Nat → List Nat) (v w : Nat) : Prop := w ∈ adj v

theorem closurePush_clos (acc : List Nat × List Nat × List Nat) (t : Nat) :
    (closurePush acc t).2.2 = acc.2.2 ++ [t] := by
  unfold closurePush
  by_cases h : t ∈ acc.2.1 <;> simp [h]

theorem closurePush_seen_mem (acc : List Nat × List Nat × List Nat) (t x : Nat) :
    x ∈ (closurePush acc t).2.1 ↔ x ∈ acc.2.1 ∨ x = t := by
  unfold closurePush
  by_cases h : t ∈ acc.2.1
  · simp only [if_pos h]
    constructor
    · exact Or.inl
    · rintro (hx | rfl)
      · exact hx
      · exact h
  · simp [h]

theorem closurePush_heap_mem (acc : List Nat × List Nat × List Nat) (t x : Nat) :
    x ∈ (closurePush acc t).1 ↔ x ∈ acc.1 ∨ (x = t ∧ t ∉ acc.2.1) := by
  unfold closurePush
  by_cases h : t ∈ acc.2.1
  · simp [h]
  · simp only [if_neg h, List.mem_cons]
    constructor
    · rintro (rfl | hx)
      · exact Or.inr ⟨rfl, h⟩
      · exact Or.inl hx
    · rintro (hx | ⟨rfl, _⟩)
      · exact Or.inr hx
      · exact Or.inl rfl

theorem closurePush_seen_nodup (acc : List Nat × List Nat × List Nat) (t : Nat)
    (h : acc.2.1.Nodup) : (closurePush acc t).2.1.Nodup := by
  unfold closurePush
  by_cases hmem : t ∈ acc.2.1
  · simpa [hmem] using h
  · simp only [if_neg hmem]
    exact List.Nodup.append h (List.nodup_singleton t)
      (fun x hx hxt => hmem ((List.mem_singleton.1 hxt) ▸ hx))

theorem closurePush_lengths (acc : List Nat × List Nat × List Nat) (t : Nat) :
    (closurePush acc t).1.length + acc.2.1.length =
      acc.1.length + (closurePush acc t).2.1.length := by
  unfold closurePush
  by_cases h : t ∈ acc.2.1
  · simp [h]
  · simp [h]
    omega

theorem closureFold_clos (ts : List Nat) :
    ∀ acc : List Nat × List Nat × List Nat,
      (ts.foldl closurePush acc).2.2 = acc.2.2 ++ ts := by
  induction ts with
  | nil => intro acc; simp
  | cons t ts ih =>
    intro acc
    rw [List.foldl_cons, ih, closurePush_clos]
    simp

theorem closureFold_seen_mem (ts : List Nat) :
    ∀ acc : List Nat × List Nat × List Nat, ∀ x,
      (x ∈ (ts.foldl closurePush acc).2.1 ↔ x ∈ acc.2.1 ∨ x ∈ ts) := by
  induction ts with
  | nil => intro acc x; simp
  | cons t ts ih =>
    intro acc x
    rw [List.foldl_cons, ih, closurePush_seen_mem, List.mem_cons]
    tauto

theorem closureFold_heap_mem (ts : List Nat) :
    ∀ acc : List Nat × List Nat × List Nat, ∀ x,
      (x ∈ (ts.foldl closurePush acc).1 ↔
        x ∈ acc.1 ∨ (x ∈ ts ∧ x ∉ acc.2.1)) := by
  induction ts with
  | nil => intro acc x; simp
  | cons t ts ih =>
    intro acc x
    rw [List.foldl_cons, ih, closurePush_heap_mem, closurePush_seen_mem,
      List.mem_cons]
    constructor
    · rintro ((ha | ⟨rfl, hn⟩) | ⟨hts, hno⟩)
      · exact Or.inl ha
      · exact Or.inr ⟨Or.inl rfl, hn⟩
      · exact Or.inr ⟨Or.inr hts, fun hc => hno (Or.inl hc)⟩
    · rintro (ha | ⟨(rfl | hts), hn⟩)
      · exact Or.inl (Or.inl ha)
      · exact Or.inl (Or.inr ⟨rfl, hn⟩)
      · by_cases hx : x = t
        · subst hx; exact Or.inl (Or.inr ⟨rfl, hn⟩)
        · exact Or.inr ⟨hts, fun hc => hc.elim hn hx⟩

theorem closureFold_seen_nodup (ts : List Nat) :
    ∀ acc : List Nat × List Nat × List Nat,
      acc.2.1.Nodup → (ts.foldl closurePush acc).2.1.Nodup := by
  induction ts with
  | nil => intro acc h; exact h
  | cons t ts ih =>
    intro acc h
    rw [List.foldl_cons]
    exact ih _ (closurePush_seen_nodup acc t h)

theorem closureFold_lengths (ts : List Nat) :
    ∀ acc : List Nat × List Nat × List Nat,
      (ts.foldl closurePush acc).1.length + acc.2.1.length =
        acc.1.length + (ts.foldl closurePush acc).2.1.length := by
  induction ts with
  | nil => intro acc; simp
  | cons t ts ih =>
    intro acc
    rw [List.foldl_cons]
    have h2 := ih (closurePush acc t)
    have h3 := closurePush_lengths acc t
    omega

/-- Invariant of the closure DFS loop: the seen set is duplicate-free, the
heap is a subset of seen, every seen-and-processed vertex has all its
successors recorded, and everything is reachable from `start`. -/
structure ClosInv (adj : Nat → List Nat) (start : Nat)
    (st : List Nat × List Nat × List Nat) : Prop where
  nodup : st.2.1.Nodup
  heap_sub : ∀ v ∈ st.1, v ∈ st.2.1
  processed : ∀ v ∈ st.2.1, v ∉ st.1 → ∀ t ∈ adj v, t ∈ st.2.2 ∧ t ∈ st.2.1
  reach_seen : ∀ v ∈ st.2.1, Relation.ReflTransGen (stepRel adj) start v
  reach_clos : ∀ x ∈ st.2.2, Relation.TransGen (stepRel adj) start x

theorem closInv_step (adj : Nat → List Nat) (start source : Nat)
    (heap seen clos : List Nat)
    (inv : ClosInv adj start (source :: heap, seen, clos)) :
    ClosInv adj start ((adj source).foldl closurePush (heap, seen, clos)) := by
  have hsrc_seen : source ∈ seen := inv.heap_sub source (List.mem_cons_self _ _)
  have hsrc_reach : Relation.ReflTransGen (stepRel adj) start source :=
    inv.reach_seen source hsrc_seen
  refine ⟨?_, ?_, ?_, ?_, ?_⟩
  · exact closureFold_seen_nodup _ _ inv.nodup
  · intro v hv
    rcases (closureFold_heap_mem _ _ v).1 hv with hv | ⟨hv, _⟩
    · exact (closureFold_seen_mem _ _ v).2
        (Or.inl (inv.heap_sub v (List.mem_cons_of_mem _ hv)))
    · exact (closureFold_seen_mem _ _ v).2 (Or.inr hv)
  · intro v hv hvh t ht
    by_cases hvs : v = source
    · subst hvs
      constructor
      · rw [closureFold_clos]
        exact List.mem_append.2 (Or.inr ht)
      · exact (closureFold_seen_mem _ _ t).2 (Or.inr ht)
    · rcases (closureFold_seen_mem _ _ v).1 hv with hv2 | hv2
      · by_cases hvheap : v ∈ heap
        · exact absurd ((closureFold_heap_mem _ _ v).2 (Or.inl hvheap)) hvh
        · have hproc := inv.processed v hv2
            (fun hc => (List.mem_cons.1 hc).elim hvs hvheap) t ht
          constructor
          · rw [closureFold_clos]
            exact List.mem_append.2 (Or.inl hproc.1)
          · exact (closureFold_seen_mem _ _ t).2 (Or.inl hproc.2)
      · by_cases hvseen : v ∈ seen
        · by_cases hvheap : v ∈ heap
          · exact absurd ((closureFold_heap_mem _ _ v).2 (Or.inl hvheap)) hvh
          · have hproc := inv.processed v hvseen
              (fun hc => (List.mem_cons.1 hc).elim hvs hvheap) t ht
            constructor
            · rw [closureFold_clos]
              exact List.mem_append.2 (Or.inl hproc.1)
            · exact (closureFold_seen_mem _ _ t).2 (Or.inl hproc.2)
        · exact absurd ((closureFold_heap_mem _ _ v).2 (Or.inr ⟨hv2, hvseen⟩)) hvh
  · intro v hv
    rcases (closureFold_seen_mem _ _ v).1 hv with hv | hv
    · exact inv.reach_seen v hv
    · exact Relation.ReflTransGen.tail hsrc_reach hv
  · intro x hx
    rw [closureFold_clos] at hx
    rcases List.mem_append.1 hx with hx | hx
    · exact inv.reach_clos x hx
    · exact Relation.TransGen.tail' hsrc_reach hx

/-- A duplicate-free list of naturals below `N` has length at most `N`. -/
theorem nodup_lt_length_le {l : List Nat} {N : Nat} (hn : l.Nodup)
    (hb : ∀ v ∈ l, v < N) : l.length ≤ N := by
  have hsub : l ⊆ List.range N := fun v hv => List.mem_range.2 (hb v hv)
  simpa using (List.subperm_of_subset hn hsub).length_le

/-- The closure DFS loop terminates (empties its heap) within the fuel and
preserves its invariant. -/
theorem closureLoop_spec (adj : Nat → List Nat) (start N : Nat)
    (hadj : ∀ v, ∀ t ∈ adj v, t < N) :
    ∀ fuel st, ClosInv adj start st →
      (∀ v ∈ st.2.1, v < N) →
      st.1.length + N + 1 ≤ fuel + st.2.1.length →
      (closureLoop adj fuel st).1 = [] ∧
      ClosInv adj start (closureLoop adj fuel st) ∧
      (∀ v ∈ st.2.1, v ∈ (closureLoop adj fuel st).2.1) := by
  intro fuel
  induction fuel with
  | zero =>
    intro st inv hb hf
    exfalso
    have hlen : st.2.1.length ≤ N := nodup_lt_length_le inv.nodup hb
    omega
  | succ fuel ih =>
    rintro ⟨heap0, seen, clos⟩ inv hb hf
    match heap0 with
    | [] => exact ⟨rfl, inv, fun v hv => hv⟩
    | source :: heap =>
      have hstep := closInv_step adj start source heap seen clos inv
      have hlens := closureFold_lengths (adj source) (heap, seen, clos)
      have hb2 : ∀ v ∈ ((adj source).foldl closurePush (heap, seen, clos)).2.1,
          v < N := by
        intro v hv
        rcases (closureFold_seen_mem _ _ v).1 hv with hv | hv
        · exact hb v hv
        · exact hadj source v hv
      have hf2 : ((adj source).foldl closurePush (heap, seen, clos)).1.length +
          N + 1 ≤ fuel +
          ((adj source).foldl closurePush (heap, seen, clos)).2.1.length := by
        simp only [List.length_cons] at hf
        dsimp only at hlens ⊢
        omega
      have hres := ih _ hstep hb2 hf2
      refine ⟨hres.1, hres.2.1, ?_⟩
      intro v hv
      exact hres.2.2 v ((closureFold_seen_mem _ _ v).2 (Or.inl hv))

/-- C8 (counterexample): on an automaton with a pure-marker cycle
`0 → 1 → 0`, state 0 appears in its own closure image, contradicting the
claim's "s itself is excluded from its own closure image … for every
automaton including those with pure-marker cycles". -/
theorem c8_self_in_closure_on_marker_cycle :
    0 ∈ Automaton.closure_for_assignations
      ⟨2, [(0, .assign (.Open 0), 1), (1, .assign (.Close 0), 0)], [0]⟩ 0 := by
  decide

/-- C8 (amended): for every well-formed automaton and state `s`,
`get_closure_for_assignations()[s]` is exactly the set of states reachable
from `s` by a nonempty path of Marker edges; `s` is therefore excluded
from its own closure image precisely when no pure-marker cycle passes
through `s` (with a marker cycle, `s` is listed). -/
theorem c8_closure_is_marker_reachability (a : Automaton) (start : Nat)
    (wf : WellFormed a) (hs : start < a.nb_states) :
    ∀ t, t ∈ a.closure_for_assignations start ↔
      Relation.TransGen (MarkerStep a) start t := by
  have hadj : ∀ v, ∀ t ∈ a.assignAdj v, t < a.nb_states :=
    fun v t ht => assignAdj_lt wf ht
  have inv0 : ClosInv a.assignAdj start ([start], [start], []) := by
    refine ⟨List.nodup_singleton _, fun v hv => hv, ?_, ?_, ?_⟩
    · intro v hv hnv
      exact absurd hv hnv
    · intro v hv
      rw [List.mem_singleton.1 hv]
    · intro x hx
      exact absurd hx (List.not_mem_nil x)
  have hb0 : ∀ v ∈ ([start], [start], ([] : List Nat)).2.1, v < a.nb_states := by
    intro v hv
    rw [List.mem_singleton.1 hv]
    exact hs
  have hf0 : ([start] : List Nat).length + a.nb_states + 1 ≤
      (a.nb_states + 1) + ([start] : List Nat).length := by
    simp only [List.length_singleton]
    omega
  have hres := closureLoop_spec a.assignAdj start a.nb_states hadj
    (a.nb_states + 1) ([start], [start], []) inv0 hb0 hf0
  intro t
  constructor
  · intro ht
    have := hres.2.1.reach_clos t ht
    exact Relation.TransGen.mono (fun x y h => (mem_assignAdj a x y).1 h) this
  · intro ht
    have ht2 : Relation.TransGen (stepRel a.assignAdj) start t :=
      Relation.TransGen.mono (fun x y h => (mem_assignAdj a x y).2 h) ht
    have hstart_seen : start ∈
        (closureLoop a.assignAdj (a.nb_states + 1) ([start], [start], [])).2.1 :=
      hres.2.2 start (List.mem_singleton.2 rfl)
    have hseen : ∀ v, Relation.ReflTransGen (stepRel a.assignAdj) start v →
        v ∈ (closureLoop a.assignAdj (a.nb_states + 1)
          ([start], [start], [])).2.1 := by
      intro v hv
      induction hv with
      | refl => exact hstart_seen
      | tail hab hbc ihv =>
        exact (hres.2.1.processed _ ihv (by rw [hres.1]; exact List.not_mem_nil _) _ hbc).2
    rcases Relation.TransGen.tail'_iff.1 ht2 with ⟨b, hab, hbc⟩
    exact (hres.2.1.processed b (hseen b hab)
      (by rw [hres.1]; exact List.not_mem_nil _) t hbc).1

/-- Witness for the amended C8 theorem at a concrete automaton: state 1 is
in the closure of state 0, and so reachable by a nonempty marker path. -/
theorem c8_closure_is_marker_reachability_witness :
    Relation.TransGen
      (MarkerStep ⟨2, [(0, Label.assign (Marker.Open 0), 1)], [1]⟩) 0 1 :=
  (c8_closure_is_marker_reachability
    ⟨2, [(0, Label.assign (Marker.Open 0), 1)], [1]⟩ 0
    (by unfold WellFormed; decide) (by decide) 1).1 (by decide)

--  C2: follow_sp_sm ------------------------------------------------------------

/-- A path of Marker transitions from `u` to `v`, carrying the list of the
markers it uses (the spec's "reverse-marker path within the layer", read in
the original edge direction). -/
inductive MarkerPath (a : Automaton) : Nat → List Marker → Nat → Prop where
  | nil : ∀ u, MarkerPath a u [] u
  | cons : ∀ {u m w ms v}, (u, Label.assign m, w) ∈ a.transitions →
      MarkerPath a w ms v → MarkerPath a u (m :: ms) v

/-- The declarative description of `follow_sp_sm` given by the claim: from
`u` there is a marker path to some `v ∈ γ` that uses every marker of `S⁺`
and no marker of `S⁻`. -/
def FollowSpec (a : Automaton) (gamma : List Nat) (s_p s_m : List Marker)
    (u : Nat) : Prop :=
  ∃ ms v, v ∈ gamma ∧ MarkerPath a u ms v ∧
    (∀ m ∈ s_p, m ∈ ms) ∧ (∀ m ∈ ms, m ∉ s_m)

theorem mem_rev_assignations (a : Automaton) (t : Nat) (m : Marker) (s : Nat) :
    (m, s) ∈ a.rev_assignations t ↔ (s, Label.assign m, t) ∈ a.transitions := by
  constructor
  · intro h
    rcases List.mem_filterMap.1 h with ⟨⟨src, l, tgt⟩, he, hf⟩
    cases l with
    | atom f => simp [Automaton.rev_assignations] at hf
    | assign m2 =>
      dsimp only at hf
      by_cases htc : tgt = t
      · rw [if_pos htc] at hf
        cases hf
        exact htc ▸ he
      · rw [if_neg htc] at hf
        cases hf
  · intro h
    refine List.mem_filterMap.2 ⟨(s, Label.assign m, t), h, ?_⟩
    simp

theorem lookup_mem {α β : Type} [DecidableEq α] :
    ∀ (l : List (α × β)) (k : α) (v : β), l.lookup k = some v → (k, v) ∈ l := by
  intro l
  induction l with
  | nil => intro k v h; simp [List.lookup] at h
  | cons hd tl ih =>
    intro k v h
    rcases hd with ⟨k0, v0⟩
    simp only [List.lookup] at h
    cases hbeq : (k == k0) with
    | true =>
      rw [hbeq] at h
      cases h
      have hk : k = k0 := by simpa using hbeq
      exact hk ▸ List.mem_cons_self _ _
    | false =>
      rw [hbeq] at h
      exact List.mem_cons_of_mem _ (ih k v h)

theorem mem_setAssoc {α β : Type} [DecidableEq α] (k : α) (v : β) :
    ∀ l, ∀ e ∈ setAssoc k v l, e = (k, v) ∨ e ∈ l := by
  intro l
  induction l with
  | nil =>
    intro e he
    unfold setAssoc at he
    exact Or.inl (List.mem_singleton.1 he)
  | cons hd tl ih =>
    intro e he
    rcases hd with ⟨k0, v0⟩
    unfold setAssoc at he
    by_cases hk : k0 = k
    · rw [if_pos hk] at he
      rcases List.mem_cons.1 he with rfl | he
      · exact Or.inl rfl
      · exact Or.inr (List.mem_cons_of_mem _ he)
    · rw [if_neg hk] at he
      rcases List.mem_cons.1 he with rfl | he
      · exact Or.inr (List.mem_cons_self _ _)
      · rcases ih e he with h | h
        · exact Or.inl h
        · exact Or.inr (List.mem_cons_of_mem _ h)

theorem mem_insertSet {α : Type} [DecidableEq α] (x y : α) (l : List α) :
    y ∈ insertSet x l ↔ y ∈ l ∨ y = x := by
  unfold insertSet
  by_cases h : x ∈ l
  · simp only [if_pos h]
    constructor
    · exact Or.inl
    · rintro (hy | rfl)
      · exact hy
      · exact h
  · simp [h]

theorem insertSet_nodup {α : Type} [DecidableEq α] (x : α) (l : List α)
    (h : l.Nodup) : (insertSet x l).Nodup := by
  unfold insertSet
  by_cases hm : x ∈ l
  · simpa [hm] using h
  · simp only [if_neg hm]
    exact List.Nodup.append h (List.nodup_singleton x)
      (fun y hy hyx => hm ((List.mem_singleton.1 hyx) ▸ hy))

/-- Soundness invariant of `follow_sp_sm`'s path sets: every concrete entry
holds a duplicate-free set that is exactly the S⁺-trace of an actual marker
path from the entry's vertex to `γ` avoiding S⁻. -/
def PsInv (a : Automaton) (gamma : List Nat) (s_p s_m : List Marker)
    (ps : List (Nat × Option (List Marker))) : Prop :=
  ∀ e ∈ ps, ∀ S, e.2 = some S →
    S.Nodup ∧
    ∃ ms v, v ∈ gamma ∧ MarkerPath a e.1 ms v ∧
      (∀ m ∈ ms, m ∉ s_m) ∧ (∀ m, m ∈ S ↔ m ∈ ms ∧ m ∈ s_p)

theorem followRelax_inv {a : Automaton} {gamma : List Nat}
    {s_p s_m : List Marker} {source : Nat} {e : Marker × Nat}
    {acc acc' : List Nat × List (Nat × Option (List Marker))}
    (hedge : (e.2, Label.assign e.1, source) ∈ a.transitions)
    (hstep : followRelax s_p s_m source acc e = some acc')
    (hinv : PsInv a gamma s_p s_m acc.2) :
    PsInv a gamma s_p s_m acc'.2 := by
  unfold followRelax at hstep
  by_cases hsm : e.1 ∈ s_m
  · rw [if_pos hsm] at hstep
    cases hstep
    exact hinv
  · rw [if_neg hsm] at hstep
    cases hsrc : acc.2.lookup source with
    | none => rw [hsrc] at hstep; dsimp only at hstep; cases hstep
    | some osp =>
      cases osp with
      | none => rw [hsrc] at hstep; dsimp only at hstep; cases hstep
      | some src_ps =>
        rw [hsrc] at hstep
        have hsrc_inv := hinv (source, some src_ps)
          (lookup_mem _ _ _ hsrc) src_ps rfl
        rcases hsrc_inv with ⟨hnd, ms, v, hv, hpath, hms_sm, htrace⟩
        have hnew : ∀ S2, S2 = (if e.1 ∈ s_p then insertSet e.1 src_ps
            else src_ps) →
            S2.Nodup ∧
            ∃ ms2 v2, v2 ∈ gamma ∧ MarkerPath a e.2 ms2 v2 ∧
              (∀ m ∈ ms2, m ∉ s_m) ∧ (∀ m, m ∈ S2 ↔ m ∈ ms2 ∧ m ∈ s_p) := by
          intro S2 hS2
          refine ⟨?_, e.1 :: ms, v, hv, MarkerPath.cons hedge hpath, ?_, ?_⟩
          · rw [hS2]
            by_cases hp : e.1 ∈ s_p
            · rw [if_pos hp]; exact insertSet_nodup _ _ hnd
            · rw [if_neg hp]; exact hnd
          · intro m hm
            rcases List.mem_cons.1 hm with rfl | hm
            · exact hsm
            · exact hms_sm m hm
          · intro m
            rw [hS2]
            by_cases hp : e.1 ∈ s_p
            · rw [if_pos hp, mem_insertSet]
              constructor
              · rintro (hm | rfl)
                · rcases (htrace m).1 hm with ⟨h1, h2⟩
                  exact ⟨List.mem_cons_of_mem _ h1, h2⟩
                · exact ⟨List.mem_cons_self _ _, hp⟩
              · rintro ⟨hm, hmp⟩
                rcases List.mem_cons.1 hm with rfl | hm
                · exact Or.inr rfl
                · exact Or.inl ((htrace m).2 ⟨hm, hmp⟩)
            · rw [if_neg hp]
              constructor
              · intro hm
                rcases (htrace m).1 hm with ⟨h1, h2⟩
                exact ⟨List.mem_cons_of_mem _ h1, h2⟩
              · rintro ⟨hm, hmp⟩
                rcases List.mem_cons.1 hm with rfl | hm
                · exact absurd hmp hp
                · exact (htrace m).2 ⟨hm, hmp⟩
        cases htgt : acc.2.lookup e.2 with
        | none =>
          rw [htgt] at hstep
          dsimp only at hstep
          cases hstep
          intro f hf S hS
          rcases mem_setAssoc _ _ _ f hf with rfl | hf2
          · cases hS
            exact hnew _ rfl
          · exact hinv f hf2 S hS
        | some otgt =>
          cases otgt with
          | none =>
            rw [htgt] at hstep
            dsimp only at hstep
            cases hstep
            exact hinv
          | some old_ps =>
            rw [htgt] at hstep
            dsimp only at hstep
            by_cases hinc : areIncomparable
                (if e.1 ∈ s_p then insertSet e.1 src_ps else src_ps) old_ps = true
            · rw [if_pos hinc] at hstep
              cases hstep
              intro f hf S hS
              rcases mem_setAssoc _ _ _ f hf with rfl | hf2
              · cases hS
              · exact hinv f hf2 S hS
            · rw [if_neg hinc] at hstep
              cases hstep
              intro f hf S hS
              rcases mem_setAssoc _ _ _ f hf with rfl | hf2
              · cases hS
                exact hnew _ rfl
              · exact hinv f hf2 S hS

theorem followFold_inv {a : Automaton} {gamma : List Nat}
    {s_p s_m : List Marker} {source : Nat} :
    ∀ (edges : List (Marker × Nat)),
      (∀ e ∈ edges, (e.2, Label.assign e.1, source) ∈ a.transitions) →
      ∀ acc acc',
        edges.foldlM (followRelax s_p s_m source) acc = some acc' →
        PsInv a gamma s_p s_m acc.2 → PsInv a gamma s_p s_m acc'.2 := by
  intro edges
  induction edges with
  | nil =>
    intro _ acc acc' hstep hinv
    cases hstep
    exact hinv
  | cons e rest ih =>
    intro hedges acc acc' hstep hinv
    rw [List.foldlM_cons] at hstep
    cases hrel : followRelax s_p s_m source acc e with
    | none => rw [hrel] at hstep; cases hstep
    | some acc1 =>
      rw [hrel] at hstep
      exact ih (fun f hf => hedges f (List.mem_cons_of_mem _ hf)) acc1 acc'
        hstep
        (followRelax_inv (hedges e (List.mem_cons_self _ _)) hrel hinv)

theorem followLoop_inv {a : Automaton} {gamma : List Nat}
    {s_p s_m : List Marker} :
    ∀ (fuel : Nat) (queue : List Nat) (ps ps' : List (Nat × Option (List Marker))),
      followLoop a.rev_assignations s_p s_m fuel queue ps = some ps' →
      PsInv a gamma s_p s_m ps → PsInv a gamma s_p s_m ps' := by
  intro fuel
  induction fuel with
  | zero => intro queue ps ps' h; cases h
  | succ fuel ih =>
    intro queue ps ps' h hinv
    match queue with
    | [] =>
      cases h
      exact hinv
    | source :: queue =>
      unfold followLoop at h
      cases hfold : (a.rev_assignations source).foldlM
          (followRelax s_p s_m source) (queue, ps) with
      | none => rw [hfold] at h; cases h
      | some acc1 =>
        rw [hfold] at h
        have hedges : ∀ e ∈ a.rev_assignations source,
            (e.2, Label.assign e.1, source) ∈ a.transitions := by
          intro e he
          exact (mem_rev_assignations a source e.1 e.2).1 he
        exact ih acc1.1 acc1.2 ps' h
          (followFold_inv (a.rev_assignations source) hedges (queue, ps) acc1
            hfold hinv)

theorem ps0_inv (a : Automaton) (gamma : List Nat) (s_p s_m : List Marker) :
    PsInv a gamma s_p s_m
      (gamma.foldl (fun ps state => setAssoc state (some []) ps) []) := by
  suffices h : ∀ (l : List Nat) (acc : List (Nat × Option (List Marker))),
      (∀ s ∈ l, s ∈ gamma) → PsInv a gamma s_p s_m acc →
      PsInv a gamma s_p s_m
        (l.foldl (fun ps state => setAssoc state (some []) ps) acc) by
    refine h gamma [] (fun s hs => hs) ?_
    intro e he
    exact absurd he (List.not_mem_nil e)
  intro l
  induction l with
  | nil => intro acc _ hacc; exact hacc
  | cons s rest ih =>
    intro acc hl hacc
    rw [List.foldl_cons]
    refine ih _ (fun x hx => hl x (List.mem_cons_of_mem _ hx)) ?_
    intro e he S hS
    rcases mem_setAssoc _ _ _ e he with rfl | he2
    · cases hS
      exact ⟨List.nodup_nil, [], s, hl s (List.mem_cons_self _ _),
        MarkerPath.nil s, fun m hm => absurd hm (List.not_mem_nil m),
        fun m => by simp⟩
    · exact hacc e he2 S hS

/-- C2 (counterexample): on the automaton with two parallel marker edges
`0 -Open(0)-> 1` and `0 -Close(0)-> 1`, with `γ = {1}`, `S⁺ = {Open(0)}`,
`S⁻ = ∅`, `follow_sp_sm` returns the empty set even though vertex 0 has a
marker path to `γ` using every marker of `S⁺` and none of `S⁻` (the later
relaxation through the `Close(0)` edge overwrites the trace `{Open(0)}`
with the comparable smaller trace `∅`).  This refutes the claimed equality
of `follow_sp_sm` with the declarative set. -/
theorem c2_follow_misses_witnessed_vertex :
    follow_sp_sm
      ⟨2, [(0, .assign (.Open 0), 1), (0, .assign (.Close 0), 1)], [1]⟩
      [1] [.Open 0] [] = some []
    ∧ FollowSpec
      ⟨2, [(0, .assign (.Open 0), 1), (0, .assign (.Close 0), 1)], [1]⟩
      [1] [.Open 0] [] 0 := by
  constructor
  · rfl
  · refine ⟨[.Open 0], 1, List.mem_singleton.2 rfl,
      MarkerPath.cons (List.mem_cons_self _ _) (MarkerPath.nil 1), ?_, ?_⟩
    · intro m hm
      exact hm
    · intro m _
      exact List.not_mem_nil m

/-- C2 (amended): `follow_sp_sm(γ, S⁺, S⁻)` is sound — every vertex it
returns has a marker path within the layer to some `v ∈ γ` that uses every
marker in `S⁺` and no marker in `S⁻` — but it need not return every such
vertex (the BFS never re-propagates an updated path set, see the
counterexample). -/
theorem c2_follow_sound (a : Automaton) (gamma : List Nat)
    (s_p s_m : List Marker) (res : List Nat)
    (h : follow_sp_sm a gamma s_p s_m = some res) :
    ∀ u ∈ res, FollowSpec a gamma s_p s_m u := by
  unfold follow_sp_sm at h
  dsimp only at h
  cases hl : followLoop a.rev_assignations s_p s_m
      (gamma.length + a.transitions.length + 1) gamma
      (gamma.foldl (fun ps state => setAssoc state (some []) ps) []) with
  | none => rw [hl] at h; cases h
  | some ps =>
    rw [hl] at h
    cases h
    have hinv : PsInv a gamma s_p s_m ps :=
      followLoop_inv _ _ _ _ hl (ps0_inv a gamma s_p s_m)
    intro u hu
    obtain ⟨e, he, hf⟩ := List.mem_filterMap.1 hu
    cases hS : e.2 with
    | none => rw [hS] at hf; cases hf
    | some S =>
      rw [hS] at hf
      dsimp only at hf
      by_cases hlen : S.length = s_p.length
      · rw [if_pos hlen] at hf
        cases hf
        rcases hinv e he S hS with ⟨hnd, ms, v, hv, hpath, hms_sm, htrace⟩
        have hsub : S ⊆ s_p := fun m hm => ((htrace m).1 hm).2
        have hperm : S.Perm s_p :=
          (List.subperm_of_subset hnd hsub).perm_of_length_le (le_of_eq hlen.symm)
        refine ⟨ms, v, hv, hpath, ?_, hms_sm⟩
        intro m hm
        exact ((htrace m).1 (hperm.mem_iff.2 hm)).1
      · rw [if_neg hlen] at hf
        cases hf

/-- Witness for the amended C2 theorem: on `0 -Open(0)-> 1`, with
`γ = {1}`, `S⁺ = {Open(0)}`, `S⁻ = ∅`, the function returns `[0]` and
vertex 0 indeed admits the required path. -/
theorem c2_follow_sound_witness :
    FollowSpec ⟨2, [(0, .assign (.Open 0), 1)], [1]⟩ [1] [.Open 0] [] 0 :=
  c2_follow_sound ⟨2, [(0, .assign (.Open 0), 1)], [1]⟩ [1] [.Open 0] [] [0]
    rfl 0 (List.mem_singleton.2 rfl)

--  C6: jump levels (Jump::new / Jump::init_next_level) -----------------------

/-- Deleting a key from an association list only removes entries. -/
theorem mem_delAssoc {α β : Type} [DecidableEq α] (k : α) :
    ∀ (l : List (α × β)) (e : α × β), e ∈ delAssoc k l → e ∈ l := by
  intro l
  induction l with
  | nil => intro e he; exact he
  | cons hd tl ih =>
    intro e he
    rcases hd with ⟨k₀, v₀⟩
    unfold delAssoc at he
    by_cases hk : k₀ = k
    · rw [if_pos hk] at he
      exact List.mem_cons_of_mem _ he
    · rw [if_neg hk] at he
      rcases List.mem_cons.1 he with rfl | he
      · exact List.mem_cons_self _ _
      · exact List.mem_cons_of_mem _ (ih e he)

/-- Peeling lemma: a fold whose body never adds `jl` entries never adds `jl`
entries. -/
theorem foldl_jl_mem {α : Type} (l : List α) (f : Jump → α → Jump) :
    ∀ (j : Jump) (e : (Nat × Nat) × Nat), e ∈ (l.foldl f j).jl →
      (∀ j x e, e ∈ (f j x).jl → e ∈ j.jl) → e ∈ j.jl := by
  induction l with
  | nil => intro j e he _; exact he
  | cons x xs ih => intro j e he hf; exact hf j x e (ih (f j x) e he hf)

/-- Variant of the peeling lemma where the body may add entries satisfying a
predicate `P`. -/
theorem foldl_jl_mem_or {α : Type} (P : (Nat × Nat) × Nat → Prop) (l : List α)
    (f : Jump → α → Jump) :
    ∀ (j : Jump) (e : (Nat × Nat) × Nat), e ∈ (l.foldl f j).jl →
      (∀ j x e, e ∈ (f j x).jl → e ∈ j.jl ∨ P e) → e ∈ j.jl ∨ P e := by
  induction l with
  | nil => intro j e he _; exact Or.inl he
  | cons x xs ih =>
    intro j e he hf
    rcases ih (f j x) e he hf with h1 | h1
    · exact hf j x e h1
    · exact Or.inr h1

/-- `Jump::extend_level` does not touch the jump-level table. -/
theorem extend_level_jl_mem (j : Jump) (level : Nat)
    (nonjump_adj : List (List Nat)) (e : (Nat × Nat) × Nat)
    (he : e ∈ (j.extend_level level nonjump_adj).jl) : e ∈ j.jl := by
  unfold Jump.extend_level at he
  dsimp only at he
  exact foldl_jl_mem _ _ _ e he (fun j s e h =>
    foldl_jl_mem _ _ _ e h (fun j t e h₂ => h₂))

/-- `Jump::init_reach` does not touch the jump-level table. -/
theorem init_reach_jl_mem (j : Jump) (level : Nat)
    (jump_adj : List (List Nat)) (e : (Nat × Nat) × Nat)
    (he : e ∈ (j.init_reach level jump_adj).jl) : e ∈ j.jl := by
  unfold Jump.init_reach Jump.initReachCounters Jump.initReachRlevels at he
  dsimp only at he
  replace he := foldl_jl_mem _ _ _ e he (fun j s e h => by
    try dsimp only at h
    exact foldl_jl_mem _ _ _ e h (fun j vp e h₂ => by
      try dsimp only at h₂
      split at h₂ <;> exact h₂))
  replace he := foldl_jl_mem _ _ _ e he (fun j v e h => h)
  split at he
  all_goals try dsimp only at he
  all_goals
    replace he := foldl_jl_mem _ _ _ e he (fun j s e h => by
      unfold productStep at h
      try dsimp only at h
      split at h <;> exact h)
  all_goals replace he := foldl_jl_mem _ _ _ e he (fun j s e h => h)
  all_goals exact he

/-- `Jump::clean_level` only ever deletes jump-level entries. -/
theorem clean_level_jl_mem (j : Jump) (level : Nat)
    (jump_adj : List (List Nat)) (e : (Nat × Nat) × Nat)
    (he : e ∈ (j.clean_level level jump_adj).1.jl) : e ∈ j.jl := by
  unfold Jump.clean_level at he
  split at he
  · exact he
  · split at he
    · exact he
    · dsimp only at he
      split at he
      · exact he
      · split at he
        · -- the level became empty
          try dsimp only at he
          replace he := foldl_jl_mem _ _ _ e he (fun j s e h => h)
          replace he := foldl_jl_mem _ _ _ e he (fun j u e h => h)
          replace he := foldl_jl_mem _ _ _ e he (fun j s e h => by
            try dsimp only at h
            exact foldl_jl_mem _ _ _ e h (fun j vp e h₂ => by
              try dsimp only at h₂
              split at h₂ <;> exact h₂))
          replace he := foldl_jl_mem _ _ _ e he (fun j v e h => by
            try dsimp only at h
            exact mem_delAssoc _ _ e h)
          exact he
        · -- the level remains
          try dsimp only at he
          replace he := foldl_jl_mem _ _ _ e he (fun j s e h => h)
          replace he := foldl_jl_mem _ _ _ e he (fun j u e h => h)
          replace he := foldl_jl_mem _ _ _ e he (fun j v e h => h)
          try dsimp only at he
          replace he := foldl_jl_mem _ _ _ e he (fun j s e h => h)
          replace he := foldl_jl_mem _ _ _ e he (fun j s e h => by
            try dsimp only at h
            exact foldl_jl_mem _ _ _ e h (fun j v e h₂ => by
              try dsimp only at h₂
              split at h₂ <;> exact h₂))
          replace he := foldl_jl_mem _ _ _ e he (fun j s e h => by
            try dsimp only at h
            exact foldl_jl_mem _ _ _ e h (fun j v e h₂ => by
              try dsimp only at h₂
              split at h₂ <;> exact h₂))
          replace he := foldl_jl_mem _ _ _ e he (fun j v e h => by
            try dsimp only at h
            exact mem_delAssoc _ _ e h)
          exact he

/-- Level bound of the jump-level table: entries of layer 0 hold 0, entries
of layer `ℓ ≥ 1` hold a value `< ℓ`. -/
def JlInv (jl : List ((Nat × Nat) × Nat)) : Prop :=
  ∀ e ∈ jl, (e.1.1 = 0 → e.2 = 0) ∧ (1 ≤ e.1.1 → e.2 < e.1.1)

/-- Variant of `lookup_mem` for any lawful boolean equality (the `Jump`
tables use pair keys, whose `BEq` instance is the product instance). -/
theorem lookup_mem_beq {α β : Type} [BEq α] [LawfulBEq α] :
    ∀ (l : List (α × β)) (k : α) (v : β), l.lookup k = some v → (k, v) ∈ l := by
  intro l
  induction l with
  | nil => intro k v h; simp [List.lookup] at h
  | cons hd tl ih =>
    intro k v h
    rcases hd with ⟨k₀, v₀⟩
    simp only [List.lookup] at h
    cases hbeq : (k == k₀) with
    | true =>
      rw [hbeq] at h
      cases h
      have hk : k = k₀ := eq_of_beq hbeq
      exact hk ▸ List.mem_cons_self _ _
    | false =>
      rw [hbeq] at h
      exact List.mem_cons_of_mem _ (ih k v h)

/-- A successful lookup in a bounded jump-level table is bounded by its
layer. -/
theorem jl_lookup_bound {jl : List ((Nat × Nat) × Nat)} (h : JlInv jl)
    {L v p : Nat} (hl : jl.lookup (L, v) = some p) :
    p ≤ L ∧ (1 ≤ L → p < L) := by
  have hm := h _ (lookup_mem_beq _ _ _ hl)
  dsimp only at hm
  obtain ⟨h₀, h₁⟩ := hm
  constructor
  · rcases Nat.eq_zero_or_pos L with rfl | hL
    · have := h₀ rfl; omega
    · have := h₁ hL; omega
  · exact h₁

/-- The computed jump level never exceeds the level of the edge's source. -/
theorem cmptJumpLevel_le (nv : List (Nat × Nat)) (ll source : Nat)
    (sjl prev : Option Nat) (hs : ∀ p, sjl = some p → p ≤ ll)
    (hp : ∀ p, prev = some p → p ≤ ll) :
    cmptJumpLevel nv ll source sjl prev ≤ ll := by
  unfold cmptJumpLevel
  split
  · exact Nat.le_refl ll
  · have h₁ : sjl.getD 0 ≤ ll := by
      cases sjl with
      | none => exact Nat.zero_le ll
      | some p => exact hs p rfl
    cases prev with
    | none => exact h₁
    | some p => exact Nat.max_le.2 ⟨h₁, hp p rfl⟩

/-- Registering one jumpable edge's target preserves the level bound. -/
theorem registerTarget_jlInv (ll source : Nat) (sjl : Option Nat)
    (hs : ∀ p, sjl = some p → p ≤ ll) (j : Jump) (t : Nat)
    (h : JlInv j.jl) : JlInv (registerTarget ll source sjl j t).jl := by
  unfold registerTarget
  cases hl : j.jl.lookup (ll + 1, t) with
  | some tjl =>
    dsimp only
    intro e he
    rcases mem_setAssoc _ _ _ e he with rfl | he₂
    · have hb : tjl < ll + 1 := (jl_lookup_bound h hl).2 (Nat.le_add_left 1 ll)
      have hcle : cmptJumpLevel j.nonjump_vertices ll source sjl
          (some tjl) ≤ ll :=
        cmptJumpLevel_le _ _ _ _ _ hs
          (fun p hp => by injection hp with hpe; omega)
      dsimp only
      exact ⟨fun h₀ => by omega, fun _ => by omega⟩
    · exact h e he₂
  | none =>
    dsimp only
    intro e he
    rcases mem_setAssoc _ _ _ e he with rfl | he₂
    · have hcle : cmptJumpLevel j.nonjump_vertices ll source sjl none ≤ ll :=
        cmptJumpLevel_le _ _ _ _ _ hs (fun p hp => by cases hp)
      dsimp only
      exact ⟨fun h₀ => by omega, fun _ => by omega⟩
    · exact h e he₂

/-- The inner edge loop of `Jump::init_next_level` preserves the level
bound (the source's jump level is captured before the loop). -/
theorem registerTargets_fold_jlInv (ll source : Nat) (sjl : Option Nat)
    (hs : ∀ p, sjl = some p → p ≤ ll) :
    ∀ (ts : List Nat) (j : Jump), JlInv j.jl →
      JlInv ((ts.foldl (registerTarget ll source sjl) j).jl) := by
  intro ts
  induction ts with
  | nil => intro j h; exact h
  | cons t rest ih =>
    intro j h
    rw [List.foldl_cons]
    exact ih _ (registerTarget_jlInv ll source sjl hs j t h)

/-- The registration loop of `Jump::init_next_level` preserves the level
bound. -/
theorem registerNextLevel_jlInv (j : Jump) (jump_adj : List (List Nat))
    (h : JlInv j.jl) : JlInv (j.registerNextLevel jump_adj).jl := by
  unfold Jump.registerNextLevel
  dsimp only
  generalize (j.levelset.get_level j.last_level).getD [] = srcs
  generalize j.last_level = ll
  induction srcs generalizing j with
  | nil => exact h
  | cons s rest ih =>
    rw [List.foldl_cons]
    exact ih _ (registerTargets_fold_jlInv ll s (j.jl.lookup (ll, s))
      (fun p hp => (jl_lookup_bound h hp).1) _ j h)

/-- `Jump::init_next_level` preserves the level bound. -/
theorem init_next_level_jlInv (j : Jump) (jump_adj nonjump_adj : List (List Nat))
    (h : JlInv j.jl) : JlInv (j.init_next_level jump_adj nonjump_adj).jl := by
  unfold Jump.init_next_level
  dsimp only
  split
  · exact registerNextLevel_jlInv j jump_adj h
  · intro e he
    dsimp only at he
    replace he := init_reach_jl_mem _ _ _ e he
    replace he := extend_level_jl_mem _ _ _ e he
    exact registerNextLevel_jlInv j jump_adj h e he

/-- `Jump::new` establishes the level bound: its only jump-level entries are
`(0, state) ↦ 0`. -/
theorem new_jlInv (initial_level : List Nat) (nonjump_adj : List (List Nat)) :
    JlInv (Jump.new initial_level nonjump_adj).jl := by
  intro e he
  unfold Jump.new at he
  dsimp only at he
  replace he := foldl_jl_mem _ _ _ e he (fun j v e h => h)
  replace he := extend_level_jl_mem _ _ _ e he
  have hor := foldl_jl_mem_or (fun e => e.1.1 = 0 ∧ e.2 = 0) _ _ _ e he
    (fun j s e h => by
      dsimp only at h
      rcases mem_setAssoc _ _ _ e h with rfl | h₂
      · exact Or.inr ⟨rfl, rfl⟩
      · exact Or.inl h₂)
  rcases hor with h₁ | h₁
  · exact absurd h₁ (List.not_mem_nil e)
  · exact ⟨fun _ => h₁.2, fun hL => by omega⟩

/-- The cleaning pass of the compile loop preserves the level bound. -/
theorem cleanFold_jlInv (nonjump : List (List Nat)) :
    ∀ (lvls : List Nat) (j : Jump), JlInv j.jl →
      JlInv ((lvls.foldl (fun j lvl => (j.clean_level lvl nonjump).1) j).jl) := by
  intro lvls
  induction lvls with
  | nil => intro j h; exact h
  | cons l ls ih =>
    intro j h
    rw [List.foldl_cons]
    exact ih _ (fun e he => h e (clean_level_jl_mem _ _ _ e he))

/-- The character loop of `IndexedDag::compile` preserves the level bound. -/
theorem compileLoop_jlInv (a : Automaton) (nonjump : List (List Nat)) :
    ∀ (text : List Char) (j : Jump) (cl cons : Nat), JlInv j.jl →
      JlInv (compileLoop a nonjump text j cl cons).1.jl := by
  intro text
  induction text with
  | nil => intro j cl cons h; exact h
  | cons c rest ih =>
    intro j cl cons h
    unfold compileLoop
    dsimp only
    split
    · -- a cleaning pass runs
      split
      · exact cleanFold_jlInv nonjump _ _ (init_next_level_jlInv _ _ _ h)
      · exact ih _ _ _ (cleanFold_jlInv nonjump _ _ (init_next_level_jlInv _ _ _ h))
    · -- no cleaning pass
      split
      · exact init_next_level_jlInv _ _ _ h
      · exact ih _ _ _ (init_next_level_jlInv _ _ _ h)

/-- Modelled from the claim's words: the jump level of the target of an
Atom-edge from `(ℓ, s)` to `(ℓ+1, t)` becomes `max(existing, jl(ℓ, s))`,
or `max(existing, ℓ)` when `(ℓ, s)` is non-jumpable (the missing-source
`unwrap` is modelled by `getD 0` exactly as in `cmptJumpLevel`). -/
def cmptJumpLevelSpec (nonjump : List (Nat × Nat)) (last_level source : Nat)
    (source_jl : Option Nat) (previous_jl : Option Nat) : Nat :=
  if (last_level, source) ∈ nonjump then
    match previous_jl with
    | none => last_level
    | some p => max last_level p
  else
    match previous_jl with
    | none => source_jl.getD 0
    | some p => max (source_jl.getD 0) p

/-- The code's update rule agrees with the claimed `max` rule whenever the
existing entry is bounded by the source's layer. -/
theorem cmptJumpLevel_eq_spec (nv : List (Nat × Nat)) (ll source : Nat)
    (sjl prev : Option Nat) (hp : ∀ p, prev = some p → p ≤ ll) :
    cmptJumpLevel nv ll source sjl prev
      = cmptJumpLevelSpec nv ll source sjl prev := by
  unfold cmptJumpLevel cmptJumpLevelSpec
  split
  · cases prev with
    | none => rfl
    | some p => have := hp p rfl; dsimp only; omega
  · rfl

/-- A two-state automaton whose only transition is the marker edge
`0 -Open(0)-> 1`. -/
def autMarker01 : Automaton := ⟨2, [(0, .assign (.Open 0), 1)], [1]⟩

/-- C6, counterexample to "for every vertex registered in the level-set, jl
is defined": on `autMarker01`, `Jump::new` registers the closure vertex 1 in
layer 0 but assigns it no jump level. -/
theorem c6_closure_vertex_has_no_jump_level :
    (Jump.new [autMarker01.get_initial]
        (closureList autMarker01)).levelset.get_level 0 = some [0, 1] ∧
    (Jump.new [autMarker01.get_initial]
        (closureList autMarker01)).jl.lookup (0, 1) = none :=
  ⟨rfl, rfl⟩

/-- C6 (amended): throughout preprocessing the jump-level table satisfies
the level bounds — every defined entry of layer 0 carries the value 0 and
every defined entry of layer ℓ ≥ 1 carries a value < ℓ — and, whenever the
existing entry is bounded by the source's layer (which the invariant
guarantees), the code's update rule `cmptJumpLevel` coincides with the
claimed rule "max(existing, jl(ℓ, s)), or max(existing, ℓ) for a
non-jumpable source"; vertices added by the marker closure may have no
entry at all. -/
theorem c6_jump_levels (a : Automaton) (text : List Char)
    (nv : List (Nat × Nat)) (ll source : Nat) (sjl prev : Option Nat)
    (hp : ∀ p, prev = some p → p ≤ ll) :
    JlInv (IndexedDag.compile a text).jump.jl ∧
    cmptJumpLevel nv ll source sjl prev
      = cmptJumpLevelSpec nv ll source sjl prev := by
  constructor
  · unfold IndexedDag.compile compileWithCount
    dsimp only
    exact compileLoop_jlInv a (closureList a) text _ 0 0 (new_jlInv _ _)
  · exact cmptJumpLevel_eq_spec nv ll source sjl prev hp

/-- Concrete instantiation of the amended C6 theorem on the automaton of
`(?P<match>a)` over the text "a". -/
theorem c6_jump_levels_witness :
    JlInv (IndexedDag.compile autMatchA ['a']).jump.jl ∧
    cmptJumpLevel [] 3 0 (some 2) (some 1)
      = cmptJumpLevelSpec [] 3 0 (some 2) (some 1) :=
  c6_jump_levels autMatchA ['a'] [] 3 0 (some 2) (some 1)
    (fun p hp => by injection hp with h; omega)

--  C10: Mapping::from_markers (src/mapping/mod.rs) ---------------------------

/-- Positions of the `Open(v)` events of an event list, in order. -/
def openPositions (evs : List (Marker × Nat)) (v : Nat) : List Nat :=
  evs.filterMap (fun e => match e.1 with
    | .Open w => if w = v then some e.2 else none
    | .Close _ => none)

/-- Positions of the `Close(v)` events of an event list, in order. -/
def closePositions (evs : List (Marker × Nat)) (v : Nat) : List Nat :=
  evs.filterMap (fun e => match e.1 with
    | .Open _ => none
    | .Close w => if w = v then some e.2 else none)

/-- The span-dictionary entry that the event loop of `from_markers` builds
for a variable: absent when the variable is unmentioned, otherwise the first
Open and first Close positions. -/
def spanOf (evs : List (Marker × Nat)) (v : Nat) :
    Option (Option Nat × Option Nat) :=
  if openPositions evs v = [] ∧ closePositions evs v = [] then none
  else some ((openPositions evs v).head?, (closePositions evs v).head?)

/-- Per-variable event-count condition: at most one Open and at most one
Close. -/
def SpanCounts (evs : List (Marker × Nat)) : Prop :=
  ∀ v, (openPositions evs v).length ≤ 1 ∧ (closePositions evs v).length ≤ 1

theorem openPositions_append_open (evs : List (Marker × Nat)) (w p v : Nat) :
    openPositions (evs ++ [(Marker.Open w, p)]) v
      = openPositions evs v ++ (if w = v then [p] else []) := by
  unfold openPositions
  rw [List.filterMap_append]
  congr 1
  by_cases h : w = v
  · simp [h]
  · simp [h]

theorem closePositions_append_open (evs : List (Marker × Nat)) (w p v : Nat) :
    closePositions (evs ++ [(Marker.Open w, p)]) v = closePositions evs v := by
  unfold closePositions
  rw [List.filterMap_append]
  simp

theorem openPositions_append_close (evs : List (Marker × Nat)) (w p v : Nat) :
    openPositions (evs ++ [(Marker.Close w, p)]) v = openPositions evs v := by
  unfold openPositions
  rw [List.filterMap_append]
  simp

theorem closePositions_append_close (evs : List (Marker × Nat)) (w p v : Nat) :
    closePositions (evs ++ [(Marker.Close w, p)]) v
      = closePositions evs v ++ (if w = v then [p] else []) := by
  unfold closePositions
  rw [List.filterMap_append]
  congr 1
  by_cases h : w = v
  · simp [h]
  · simp [h]

/-- A list of length at most one with a known head is that singleton. -/
theorem length_le_one_head {l : List Nat} {i : Nat} (hl : l.length ≤ 1)
    (hh : l.head? = some i) : l = [i] := by
  cases l with
  | nil => exact Option.noConfusion hh
  | cons a t =>
    cases t with
    | nil =>
      injection hh with h
      rw [h]
    | cons b t₂ =>
      exfalso
      simp only [List.length_cons] at hl
      omega

theorem lookup_setAssoc_self {β : Type} (k : Nat) (v : β) :
    ∀ l : List (Nat × β), (setAssoc k v l).lookup k = some v := by
  intro l
  induction l with
  | nil => simp [setAssoc, List.lookup]
  | cons hd tl ih =>
    rcases hd with ⟨k₀, v₀⟩
    unfold setAssoc
    by_cases h : k₀ = k
    · rw [if_pos h]
      simp [List.lookup]
    · rw [if_neg h]
      simp only [List.lookup]
      have hbeq : (k == k₀) = false := by
        simp only [beq_eq_false_iff_ne]
        exact fun hx => h hx.symm
      rw [hbeq]
      exact ih

theorem lookup_setAssoc_ne {β : Type} {k k' : Nat} (hne : k' ≠ k) (v : β) :
    ∀ l : List (Nat × β), (setAssoc k v l).lookup k' = l.lookup k' := by
  intro l
  induction l with
  | nil =>
    have hbeq : (k' == k) = false := by
      simp only [beq_eq_false_iff_ne]
      exact hne
    unfold setAssoc
    simp only [List.lookup]
    rw [hbeq]
  | cons hd tl ih =>
    rcases hd with ⟨k₀, v₀⟩
    unfold setAssoc
    by_cases h : k₀ = k
    · rw [if_pos h]
      simp only [List.lookup]
      have hbeq : (k' == k) = false := by
        simp only [beq_eq_false_iff_ne]
        exact hne
      have hbeq₀ : (k' == k₀) = false := by rw [h]; exact hbeq
      rw [hbeq, hbeq₀]
    · rw [if_neg h]
      simp only [List.lookup]
      cases hbeq : (k' == k₀) with
      | true => rfl
      | false => exact ih

theorem mem_keys_setAssoc {β : Type} (k x : Nat) (v : β) (l : List (Nat × β))
    (h : x ∈ (setAssoc k v l).map Prod.fst) : x = k ∨ x ∈ l.map Prod.fst := by
  obtain ⟨e, he, hx⟩ := List.mem_map.1 h
  rcases mem_setAssoc _ _ _ e he with rfl | he₂
  · exact Or.inl hx.symm
  · exact Or.inr (List.mem_map.2 ⟨e, he₂, hx⟩)

theorem setAssoc_keys_nodup {β : Type} (k : Nat) (v : β) :
    ∀ l : List (Nat × β), (l.map Prod.fst).Nodup →
      ((setAssoc k v l).map Prod.fst).Nodup := by
  intro l
  induction l with
  | nil =>
    intro _
    simp [setAssoc]
  | cons hd tl ih =>
    rcases hd with ⟨k₀, v₀⟩
    intro h
    simp only [List.map_cons, List.nodup_cons] at h
    unfold setAssoc
    by_cases hk : k₀ = k
    · rw [if_pos hk]
      simp only [List.map_cons, List.nodup_cons]
      subst hk
      exact h
    · rw [if_neg hk]
      simp only [List.map_cons, List.nodup_cons]
      refine ⟨?_, ih h.2⟩
      intro hmem
      rcases mem_keys_setAssoc k k₀ v tl hmem with h₁ | h₁
      · exact hk h₁
      · exact h.1 h₁

/-- On a duplicate-free association list, membership gives the lookup. -/
theorem lookup_of_mem_keys_nodup {β : Type} :
    ∀ (l : List (Nat × β)), (l.map Prod.fst).Nodup →
      ∀ e ∈ l, l.lookup e.1 = some e.2 := by
  intro l
  induction l with
  | nil => intro _ e he; cases he
  | cons hd tl ih =>
    intro hnd e he
    rcases hd with ⟨k₀, v₀⟩
    simp only [List.map_cons, List.nodup_cons] at hnd
    rcases List.mem_cons.1 he with rfl | he₂
    · simp [List.lookup]
    · simp only [List.lookup]
      have hne : (e.1 == k₀) = false := by
        simp only [beq_eq_false_iff_ne]
        intro hx
        exact hnd.1 (hx ▸ List.mem_map.2 ⟨e, he₂, rfl⟩)
      rw [hne]
      exact ih hnd.2 e he₂

theorem spanOf_eq_none_iff (evs : List (Marker × Nat)) (v : Nat) :
    spanOf evs v = none ↔
      openPositions evs v = [] ∧ closePositions evs v = [] := by
  unfold spanOf
  split
  · rename_i hc
    exact iff_of_true rfl hc
  · rename_i hc
    exact iff_of_false (fun h => Option.noConfusion h) hc

theorem spanOf_eq_some_iff (evs : List (Marker × Nat)) (hcnt : SpanCounts evs)
    (v i j : Nat) :
    spanOf evs v = some (some i, some j) ↔
      openPositions evs v = [i] ∧ closePositions evs v = [j] := by
  constructor
  · intro h
    unfold spanOf at h
    split at h
    · exact Option.noConfusion h
    · injection h with h₂
      injection h₂ with ho hc
      exact ⟨length_le_one_head (hcnt v).1 ho, length_le_one_head (hcnt v).2 hc⟩
  · rintro ⟨ho, hc⟩
    unfold spanOf
    rw [ho, hc]
    rw [if_neg (by simp)]
    rfl

/-- The components of a present span-dictionary entry are the first Open and
first Close positions. -/
theorem spanOf_some_parts {evs : List (Marker × Nat)} {v : Nat}
    {s : Option Nat × Option Nat} (h : spanOf evs v = some s) :
    s.1 = (openPositions evs v).head? ∧ s.2 = (closePositions evs v).head? := by
  unfold spanOf at h
  split at h
  · exact Option.noConfusion h
  · injection h with h₂
    rw [← h₂]
    exact ⟨rfl, rfl⟩

/-- One `Open` event step of `from_markers` on a dictionary agreeing with
`spanOf`: it succeeds exactly when the variable has no earlier Open, and
then records the position. -/
theorem fromMarkersStep_open (evs : List (Marker × Nat))
    (d : List (Nat × Option Nat × Option Nat))
    (hlk : ∀ v, d.lookup v = spanOf evs v) (w p : Nat) :
    (∀ d', fromMarkersStep d (Marker.Open w, p) = some d' →
      openPositions evs w = [] ∧
      d' = setAssoc w (some p, (closePositions evs w).head?) d) ∧
    (openPositions evs w = [] →
      (fromMarkersStep d (Marker.Open w, p)).isSome = true) := by
  have hstep : fromMarkersStep d (Marker.Open w, p) =
      match (match spanOf evs w with
          | none => ((none : Option Nat), (none : Option Nat))
          | some s => s).1 with
      | none => some (setAssoc w (some p,
          (match spanOf evs w with
            | none => ((none : Option Nat), (none : Option Nat))
            | some s => s).2) d)
      | some _ => none := by
    unfold fromMarkersStep
    dsimp only [Marker.variable]
    rw [hlk w]
  constructor
  · intro d' hd'
    rw [hstep] at hd'
    cases hsp : spanOf evs w with
    | none =>
      rw [hsp] at hd'
      try dsimp only at hd'
      injection hd' with h
      obtain ⟨ho, hc⟩ := (spanOf_eq_none_iff evs w).1 hsp
      refine ⟨ho, ?_⟩
      rw [← h, hc]
      rfl
    | some s =>
      rw [hsp] at hd'
      obtain ⟨o, c⟩ := s
      obtain ⟨ho, hc⟩ := spanOf_some_parts hsp
      dsimp only at ho hc hd'
      cases o with
      | some i => exact Option.noConfusion hd'
      | none =>
        injection hd' with h
        refine ⟨List.head?_eq_none_iff.1 ho.symm, ?_⟩
        rw [← h, hc]
  · intro hopen
    rw [hstep]
    have h₁ : (match spanOf evs w with
        | none => ((none : Option Nat), (none : Option Nat))
        | some s => s).1 = none := by
      cases hsp : spanOf evs w with
      | none => rfl
      | some s =>
        dsimp only
        rw [(spanOf_some_parts hsp).1]
        exact List.head?_eq_none_iff.2 hopen
    rw [h₁]
    rfl

/-- One `Close` event step of `from_markers` on a dictionary agreeing with
`spanOf`. -/
theorem fromMarkersStep_close (evs : List (Marker × Nat))
    (d : List (Nat × Option Nat × Option Nat))
    (hlk : ∀ v, d.lookup v = spanOf evs v) (w p : Nat) :
    (∀ d', fromMarkersStep d (Marker.Close w, p) = some d' →
      closePositions evs w = [] ∧
      d' = setAssoc w ((openPositions evs w).head?, some p) d) ∧
    (closePositions evs w = [] →
      (fromMarkersStep d (Marker.Close w, p)).isSome = true) := by
  have hstep : fromMarkersStep d (Marker.Close w, p) =
      match (match spanOf evs w with
          | none => ((none : Option Nat), (none : Option Nat))
          | some s => s).2 with
      | none => some (setAssoc w
          ((match spanOf evs w with
            | none => ((none : Option Nat), (none : Option Nat))
            | some s => s).1, some p) d)
      | some _ => none := by
    unfold fromMarkersStep
    dsimp only [Marker.variable]
    rw [hlk w]
  constructor
  · intro d' hd'
    rw [hstep] at hd'
    cases hsp : spanOf evs w with
    | none =>
      rw [hsp] at hd'
      try dsimp only at hd'
      injection hd' with h
      obtain ⟨ho, hc⟩ := (spanOf_eq_none_iff evs w).1 hsp
      refine ⟨hc, ?_⟩
      rw [← h, ho]
      rfl
    | some s =>
      rw [hsp] at hd'
      obtain ⟨o, c⟩ := s
      obtain ⟨ho, hc⟩ := spanOf_some_parts hsp
      dsimp only at ho hc hd'
      cases c with
      | some i => exact Option.noConfusion hd'
      | none =>
        injection hd' with h
        refine ⟨List.head?_eq_none_iff.1 hc.symm, ?_⟩
        rw [← h, ho]
  · intro hclose
    rw [hstep]
    have h₁ : (match spanOf evs w with
        | none => ((none : Option Nat), (none : Option Nat))
        | some s => s).2 = none := by
      cases hsp : spanOf evs w with
      | none => rfl
      | some s =>
        dsimp only
        rw [(spanOf_some_parts hsp).2]
        exact List.head?_eq_none_iff.2 hclose
    rw [h₁]
    rfl

/-- Characterization of the event loop of `from_markers`: it succeeds exactly
when no endpoint is assigned twice, and then the dictionary holds, per
mentioned variable, the first Open and Close positions. -/
theorem buildSpans_spec (evs : List (Marker × Nat)) :
    (∀ d, buildSpans evs = some d →
      ((d.map Prod.fst).Nodup ∧ SpanCounts evs ∧
        ∀ v, d.lookup v = spanOf evs v)) ∧
    (SpanCounts evs → ∃ d, buildSpans evs = some d) := by
  induction evs using List.reverseRecOn with
  | nil =>
    constructor
    · intro d hd
      have h₁ : (some ([] : List (Nat × Option Nat × Option Nat))) = some d := hd
      injection h₁ with h₂
      subst h₂
      refine ⟨List.nodup_nil, fun v => ⟨by simp [openPositions], by simp [closePositions]⟩,
        fun v => rfl⟩
    · intro _
      exact ⟨[], rfl⟩
  | append_singleton evs ev ih =>
    obtain ⟨m, p⟩ := ev
    have hbs : buildSpans (evs ++ [(m, p)]) =
        (buildSpans evs).bind (fun d => fromMarkersStep d (m, p)) := by
      unfold buildSpans
      rw [List.foldl_append]
      rfl
    cases m with
    | Open w =>
      have hop := fun v => openPositions_append_open evs w p v
      have hcl := fun v => closePositions_append_open evs w p v
      constructor
      · intro d' hd'
        rw [hbs] at hd'
        cases hbse : buildSpans evs with
        | none =>
          rw [hbse] at hd'
          exact Option.noConfusion hd'
        | some d =>
          rw [hbse] at hd'
          obtain ⟨hnd, hcnt, hlk⟩ := ih.1 d hbse
          obtain ⟨hopens, hd'eq⟩ :=
            (fromMarkersStep_open evs d hlk w p).1 d' hd'
          subst hd'eq
          refine ⟨setAssoc_keys_nodup _ _ _ hnd, ?_, ?_⟩
          · intro v
            rw [hop v, hcl v]
            by_cases hv : w = v
            · subst hv
              rw [if_pos rfl, hopens]
              exact ⟨by simp, (hcnt w).2⟩
            · rw [if_neg hv, List.append_nil]
              exact hcnt v
          · intro v
            by_cases hv : w = v
            · subst hv
              rw [lookup_setAssoc_self]
              have h₁ : openPositions (evs ++ [(Marker.Open w, p)]) w = [p] := by
                rw [hop w, if_pos rfl, hopens]
                rfl
              unfold spanOf
              rw [h₁, hcl w]
              rw [if_neg (by simp)]
              rfl
            · rw [lookup_setAssoc_ne (fun h => hv h.symm), hlk v]
              unfold spanOf
              rw [hop v, if_neg hv, List.append_nil, hcl v]
      · intro hcnt'
        have hcnt : SpanCounts evs := by
          intro v
          have h₁ := (hcnt' v).1
          have h₂ := (hcnt' v).2
          rw [hop v, List.length_append] at h₁
          rw [hcl v] at h₂
          exact ⟨by omega, h₂⟩
        obtain ⟨d, hbse⟩ := ih.2 hcnt
        obtain ⟨hnd, _, hlk⟩ := ih.1 d hbse
        have hopens : openPositions evs w = [] := by
          have h₁ := (hcnt' w).1
          rw [hop w, if_pos rfl, List.length_append,
            List.length_singleton] at h₁
          exact List.length_eq_zero.1 (by omega)
        have hs := (fromMarkersStep_open evs d hlk w p).2 hopens
        rw [hbs, hbse]
        exact Option.isSome_iff_exists.1 hs
    | Close w =>
      have hop := fun v => openPositions_append_close evs w p v
      have hcl := fun v => closePositions_append_close evs w p v
      constructor
      · intro d' hd'
        rw [hbs] at hd'
        cases hbse : buildSpans evs with
        | none =>
          rw [hbse] at hd'
          exact Option.noConfusion hd'
        | some d =>
          rw [hbse] at hd'
          obtain ⟨hnd, hcnt, hlk⟩ := ih.1 d hbse
          obtain ⟨hcloses, hd'eq⟩ :=
            (fromMarkersStep_close evs d hlk w p).1 d' hd'
          subst hd'eq
          refine ⟨setAssoc_keys_nodup _ _ _ hnd, ?_, ?_⟩
          · intro v
            rw [hop v, hcl v]
            by_cases hv : w = v
            · subst hv
              rw [if_pos rfl, hcloses]
              exact ⟨(hcnt w).1, by simp⟩
            · rw [if_neg hv, List.append_nil]
              exact hcnt v
          · intro v
            by_cases hv : w = v
            · subst hv
              rw [lookup_setAssoc_self]
              have h₁ : closePositions (evs ++ [(Marker.Close w, p)]) w = [p] := by
                rw [hcl w, if_pos rfl, hcloses]
                rfl
              unfold spanOf
              rw [h₁, hop w]
              rw [if_neg (by simp)]
              rfl
            · rw [lookup_setAssoc_ne (fun h => hv h.symm), hlk v]
              unfold spanOf
              rw [hcl v, if_neg hv, List.append_nil, hop v]
      · intro hcnt'
        have hcnt : SpanCounts evs := by
          intro v
          have h₁ := (hcnt' v).1
          have h₂ := (hcnt' v).2
          rw [hcl v, List.length_append] at h₂
          rw [hop v] at h₁
          exact ⟨h₁, by omega⟩
        obtain ⟨d, hbse⟩ := ih.2 hcnt
        obtain ⟨hnd, _, hlk⟩ := ih.1 d hbse
        have hcloses : closePositions evs w = [] := by
          have h₂ := (hcnt' w).2
          rw [hcl w, if_pos rfl, List.length_append,
            List.length_singleton] at h₂
          exact List.length_eq_zero.1 (by omega)
        have hs := (fromMarkersStep_close evs d hlk w p).2 hcloses
        rw [hbs, hbse]
        exact Option.isSome_iff_exists.1 hs

/-- Every entry surviving the final check of `from_markers` has both
endpoints in order. -/
theorem checkSpans_sound :
    ∀ (d : List (Nat × Option Nat × Option Nat)) (r : List (Nat × Nat × Nat)),
      checkSpans d = some r → ∀ x ∈ d, ∃ i j, x.2 = (some i, some j) ∧ i ≤ j := by
  intro d
  induction d with
  | nil => intro r _ x hx; cases hx
  | cons hd tl ih =>
    intro r hr x hx
    rcases hd with ⟨v, o, c⟩
    cases o with
    | none => exact Option.noConfusion hr
    | some i =>
      cases c with
      | none => exact Option.noConfusion hr
      | some j =>
        unfold checkSpans at hr
        by_cases hij : i ≤ j
        · rw [if_pos hij] at hr
          rcases List.mem_cons.1 hx with rfl | hx₂
          · exact ⟨i, j, rfl, hij⟩
          · cases hmap : checkSpans tl with
            | none =>
              rw [hmap] at hr
              exact Option.noConfusion hr
            | some r₂ => exact ih r₂ hmap x hx₂
        · rw [if_neg hij] at hr
          exact Option.noConfusion hr

/-- The final check of `from_markers` succeeds when every entry has both
endpoints in order. -/
theorem checkSpans_complete :
    ∀ (d : List (Nat × Option Nat × Option Nat)),
      (∀ x ∈ d, ∃ i j, x.2 = (some i, some j) ∧ i ≤ j) →
      ∃ r, checkSpans d = some r := by
  intro d
  induction d with
  | nil => intro _; exact ⟨[], rfl⟩
  | cons hd tl ih =>
    intro h
    obtain ⟨i, j, hx, hij⟩ := h hd (List.mem_cons_self _ _)
    obtain ⟨r, hr⟩ := ih (fun x hx₂ => h x (List.mem_cons_of_mem _ hx₂))
    rcases hd with ⟨v, s⟩
    dsimp only at hx
    subst hx
    refine ⟨(v, i, j) :: r, ?_⟩
    unfold checkSpans
    rw [if_pos hij, hr]
    rfl

/-- Membership in the output of the final check of `from_markers`. -/
theorem checkSpans_mem :
    ∀ (d : List (Nat × Option Nat × Option Nat)) (r : List (Nat × Nat × Nat)),
      checkSpans d = some r → ∀ v i j,
        ((v, i, j) ∈ r ↔ (v, (some i, some j)) ∈ d ∧ i ≤ j) := by
  intro d
  induction d with
  | nil =>
    intro r hr v i j
    have h₁ : (some ([] : List (Nat × Nat × Nat))) = some r := hr
    injection h₁ with h₂
    subst h₂
    simp
  | cons hd tl ih =>
    intro r hr v i j
    rcases hd with ⟨w, o, c⟩
    cases o with
    | none => exact Option.noConfusion hr
    | some a =>
      cases c with
      | none => exact Option.noConfusion hr
      | some b =>
        unfold checkSpans at hr
        by_cases hab : a ≤ b
        · rw [if_pos hab] at hr
          cases hmap : checkSpans tl with
          | none =>
            rw [hmap] at hr
            exact Option.noConfusion hr
          | some r₂ =>
            rw [hmap] at hr
            injection hr with hr₂
            subst hr₂
            constructor
            · intro hm
              rcases List.mem_cons.1 hm with heq | hm₂
              · injection heq with h₁ h₂₃
                injection h₂₃ with h₂ h₃
                subst h₁
                subst h₂
                subst h₃
                exact ⟨List.mem_cons_self _ _, hab⟩
              · obtain ⟨hmem, hij⟩ := (ih r₂ hmap v i j).1 hm₂
                exact ⟨List.mem_cons_of_mem _ hmem, hij⟩
            · rintro ⟨hmem, hij⟩
              rcases List.mem_cons.1 hmem with heq | hm₂
              · injection heq with h₁ h₂₃
                injection h₂₃ with h₂ h₃
                injection h₂ with h₂'
                injection h₃ with h₃'
                subst h₁
                subst h₂'
                subst h₃'
                exact List.mem_cons_self _ _
              · exact List.mem_cons_of_mem _ ((ih r₂ hmap v i j).2 ⟨hm₂, hij⟩)
        · rw [if_neg hab] at hr
          exact Option.noConfusion hr

/-- Membership through the sorted-insertion used to canonicalise the final
dictionary. -/
theorem mem_insertByVar (e f : Nat × Nat × Nat) :
    ∀ l, e ∈ insertByVar f l ↔ e = f ∨ e ∈ l := by
  intro l
  induction l with
  | nil =>
    unfold insertByVar
    simp
  | cons hd tl ih =>
    unfold insertByVar
    split
    · simp [List.mem_cons]
    · rw [List.mem_cons, ih, List.mem_cons]
      tauto

theorem mem_insertFold (e : Nat × Nat × Nat) :
    ∀ (l acc : List (Nat × Nat × Nat)),
      (e ∈ l.foldl (fun acc f => insertByVar f acc) acc ↔ e ∈ l ∨ e ∈ acc) := by
  intro l
  induction l with
  | nil => intro acc; simp
  | cons hd tl ih =>
    intro acc
    rw [List.foldl_cons, ih, mem_insertByVar]
    rw [List.mem_cons]
    tauto

--  C3: reach matrices (Jump::init_reach, src/matrix.rs) ----------------------

/-- Generic `setAssoc`/`lookup` agreement for any lawful boolean equality
(used at pair keys, whose `BEq` instance is the product instance). -/
theorem lookup_setAssoc_self_beq {α β : Type} [DecidableEq α] [BEq α]
    [LawfulBEq α] (k : α) (v : β) :
    ∀ l : List (α × β), (setAssoc k v l).lookup k = some v := by
  intro l
  induction l with
  | nil => simp [setAssoc, List.lookup]
  | cons hd tl ih =>
    rcases hd with ⟨k₀, v₀⟩
    unfold setAssoc
    by_cases h : k₀ = k
    · rw [if_pos h]
      simp [List.lookup]
    · rw [if_neg h]
      simp only [List.lookup]
      have hbeq : (k == k₀) = false := by
        simp only [beq_eq_false_iff_ne]
        exact fun hx => h hx.symm
      rw [hbeq]
      exact ih

theorem lookup_setAssoc_ne_beq {α β : Type} [DecidableEq α] [BEq α]
    [LawfulBEq α] {k k' : α} (hne : k' ≠ k) (v : β) :
    ∀ l : List (α × β), (setAssoc k v l).lookup k' = l.lookup k' := by
  intro l
  induction l with
  | nil =>
    have hbeq : (k' == k) = false := by
      simp only [beq_eq_false_iff_ne]
      exact hne
    unfold setAssoc
    simp only [List.lookup]
    rw [hbeq]
  | cons hd tl ih =>
    rcases hd with ⟨k₀, v₀⟩
    unfold setAssoc
    by_cases h : k₀ = k
    · rw [if_pos h]
      simp only [List.lookup]
      have hbeq : (k' == k) = false := by
        simp only [beq_eq_false_iff_ne]
        exact hne
      have hbeq₀ : (k' == k₀) = false := by rw [h]; exact hbeq
      rw [hbeq, hbeq₀]
    · rw [if_neg h]
      simp only [List.lookup]
      cases hbeq : (k' == k₀) with
      | true => rfl
      | false => exact ih

theorem lookup_delAssoc_ne_beq {α β : Type} [DecidableEq α] [BEq α]
    [LawfulBEq α] {k k' : α} (hne : k' ≠ k) :
    ∀ l : List (α × β), (delAssoc k l).lookup k' = l.lookup k' := by
  intro l
  induction l with
  | nil => rfl
  | cons hd tl ih =>
    rcases hd with ⟨k₀, v₀⟩
    unfold delAssoc
    by_cases h : k₀ = k
    · rw [if_pos h]
      simp only [List.lookup]
      have hbeq : (k' == k₀) = false := by
        simp only [beq_eq_false_iff_ne]
        rw [h]
        exact hne
      rw [hbeq]
    · rw [if_neg h]
      simp only [List.lookup]
      cases hbeq : (k' == k₀) with
      | true => rfl
      | false => exact ih

/-- A fold whose body never touches the reach table leaves it unchanged. -/
theorem foldl_reach_eq {α : Type} (l : List α) (f : Jump → α → Jump) (j : Jump)
    (hf : ∀ j x, (f j x).reach = j.reach) : (l.foldl f j).reach = j.reach := by
  induction l generalizing j with
  | nil => rfl
  | cons x xs ih => rw [List.foldl_cons, ih, hf]

theorem initReachRlevels_reach (j : Jump) (level : Nat) (rv : List Nat) :
    (j.initReachRlevels level rv).reach = j.reach := by
  unfold Jump.initReachRlevels
  dsimp only
  apply Eq.trans
  · apply foldl_reach_eq
    intro j s
    rfl
  · rfl

theorem initReachCounters_reach (j : Jump) (level : Nat) (rv cl : List Nat) :
    (j.initReachCounters level rv cl).reach = j.reach := by
  unfold Jump.initReachCounters
  dsimp only
  apply Eq.trans
  · apply foldl_reach_eq
    intro j s
    dsimp only
    apply foldl_reach_eq
    intro j vp
    dsimp only
    split <;> rfl
  · apply foldl_reach_eq
    intro j v
    rfl

/-- The fold with `insertSet` used for `rlevel` values keeps lists
duplicate-free. -/
theorem rlevelVal_nodup (j : Jump) (level : Nat) : (rlevelVal j level).Nodup := by
  unfold rlevelVal
  have hgen : ∀ (L : List Nat) (acc : List Nat), acc.Nodup →
      (L.foldl (fun acc source =>
        match j.jl.lookup (level, source) with
        | some target => insertSet target acc
        | none => acc) acc).Nodup := by
    intro L
    induction L with
    | nil => intro acc h; exact h
    | cons s rest ih =>
      intro acc h
      rw [List.foldl_cons]
      apply ih
      cases hl : j.jl.lookup (level, s) with
      | some t => exact insertSet_nodup t acc h
      | none => exact h
  exact hgen _ _ List.nodup_nil

/-- The dynamic-product loop of `Jump::init_reach`: keys outside the new
level are untouched, skipped sublevels are untouched, and every strict
sublevel of the list receives the product of its stored matrix towards the
previous level with the new layer-to-layer matrix. -/
theorem productsFold_spec (level : Nat) (nr : BMatrix) (hlev : 1 ≤ level) :
    ∀ (L : List Nat) (j : Jump), L.Nodup →
      (∀ key : Nat × Nat, key.2 ≠ level →
        (L.foldl (productStep level nr) j).reach.lookup key
          = j.reach.lookup key) ∧
      (∀ s : Nat, (s ∉ L ∨ level - 1 ≤ s) →
        (L.foldl (productStep level nr) j).reach.lookup (s, level)
          = j.reach.lookup (s, level)) ∧
      (∀ sub ∈ L, sub < level - 1 →
        (L.foldl (productStep level nr) j).reach.lookup (sub, level)
          = some (((j.reach.lookup (sub, level - 1)).getD
              (BMatrix.new 0 0 false)).mul nr)) := by
  intro L
  induction L with
  | nil =>
    intro j _
    exact ⟨fun key _ => rfl, fun s _ => rfl,
      fun sub h _ => absurd h (List.not_mem_nil sub)⟩
  | cons s rest ih =>
    intro j hnd
    simp only [List.nodup_cons] at hnd
    obtain ⟨hs_not, hnd'⟩ := hnd
    have hstep_ne : ∀ (j : Jump) (key : Nat × Nat), key.2 ≠ level →
        (productStep level nr j s).reach.lookup key = j.reach.lookup key := by
      intro j key hk
      unfold productStep
      split
      · rfl
      · dsimp only
        apply lookup_setAssoc_ne_beq
        intro hx
        exact hk (by rw [hx])
    have hstep_at : ∀ (j : Jump) (s' : Nat), s ≠ s' →
        (productStep level nr j s).reach.lookup (s', level)
          = j.reach.lookup (s', level) := by
      intro j s' hne
      unfold productStep
      split
      · rfl
      · dsimp only
        apply lookup_setAssoc_ne_beq
        intro hx
        injection hx with h₁ h₂
        exact hne h₁.symm
    refine ⟨?_, ?_, ?_⟩
    · intro key hk
      rw [List.foldl_cons, (ih (productStep level nr j s) hnd').1 key hk,
        hstep_ne j key hk]
    · intro s' hcase
      rw [List.foldl_cons]
      rcases hcase with hnotin | hge
      · have h₁ : s ≠ s' := by
          intro h
          exact hnotin (by rw [← h]; exact List.mem_cons_self _ _)
        have h₂ : s' ∉ rest := fun h => hnotin (List.mem_cons_of_mem _ h)
        rw [(ih _ hnd').2.1 s' (Or.inl h₂), hstep_at j s' h₁]
      · rw [(ih _ hnd').2.1 s' (Or.inr hge)]
        by_cases hges : level - 1 ≤ s
        · unfold productStep
          rw [if_pos hges]
        · exact hstep_at j s' (fun h => by omega)
    · intro sub hmem hlt
      rw [List.foldl_cons]
      rcases List.mem_cons.1 hmem with rfl | hmem'
      · rw [(ih _ hnd').2.1 _ (Or.inl hs_not)]
        unfold productStep
        rw [if_neg (by omega)]
        dsimp only
        rw [lookup_setAssoc_self_beq]
      · rw [(ih _ hnd').2.2 sub hmem' hlt,
          hstep_ne j (sub, level - 1) (by show level - 1 ≠ level; omega)]

/-- Length of the row-major data built by the boolean matrix product. -/
theorem flatMap_range_length (h w : Nat) (f : Nat → Nat → Bool) :
    ((List.range h).flatMap (fun row => (List.range w).map (f row))).length
      = h * w := by
  induction h with
  | zero => simp
  | succ n ih =>
    rw [List.range_succ, List.flatMap_append, List.length_append, ih]
    simp [Nat.succ_mul]

/-- Row-major indexing into the data built by the boolean matrix product. -/
theorem flatMap_range_getD (w : Nat) (f : Nat → Nat → Bool) :
    ∀ (h r c : Nat), r < h → c < w →
      ((List.range h).flatMap (fun row => (List.range w).map (f row))).getD
        (c + r * w) false = f r c := by
  intro h
  induction h with
  | zero => intro r c hr _; exact absurd hr (Nat.not_lt_zero r)
  | succ n ih =>
    intro r c hr hc
    rw [List.range_succ, List.flatMap_append]
    by_cases hrn : r < n
    · have hidx : c + r * w < ((List.range n).flatMap
          (fun row => (List.range w).map (f row))).length := by
        rw [flatMap_range_length]
        have h₁ : c + r * w < (r + 1) * w := by
          rw [Nat.succ_mul]
          omega
        have h₂ : (r + 1) * w ≤ n * w := Nat.mul_le_mul_right w (by omega)
        omega
      rw [List.getD_append _ _ _ _ hidx]
      exact ih r c hrn hc
    · have hrn' : r = n := by omega
      subst hrn'
      have hlen : ((List.range r).flatMap
          (fun row => (List.range w).map (f row))).length = r * w :=
        flatMap_range_length r w f
      have hge : ((List.range r).flatMap
          (fun row => (List.range w).map (f row))).length ≤ c + r * w := by
        rw [hlen]
        omega
      rw [List.getD_append_right _ _ _ _ hge, hlen]
      have hsub : c + r * w - r * w = c := by omega
      rw [hsub]
      show ((List.range w).map (f r) ++ []).getD c false = f r c
      rw [List.append_nil, List.getD_eq_getElem?_getD, List.getElem?_map,
        List.getElem?_range hc]
      rfl

/-- Any-over-zip on boolean lists finds a common true index. -/
theorem zip_any_iff :
    ∀ (l₁ l₂ : List Bool),
      ((l₁.zip l₂).any (fun p => p.1 && p.2) = true ↔
        ∃ t, l₁.getD t false = true ∧ l₂.getD t false = true) := by
  intro l₁
  induction l₁ with
  | nil =>
    intro l₂
    rw [List.zip_nil_left]
    constructor
    · intro h
      exact absurd h (by simp)
    · rintro ⟨t, h₁, h₂⟩
      rw [List.getD_nil] at h₁
      exact absurd h₁ (by simp)
  | cons a t₁ ih =>
    intro l₂
    cases l₂ with
    | nil =>
      rw [List.zip_nil_right]
      constructor
      · intro h
        exact absurd h (by simp)
      · rintro ⟨t, h₁, h₂⟩
        rw [List.getD_nil] at h₂
        exact absurd h₂ (by simp)
    | cons b t₂ =>
      rw [List.zip_cons_cons, List.any_cons]
      dsimp only
      constructor
      · intro h
        cases hab : (a && b) with
        | true =>
          have hab₂ := hab
          simp only [Bool.and_eq_true] at hab₂
          exact ⟨0, hab₂.1, hab₂.2⟩
        | false =>
          rw [hab] at h
          simp only [Bool.false_or] at h
          obtain ⟨t, h₁, h₂⟩ := (ih t₂).1 h
          exact ⟨t + 1, h₁, h₂⟩
      · rintro ⟨t, h₁, h₂⟩
        cases t with
        | zero =>
          have ha : a = true := h₁
          have hb : b = true := h₂
          rw [ha, hb]
          simp
        | succ t =>
          have hrest := (ih t₂).2 ⟨t, h₁, h₂⟩
          rw [hrest]
          simp

/-- Indexing a matrix row. -/
theorem BMatrix.iter_row_getD (A : BMatrix) (r t : Nat) (ht : t < A.width) :
    (A.iter_row r).getD t false = A.get r t := by
  unfold BMatrix.iter_row BMatrix.get
  rw [List.getD_eq_getElem?_getD, List.getD_eq_getElem?_getD,
    List.getElem?_take, if_pos ht, List.getElem?_drop,
    Nat.add_comm (r * A.width) t]

/-- Indexing a matrix column. -/
theorem BMatrix.iter_col_getD (B : BMatrix) (c t : Nat) (ht : t < B.height) :
    (B.iter_col c).getD t false = B.get t c := by
  unfold BMatrix.iter_col BMatrix.get
  rw [List.getD_eq_getElem?_getD, List.getElem?_map, List.getElem?_range ht]
  rfl

/-- The entry of the boolean matrix product is the any-over-zip of the row
and column. -/
theorem BMatrix.mul_get (A B : BMatrix) (r c : Nat) (hr : r < A.height)
    (hc : c < B.width) :
    (A.mul B).get r c
      = ((A.iter_row r).zip (B.iter_col c)).any (fun p => p.1 && p.2) := by
  unfold BMatrix.mul BMatrix.get
  dsimp only
  exact flatMap_range_getD B.width _ A.height r c hr hc

/-- The boolean matrix product relates an entry to a middle index. -/
theorem BMatrix.mul_spec (A B : BMatrix) (r c : Nat) (hr : r < A.height)
    (hc : c < B.width) (hAB : A.width = B.height) :
    ((A.mul B).get r c = true ↔
      ∃ t, t < B.height ∧ A.get r t = true ∧ B.get t c = true) := by
  rw [BMatrix.mul_get A B r c hr hc, zip_any_iff]
  constructor
  · rintro ⟨t, h₁, h₂⟩
    have htc : t < (B.iter_col c).length := by
      by_contra hge
      rw [List.getD_eq_default _ _ (by omega)] at h₂
      exact absurd h₂ (by simp)
    have htB : t < B.height := by
      unfold BMatrix.iter_col at htc
      rw [List.length_map, List.length_range] at htc
      exact htc
    have htw : t < A.width := by omega
    rw [BMatrix.iter_row_getD A r t htw] at h₁
    rw [BMatrix.iter_col_getD B c t htB] at h₂
    exact ⟨t, htB, h₁, h₂⟩
  · rintro ⟨t, htB, h₁, h₂⟩
    have htw : t < A.width := by omega
    refine ⟨t, ?_, ?_⟩
    · rw [BMatrix.iter_row_getD A r t htw]
      exact h₁
    · rw [BMatrix.iter_col_getD B c t htB]
      exact h₂

/-- Modelled from the spec (§4.3): the level-DAG over a text.  Vertices are
`(level, state)` pairs; an atom edge consumes the character at the level's
index and moves to the next level; a marker edge stays within the level. -/
inductive DagPath (a : Automaton) (text : List Char) :
    Nat × Nat → Nat × Nat → Prop where
  | refl (p : Nat × Nat) : DagPath a text p p
  | atom (l q q' : Nat) (c : Char) (p : Nat × Nat) :
      text.get? l = some c → q' ∈ a.adj_for_char c q →
      DagPath a text (l + 1, q') p → DagPath a text (l, q) p
  | marker (l q q' : Nat) (m : Marker) (p : Nat × Nat) :
      (q, Label.assign m, q') ∈ a.transitions →
      DagPath a text (l, q') p → DagPath a text (l, q) p

/-- An automaton with an atom path `0 -a-> 1 -a-> 4`, and a marker detour
`1 -Open(0)-> 2 -a-> 3` that forces vertex 3 of layer 2 to be reachable from
layer 0 only through a marker edge inside layer 1. -/
def autReach : Automaton :=
  ⟨5, [(0, .atom (fun c => c = 'a'), 1),
       (1, .assign (.Open 0), 2),
       (2, .atom (fun c => c = 'a'), 3),
       (1, .atom (fun c => c = 'a'), 4)], [3, 4]⟩

/-- The index built for `autReach` over the text "aa". -/
def dagReach : IndexedDag := IndexedDag.compile autReach ['a', 'a']

/-- C3, counterexample to "reach[(ℓ′, ℓ)][i, j] is true iff a DAG path
exists from the i-th vertex of layer ℓ′ to the j-th vertex of layer ℓ": in
the index of `autReach` over "aa", the stored matrix `reach[(0, 2)]` has a
false entry at row 0 (vertex 0 of layer 0) and column 1 (vertex 3 of
layer 2), although the DAG path `(0,0) -a-> (1,1) -Open(0)-> (1,2) -a->
(2,3)` exists: the stored products chain atom edges only and miss paths
that use a marker edge at an intermediate layer. -/
theorem c3_reach_misses_marker_path :
    (dagReach.jump.levelset.get_level 0 = some [0] ∧
     dagReach.jump.levelset.get_level 2 = some [4, 3] ∧
     dagReach.jump.levelset.get_vertex_index 0 0 = some 0 ∧
     dagReach.jump.levelset.get_vertex_index 2 3 = some 1 ∧
     (dagReach.jump.reach.lookup (0, 2)).map (fun M => M.get 0 1)
       = some false) ∧
    DagPath autReach ['a', 'a'] (0, 0) (2, 3) :=
  ⟨⟨rfl, rfl, rfl, rfl, rfl⟩,
   .atom 0 0 1 'a' _ rfl (by decide)
     (.marker 1 1 2 (.Open 0) _
        (List.mem_cons_of_mem _ (List.mem_cons_self _ _))
        (.atom 1 2 3 'a' _ rfl (by decide) (.refl _)))⟩

/-- C3 (amended): the stored reach matrices are built from the jumpable
(atom) adjacency only: after `Jump::init_reach`, `reach[(ℓ-1, ℓ)]` is the
consecutive-layer atom adjacency matrix `newReachMatrix` (when ℓ-1 is a
jump target of the layer), and for every stored strict sublevel ℓ′ the
matrix `reach[(ℓ′, ℓ)]` is the boolean product
`reach[(ℓ′, ℓ-1)] × reach[(ℓ-1, ℓ)]`; the product's entries witness exactly
a middle index in the previous layer, so the stored matrices relate layers
through chains of atom edges, not arbitrary DAG paths. -/
theorem c3_reach_matrices (j : Jump) (level : Nat) (adj : List (List Nat))
    (A B : BMatrix) (r c : Nat) (hlev : 1 ≤ level) (hr : r < A.height)
    (hc : c < B.width) (hAB : A.width = B.height) :
    ((A.mul B).get r c = true ↔
      ∃ t, t < B.height ∧ A.get r t = true ∧ B.get t c = true) ∧
    ((level - 1) ∈ rlevelVal j level →
      (j.init_reach level adj).reach.lookup (level - 1, level)
        = some (j.newReachMatrix level adj)) ∧
    (∀ sub ∈ rlevelVal j level, sub < level - 1 →
      (j.init_reach level adj).reach.lookup (sub, level)
        = some (((j.reach.lookup (sub, level - 1)).getD
            (BMatrix.new 0 0 false)).mul (j.newReachMatrix level adj))) := by
  refine ⟨BMatrix.mul_spec A B r c hr hc hAB, ?_, ?_⟩
  · intro hmem
    unfold Jump.init_reach
    dsimp only
    rw [initReachCounters_reach, if_pos hmem]
    rw [(productsFold_spec level (j.newReachMatrix level adj) hlev
        (rlevelVal j level) _ (rlevelVal_nodup j level)).2.1 (level - 1)
        (Or.inr (Nat.le_refl _))]
    dsimp only
    exact lookup_setAssoc_self_beq _ _ _
  · intro sub hsub hlt
    unfold Jump.init_reach
    dsimp only
    rw [initReachCounters_reach]
    have hne₁ : ((sub, level - 1) : Nat × Nat) ≠ (level - 1, level) := by
      intro hx
      injection hx with h₁ h₂
      omega
    have hne₂ : ((sub, level) : Nat × Nat) ≠ (level - 1, level) := by
      intro hx
      injection hx with h₁ h₂
      omega
    split
    · rw [(productsFold_spec level (j.newReachMatrix level adj) hlev
          (rlevelVal j level) _ (rlevelVal_nodup j level)).2.2 sub hsub hlt]
      dsimp only
      rw [lookup_setAssoc_ne_beq hne₁, initReachRlevels_reach]
    · dsimp only
      rw [lookup_delAssoc_ne_beq hne₂,
        (productsFold_spec level (j.newReachMatrix level adj) hlev
          (rlevelVal j level) _ (rlevelVal_nodup j level)).2.2 sub hsub hlt]
      dsimp only
      rw [lookup_setAssoc_ne_beq hne₁, initReachRlevels_reach]

/-- Concrete instantiation of the amended C3 theorem at level 1 of the
`autReach` index and a pair of one-entry matrices. -/
theorem c3_reach_matrices_witness :
    (((BMatrix.new 1 1 false).mul (BMatrix.new 1 1 false)).get 0 0 = true ↔
      ∃ t, t < (BMatrix.new 1 1 false).height ∧
        (BMatrix.new 1 1 false).get 0 t = true ∧
        (BMatrix.new 1 1 false).get t 0 = true) ∧
    ((0 : Nat) ∈ rlevelVal (Jump.new [0] (closureList autReach)) 1 →
      ((Jump.new [0] (closureList autReach)).init_reach 1
          (adjForCharList autReach 'a')).reach.lookup (0, 1)
        = some ((Jump.new [0] (closureList autReach)).newReachMatrix 1
            (adjForCharList autReach 'a'))) ∧
    (∀ sub ∈ rlevelVal (Jump.new [0] (closureList autReach)) 1, sub < 0 →
      ((Jump.new [0] (closureList autReach)).init_reach 1
          (adjForCharList autReach 'a')).reach.lookup (sub, 1)
        = some ((((Jump.new [0] (closureList autReach)).reach.lookup
              (sub, 0)).getD (BMatrix.new 0 0 false)).mul
            ((Jump.new [0] (closureList autReach)).newReachMatrix 1
              (adjForCharList autReach 'a')))) :=
  c3_reach_matrices (Jump.new [0] (closureList autReach)) 1
    (adjForCharList autReach 'a') (BMatrix.new 1 1 false)
    (BMatrix.new 1 1 false) 0 0 (by decide) (by decide) (by decide) rfl

/-- C10: `Mapping::from_markers` succeeds — returning exactly one span per
mentioned variable — if and only if every variable receives at most one Open
and at most one Close event, both endpoints are present, and the Open
position is at most the Close position; in every other case the call is an
error (a Rust panic, modelled by `none`).  When it succeeds, the resulting
dictionary maps each mentioned variable exactly to its Open/Close span. -/
theorem c10_from_markers (evs : List (Marker × Nat)) :
    ((from_markers evs).isSome = true ↔
      ∀ v, (openPositions evs v = [] ∧ closePositions evs v = []) ∨
        (∃ i j, openPositions evs v = [i] ∧ closePositions evs v = [j] ∧ i ≤ j)) ∧
    (∀ m : List (Nat × Nat × Nat), from_markers evs = some m → ∀ v i j,
      ((v, i, j) ∈ m ↔
        openPositions evs v = [i] ∧ closePositions evs v = [j] ∧ i ≤ j)) := by
  have hfm : ∀ d, buildSpans evs = some d →
      from_markers evs = (checkSpans d).map
        (fun r => r.foldl (fun acc e => insertByVar e acc) []) := by
    intro d hd
    unfold from_markers
    rw [hd]
    rfl
  constructor
  · constructor
    · intro hsome
      obtain ⟨m, hm⟩ := Option.isSome_iff_exists.1 hsome
      cases hbse : buildSpans evs with
      | none =>
        unfold from_markers at hm
        rw [hbse] at hm
        exact Option.noConfusion hm
      | some d =>
        rw [hfm d hbse] at hm
        cases hcs : checkSpans d with
        | none =>
          rw [hcs] at hm
          exact Option.noConfusion hm
        | some r =>
          obtain ⟨hnd, hcnt, hlk⟩ := (buildSpans_spec evs).1 d hbse
          intro v
          cases hsp : spanOf evs v with
          | none => exact Or.inl ((spanOf_eq_none_iff evs v).1 hsp)
          | some s =>
            right
            have hl : d.lookup v = some s := by rw [hlk v, hsp]
            have hmem : (v, s) ∈ d := lookup_mem_beq _ _ _ hl
            obtain ⟨i, j, hx₂, hij⟩ := checkSpans_sound d r hcs (v, s) hmem
            dsimp only at hx₂
            subst hx₂
            obtain ⟨ho, hc⟩ := (spanOf_eq_some_iff evs hcnt v i j).1 hsp
            exact ⟨i, j, ho, hc, hij⟩
    · intro hrhs
      have hcnt : SpanCounts evs := by
        intro v
        rcases hrhs v with ⟨ho, hc⟩ | ⟨i, j, ho, hc, _⟩
        · rw [ho, hc]
          exact ⟨by simp, by simp⟩
        · rw [ho, hc]
          exact ⟨by simp, by simp⟩
      obtain ⟨d, hbse⟩ := (buildSpans_spec evs).2 hcnt
      obtain ⟨hnd, _, hlk⟩ := (buildSpans_spec evs).1 d hbse
      have hck : ∀ x ∈ d, ∃ i j, x.2 = (some i, some j) ∧ i ≤ j := by
        intro x hx
        have hlx : d.lookup x.1 = some x.2 :=
          lookup_of_mem_keys_nodup d hnd x hx
        have hsp : spanOf evs x.1 = some x.2 := (hlk x.1).symm.trans hlx
        rcases hrhs x.1 with ⟨ho, hc⟩ | ⟨i, j, ho, hc, hij⟩
        · rw [(spanOf_eq_none_iff evs x.1).2 ⟨ho, hc⟩] at hsp
          exact Option.noConfusion hsp
        · have h₁ := (spanOf_eq_some_iff evs hcnt x.1 i j).2 ⟨ho, hc⟩
          rw [h₁] at hsp
          injection hsp with h₂
          exact ⟨i, j, h₂.symm, hij⟩
      obtain ⟨r, hr⟩ := checkSpans_complete d hck
      rw [hfm d hbse, hr]
      rfl
  · intro m hm v i j
    cases hbse : buildSpans evs with
    | none =>
      unfold from_markers at hm
      rw [hbse] at hm
      exact Option.noConfusion hm
    | some d =>
      rw [hfm d hbse] at hm
      cases hcs : checkSpans d with
      | none =>
        rw [hcs] at hm
        exact Option.noConfusion hm
      | some r =>
        rw [hcs] at hm
        injection hm with hm₂
        subst hm₂
        obtain ⟨hnd, hcnt, hlk⟩ := (buildSpans_spec evs).1 d hbse
        rw [mem_insertFold, checkSpans_mem d r hcs v i j]
        have h₀ : ((v, (some i, some j)) ∈ d ∧ i ≤ j) ∨ (v, i, j) ∈ ([] : List (Nat × Nat × Nat)) ↔
            (v, (some i, some j)) ∈ d ∧ i ≤ j := by
          simp
        rw [h₀]
        constructor
        · rintro ⟨hmem, hij⟩
          have hlx : d.lookup v = some (some i, some j) :=
            lookup_of_mem_keys_nodup d hnd _ hmem
          have hsp : spanOf evs v = some (some i, some j) :=
            (hlk v).symm.trans hlx
          obtain ⟨ho, hc⟩ := (spanOf_eq_some_iff evs hcnt v i j).1 hsp
          exact ⟨ho, hc, hij⟩
        · rintro ⟨ho, hc, hij⟩
          have hsp := (spanOf_eq_some_iff evs hcnt v i j).2 ⟨ho, hc⟩
          have hlx : d.lookup v = some (some i, some j) := (hlk v).trans hsp
          exact ⟨lookup_mem_beq _ _ _ hlx, hij⟩

--  C5: per-level expansion (NextLevelIterator::next) --------------------------

/-- Componentwise membership extension of `(S⁺, S⁻)` pairs. -/
def PairLe (p q : List Marker × List Marker) : Prop :=
  (∀ m ∈ p.1, m ∈ q.1) ∧ (∀ m ∈ p.2, m ∈ q.2)

theorem pairLe_refl (p : List Marker × List Marker) : PairLe p p :=
  ⟨fun _ hm => hm, fun _ hm => hm⟩

theorem pairLe_trans {p q r : List Marker × List Marker} (h₁ : PairLe p q)
    (h₂ : PairLe q r) : PairLe p r :=
  ⟨fun m hm => h₂.1 m (h₁.1 m hm), fun m hm => h₂.2 m (h₁.2 m hm)⟩

/-- Two branch pairs diverge when some marker is positive in one and
negative in the other. -/
def Divergent (p q : List Marker × List Marker) : Prop :=
  ∃ m, (m ∈ p.1 ∧ m ∈ q.2) ∨ (m ∈ p.2 ∧ m ∈ q.1)

theorem divergent_mono {p q p' q' : List Marker × List Marker}
    (h : Divergent p q) (hp : PairLe p p') (hq : PairLe q q') :
    Divergent p' q' := by
  obtain ⟨m, hm | hm⟩ := h
  · exact ⟨m, Or.inl ⟨hp.1 m hm.1, hq.2 m hm.2⟩⟩
  · exact ⟨m, Or.inr ⟨hp.2 m hm.1, hq.1 m hm.2⟩⟩

/-- Two emissions with set-wise different `S⁺`. -/
def SpDiffer (e₁ e₂ : List Marker × List Nat) : Prop :=
  ∃ m, (m ∈ e₁.1 ∧ m ∉ e₂.1) ∨ (m ∈ e₂.1 ∧ m ∉ e₁.1)

theorem spDiffer_of_divergent {e₁ e₂ : List Marker × List Nat}
    {sm₁ sm₂ : List Marker} (h : Divergent (e₁.1, sm₁) (e₂.1, sm₂))
    (h₁ : ∀ m ∈ e₁.1, m ∉ sm₁) (h₂ : ∀ m ∈ e₂.1, m ∉ sm₂) :
    SpDiffer e₁ e₂ := by
  obtain ⟨m, hm | hm⟩ := h
  · exact ⟨m, Or.inl ⟨hm.1, fun hx => h₂ m hx hm.2⟩⟩
  · exact ⟨m, Or.inr ⟨hm.2, fun hx => h₁ m hx hm.1⟩⟩

/-- Invariant of the stack entries of `NextLevelIterator`: `S⁺` and `S⁻`
are disjoint duplicate-free sets partitioning a prefix of the expected
markers. -/
structure BranchInv (expected : List Marker)
    (p : List Marker × List Marker) : Prop where
  sp_take : ∀ m ∈ p.1, m ∈ expected.take (p.1.length + p.2.length)
  sm_take : ∀ m ∈ p.2, m ∈ expected.take (p.1.length + p.2.length)
  sp_nodup : p.1.Nodup
  sm_nodup : p.2.Nodup
  disj : ∀ m ∈ p.1, m ∉ p.2
  len_le : p.1.length + p.2.length ≤ expected.length

theorem mem_insertSet_self {α : Type} [DecidableEq α] (x : α) (l : List α) :
    x ∈ insertSet x l := (mem_insertSet x x l).2 (Or.inr rfl)

theorem insertSet_subset {α : Type} [DecidableEq α] (x : α) (l : List α) :
    ∀ y ∈ l, y ∈ insertSet x l :=
  fun y hy => (mem_insertSet x y l).2 (Or.inl hy)

theorem insertSet_length_of_not_mem {α : Type} [DecidableEq α] {x : α}
    {l : List α} (h : x ∉ l) : (insertSet x l).length = l.length + 1 := by
  unfold insertSet
  rw [if_neg h, List.length_append]
  rfl

theorem removeSet_insertSet {α : Type} [DecidableEq α] {x : α} {l : List α}
    (hx : x ∉ l) : removeSet x (insertSet x l) = l := by
  unfold removeSet insertSet
  rw [if_neg hx, List.filter_append]
  have h₁ : l.filter (fun y => y ≠ x) = l :=
    List.filter_eq_self.2 (fun y hy => by
      have : y ≠ x := fun h => hx (h ▸ hy)
      simp [this])
  have h₂ : [x].filter (fun y => y ≠ x) = [] := by simp
  rw [h₁, h₂, List.append_nil]

/-- The marker at a fresh depth of a duplicate-free expected list is not
among the already-decided prefix. -/
theorem getD_fresh {expected : List Marker} (hexp : expected.Nodup)
    {d : Nat} (hd : d < expected.length) :
    expected.getD d (Marker.Open 0) ∈ expected ∧
    expected.getD d (Marker.Open 0) ∉ expected.take d := by
  have hx : expected.getD d (Marker.Open 0) = expected[d] := by
    rw [List.getD_eq_getElem?_getD, List.getElem?_eq_getElem hd]
    rfl
  rw [hx]
  constructor
  · exact List.getElem_mem hd
  · intro hmem
    have hnd : (expected.take d ++ expected.drop d).Nodup := by
      rw [List.take_append_drop]
      exact hexp
    rw [List.nodup_append] at hnd
    have hdrop : expected[d] ∈ expected.drop d := by
      apply List.mem_of_mem_head?
      rw [List.head?_drop, List.getElem?_eq_getElem hd]
      rfl
    exact hnd.2.2 hmem hdrop

theorem take_succ_getD {expected : List Marker} {d : Nat}
    (hd : d < expected.length) :
    expected.take (d + 1)
      = expected.take d ++ [expected.getD d (Marker.Open 0)] := by
  rw [List.take_succ, List.getElem?_eq_getElem hd,
    List.getD_eq_getElem?_getD, List.getElem?_eq_getElem hd]
  rfl

theorem branchInv_insert_left {expected : List Marker} {s_p s_m : List Marker}
    {E : Marker} (hinv : BranchInv expected (s_p, s_m))
    (hd : s_p.length + s_m.length < expected.length)
    (hfr : E ∉ expected.take (s_p.length + s_m.length))
    (htk : expected.take ((s_p.length + s_m.length) + 1)
      = expected.take (s_p.length + s_m.length) ++ [E]) :
    BranchInv expected (insertSet E s_p, s_m) := by
  have hm_sp : E ∉ s_p := fun hx => hfr (hinv.sp_take _ hx)
  have hm_sm : E ∉ s_m := fun hx => hfr (hinv.sm_take _ hx)
  have hlen : (insertSet E s_p).length = s_p.length + 1 :=
    insertSet_length_of_not_mem hm_sp
  have harith : s_p.length + 1 + s_m.length = (s_p.length + s_m.length) + 1 := by
    omega
  refine ⟨?_, ?_, insertSet_nodup _ _ hinv.sp_nodup, hinv.sm_nodup, ?_, ?_⟩
  · intro x hx
    dsimp only
    rw [hlen, harith, htk]
    rcases (mem_insertSet _ _ _).1 hx with hx' | rfl
    · exact List.mem_append_left _ (hinv.sp_take _ hx')
    · exact List.mem_append_right _ (List.mem_singleton.2 rfl)
  · intro x hx
    dsimp only
    rw [hlen, harith, htk]
    exact List.mem_append_left _ (hinv.sm_take _ hx)
  · intro x hx
    rcases (mem_insertSet _ _ _).1 hx with hx' | rfl
    · exact hinv.disj _ hx'
    · exact hm_sm
  · dsimp only
    rw [hlen]
    omega

theorem branchInv_insert_right {expected : List Marker} {s_p s_m : List Marker}
    {E : Marker} (hinv : BranchInv expected (s_p, s_m))
    (hd : s_p.length + s_m.length < expected.length)
    (hfr : E ∉ expected.take (s_p.length + s_m.length))
    (htk : expected.take ((s_p.length + s_m.length) + 1)
      = expected.take (s_p.length + s_m.length) ++ [E]) :
    BranchInv expected (s_p, insertSet E s_m) := by
  have hm_sp : E ∉ s_p := fun hx => hfr (hinv.sp_take _ hx)
  have hm_sm : E ∉ s_m := fun hx => hfr (hinv.sm_take _ hx)
  have hlen : (insertSet E s_m).length = s_m.length + 1 :=
    insertSet_length_of_not_mem hm_sm
  have harith : s_p.length + (s_m.length + 1) = (s_p.length + s_m.length) + 1 := by
    omega
  refine ⟨?_, ?_, hinv.sp_nodup, insertSet_nodup _ _ hinv.sm_nodup, ?_, ?_⟩
  · intro x hx
    dsimp only
    rw [hlen, harith, htk]
    exact List.mem_append_left _ (hinv.sp_take _ hx)
  · intro x hx
    dsimp only
    rw [hlen, harith, htk]
    rcases (mem_insertSet _ _ _).1 hx with hx' | rfl
    · exact List.mem_append_left _ (hinv.sm_take _ hx')
    · exact List.mem_append_right _ (List.mem_singleton.2 rfl)
  · intro x hx
    intro hx2
    rcases (mem_insertSet _ _ _).1 hx2 with hx' | rfl
    · exact hinv.disj _ hx hx'
    · exact hm_sp hx
  · dsimp only
    rw [hlen]
    omega

/-- The inner branch loop of `NextLevelIterator::next`: the emission and
every pushed sibling extend the popped pair, the emission diverges from
every pushed sibling, and the pushed siblings pairwise diverge. -/
theorem nliInner_spec (a : Automaton) (expected : List Marker)
    (hexp : expected.Nodup) (gamma : List Nat) :
    ∀ (rem : Nat) (s_p s_m : List Marker) (g0 : Option (List Nat))
      (pushes : List (List Marker × List Marker))
      (emit : List Marker × List Nat)
      (pushesOut : List (List Marker × List Marker)),
      nliInner a expected gamma rem s_p s_m g0 pushes = some (emit, pushesOut) →
      rem + (s_p.length + s_m.length) = expected.length →
      BranchInv expected (s_p, s_m) →
      ∃ s_mE new,
        pushesOut = new ++ pushes ∧
        BranchInv expected (emit.1, s_mE) ∧
        PairLe (s_p, s_m) (emit.1, s_mE) ∧
        (∀ q ∈ new, BranchInv expected q ∧ PairLe (s_p, s_m) q ∧
          Divergent (emit.1, s_mE) q) ∧
        List.Pairwise Divergent new := by
  intro rem
  induction rem with
  | zero =>
    intro s_p s_m g0 pushes emit pushesOut h hlen hinv
    unfold nliInner at h
    cases hg : (match g0 with
        | none => follow_sp_sm a gamma s_p s_m
        | some v => some v) with
    | none => rw [hg] at h; exact Option.noConfusion h
    | some g =>
      rw [hg] at h
      injection h with h₂
      injection h₂ with hA hB
      subst hA
      subst hB
      refine ⟨s_m, [], rfl, hinv, pairLe_refl _,
        fun q hq => absurd hq (List.not_mem_nil q), List.Pairwise.nil⟩
  | succ rem ih =>
    intro s_p s_m g0 pushes emit pushesOut h hlen hinv
    unfold nliInner at h
    dsimp only at h
    have hd : s_p.length + s_m.length < expected.length := by omega
    obtain ⟨hm_mem, hm_take⟩ := getD_fresh hexp hd
    have htk0 := take_succ_getD hd
    generalize hE : expected.getD (s_p.length + s_m.length) (Marker.Open 0) = E
      at h hm_mem hm_take htk0
    have hm_sp : E ∉ s_p := fun hx => hm_take (hinv.sp_take _ hx)
    have hm_sm : E ∉ s_m := fun hx => hm_take (hinv.sm_take _ hx)
    have hLeL : PairLe (s_p, s_m) (insertSet E s_p, s_m) :=
      ⟨insertSet_subset _ _, fun _ hm => hm⟩
    have hLeR : PairLe (s_p, s_m) (s_p, insertSet E s_m) :=
      ⟨fun _ hm => hm, insertSet_subset _ _⟩
    cases hf : follow_sp_sm a gamma (insertSet E s_p) s_m with
    | none => rw [hf] at h; exact Option.noConfusion h
    | some g2 =>
      rw [hf] at h
      dsimp only at h
      by_cases hg2 : g2.isEmpty
      · rw [if_pos hg2] at h
        have hlen2 : rem + (s_p.length + (insertSet E s_m).length)
            = expected.length := by
          rw [insertSet_length_of_not_mem hm_sm]
          omega
        have hinv2 : BranchInv expected (s_p, insertSet E s_m) :=
          branchInv_insert_right hinv hd hm_take htk0
        obtain ⟨s_mE, new, hout, hInvE, hLeE, hNew, hPw⟩ :=
          ih s_p (insertSet E s_m) none pushes emit pushesOut h hlen2 hinv2
        refine ⟨s_mE, new, hout, hInvE, pairLe_trans hLeR hLeE, ?_, hPw⟩
        intro q hq
        obtain ⟨hbi, hle, hdiv⟩ := hNew q hq
        exact ⟨hbi, pairLe_trans hLeR hle, hdiv⟩
      · rw [if_neg hg2] at h
        rw [removeSet_insertSet hm_sp] at h
        have hlen2 : rem + ((insertSet E s_p).length + s_m.length)
            = expected.length := by
          rw [insertSet_length_of_not_mem hm_sp]
          omega
        have hinv2 : BranchInv expected (insertSet E s_p, s_m) :=
          branchInv_insert_left hinv hd hm_take htk0
        obtain ⟨s_mE, new, hout, hInvE, hLeE, hNew, hPw⟩ :=
          ih (insertSet E s_p) s_m (some g2) ((s_p, insertSet E s_m) :: pushes)
            emit pushesOut h hlen2 hinv2
        refine ⟨s_mE, new ++ [(s_p, insertSet E s_m)], ?_, hInvE,
          pairLe_trans hLeL hLeE, ?_, ?_⟩
        · rw [hout, List.append_assoc]
          rfl
        · intro q hq
          rcases List.mem_append.1 hq with hq' | hq''
          · obtain ⟨hbi, hle, hdiv⟩ := hNew q hq'
            exact ⟨hbi, pairLe_trans hLeL hle, hdiv⟩
          · have hq3 : q = (s_p, insertSet E s_m) := List.mem_singleton.1 hq''
            subst hq3
            refine ⟨branchInv_insert_right hinv hd hm_take htk0, hLeR, ?_⟩
            exact ⟨E, Or.inl ⟨hLeE.1 E (mem_insertSet_self _ _),
              mem_insertSet_self _ _⟩⟩
        · rw [List.pairwise_append]
          refine ⟨hPw, List.pairwise_singleton _ _, ?_⟩
          intro q hq q' hq'
          have hq'2 : q' = (s_p, insertSet E s_m) := List.mem_singleton.1 hq'
          subst hq'2
          obtain ⟨hbi, hle, hdiv⟩ := hNew q hq
          exact ⟨E, Or.inl ⟨hle.1 E (mem_insertSet_self _ _),
            mem_insertSet_self _ _⟩⟩

/-- Draining `NextLevelIterator::next`: the emitted `S⁺` sets pairwise
differ, and every emission extends one of the starting stack entries. -/
theorem nliRun_spec (a : Automaton) (expected : List Marker)
    (hexp : expected.Nodup) (gamma : List Nat) :
    ∀ (fuel : Nat) (stack : List (List Marker × List Marker))
      (emits : List (List Marker × List Nat)),
      nliRun a expected gamma fuel stack = some emits →
      (∀ q ∈ stack, BranchInv expected q) →
      List.Pairwise Divergent stack →
      List.Pairwise SpDiffer emits ∧
      (∀ e ∈ emits, ∃ q ∈ stack, ∃ s_mE,
        PairLe q (e.1, s_mE) ∧ (∀ m ∈ e.1, m ∉ s_mE)) := by
  intro fuel
  induction fuel with
  | zero => intro stack emits h _ _; exact Option.noConfusion h
  | succ f ih =>
    intro stack emits h hbi hpw
    cases stack with
    | nil =>
      have h₁ : (some ([] : List (List Marker × List Nat))) = some emits := h
      injection h₁ with h₂
      subst h₂
      exact ⟨List.Pairwise.nil, fun e he => absurd he (List.not_mem_nil e)⟩
    | cons p rest =>
      obtain ⟨s_p, s_m⟩ := p
      unfold nliRun at h
      cases hf : follow_sp_sm a gamma s_p s_m with
      | none => rw [hf] at h; exact Option.noConfusion h
      | some g =>
        rw [hf] at h
        dsimp only at h
        by_cases hge : g.isEmpty
        · rw [if_pos hge] at h
          obtain ⟨hpw', hext⟩ := ih rest emits h
            (fun q hq => hbi q (List.mem_cons_of_mem _ hq))
            (List.pairwise_cons.1 hpw).2
          refine ⟨hpw', fun e he => ?_⟩
          obtain ⟨q, hq, s_mE, hle, hdisj⟩ := hext e he
          exact ⟨q, List.mem_cons_of_mem _ hq, s_mE, hle, hdisj⟩
        · rw [if_neg hge] at h
          cases hinner : nliInner a expected gamma
              (expected.length - (s_p.length + s_m.length)) s_p s_m (some g)
              [] with
          | none => rw [hinner] at h; exact Option.noConfusion h
          | some pr =>
            obtain ⟨emitH, pushes⟩ := pr
            rw [hinner] at h
            dsimp only at h
            cases hrec : nliRun a expected gamma f (pushes ++ rest) with
            | none => rw [hrec] at h; exact Option.noConfusion h
            | some emits' =>
              rw [hrec] at h
              injection h with h₂
              subst h₂
              have hbiH := hbi (s_p, s_m) (List.mem_cons_self _ _)
              have hle2 : s_p.length + s_m.length ≤ expected.length :=
                hbiH.len_le
              have hlen : (expected.length - (s_p.length + s_m.length))
                  + (s_p.length + s_m.length) = expected.length := by omega
              obtain ⟨s_mH, new, hout, hInvH, hLeH, hNew, hPwNew⟩ :=
                nliInner_spec a expected hexp gamma _ s_p s_m (some g) []
                  emitH pushes hinner hlen hbiH
              rw [List.append_nil] at hout
              subst hout
              have hhead := (List.pairwise_cons.1 hpw).1
              have hpwtail := (List.pairwise_cons.1 hpw).2
              have hbi' : ∀ q ∈ pushes ++ rest, BranchInv expected q := by
                intro q hq
                rcases List.mem_append.1 hq with hq' | hq'
                · exact (hNew q hq').1
                · exact hbi q (List.mem_cons_of_mem _ hq')
              have hpw' : List.Pairwise Divergent (pushes ++ rest) := by
                rw [List.pairwise_append]
                refine ⟨hPwNew, hpwtail, ?_⟩
                intro q₁ hq₁ q₂ hq₂
                exact divergent_mono (hhead q₂ hq₂) ((hNew q₁ hq₁).2.1)
                  (pairLe_refl q₂)
              obtain ⟨hpwRec, hextRec⟩ := ih (pushes ++ rest) emits' hrec hbi'
                hpw'
              constructor
              · rw [List.pairwise_cons]
                refine ⟨?_, hpwRec⟩
                intro e' he'
                obtain ⟨q, hq, s_mE', hle', hdisj'⟩ := hextRec e' he'
                rcases List.mem_append.1 hq with hq' | hq'
                · have hdiv2 : Divergent (emitH.1, s_mH) (e'.1, s_mE') :=
                    divergent_mono ((hNew q hq').2.2) (pairLe_refl _) hle'
                  exact spDiffer_of_divergent hdiv2 hInvH.disj hdisj'
                · have hdiv2 : Divergent (emitH.1, s_mH) (e'.1, s_mE') :=
                    divergent_mono (hhead q hq') hLeH hle'
                  exact spDiffer_of_divergent hdiv2 hInvH.disj hdisj'
              · intro e he
                rcases List.mem_cons.1 he with rfl | he'
                · exact ⟨(s_p, s_m), List.mem_cons_self _ _, s_mH, hLeH,
                    hInvH.disj⟩
                · obtain ⟨q, hq, s_mE', hle', hdisj'⟩ := hextRec e he'
                  rcases List.mem_append.1 hq with hq' | hq'
                  · exact ⟨(s_p, s_m), List.mem_cons_self _ _, s_mE',
                      pairLe_trans (hNew q hq').2.1 hle', hdisj'⟩
                  · exact ⟨q, List.mem_cons_of_mem _ hq', s_mE', hle', hdisj'⟩

/-- Duplicate-freedom of the `K`-accumulation fold of
`IndexedDag::next_level`. -/
theorem kstep_nodup :
    ∀ (l : List (Marker × Nat)) (acc : List Nat × List Nat × List Marker),
      acc.2.2.Nodup →
      ((l.foldl (fun (acc : List Nat × List Nat × List Marker) e =>
        let kk := insertSet e.1 acc.2.2
        if e.2 ∈ acc.2.1 then (acc.1, acc.2.1, kk)
        else (e.2 :: acc.1, acc.2.1 ++ [e.2], kk)) acc).2.2).Nodup := by
  intro l
  induction l with
  | nil => intro acc h; exact h
  | cons e rest ih =>
    intro acc h
    rw [List.foldl_cons]
    apply ih
    dsimp only
    split
    · exact insertSet_nodup _ _ h
    · exact insertSet_nodup _ _ h

theorem nextLevelKLoop_nodup (revAdj : Nat → List (Marker × Nat)) :
    ∀ (fuel : Nat) (stack marks : List Nat) (k : List Marker), k.Nodup →
      (nextLevelKLoop revAdj fuel stack marks k).Nodup := by
  intro fuel
  induction fuel with
  | zero => intro stack marks k h; exact h
  | succ f ih =>
    intro stack marks k h
    cases stack with
    | nil => exact h
    | cons s rest =>
      unfold nextLevelKLoop
      dsimp only
      apply ih
      exact kstep_nodup (revAdj s) (rest, marks, k) h

theorem nextLevelK_nodup (a : Automaton) (gamma : List Nat) :
    (nextLevelK a gamma).Nodup := by
  unfold nextLevelK
  exact nextLevelKLoop_nodup _ _ _ _ _ List.nodup_nil

/-- The emissions of one full `NextLevelIterator` run have pairwise
set-distinct `S⁺` components. -/
theorem nextLevelEmissions_spDiffer (a : Automaton) (gamma : List Nat)
    (emits : List (List Marker × List Nat))
    (h : nextLevelEmissions a gamma = some emits) :
    List.Pairwise SpDiffer emits := by
  unfold nextLevelEmissions at h
  have hexp : (nextLevelK a gamma).Nodup := nextLevelK_nodup a gamma
  have hinit : ∀ q ∈ [(([] : List Marker), ([] : List Marker))],
      BranchInv (nextLevelK a gamma) q := by
    intro q hq
    have hq2 : q = ([], []) := List.mem_singleton.1 hq
    subst hq2
    exact ⟨fun m hm => absurd hm (List.not_mem_nil m),
      fun m hm => absurd hm (List.not_mem_nil m), List.nodup_nil,
      List.nodup_nil, fun m hm => absurd hm (List.not_mem_nil m),
      by simp⟩
  exact (nliRun_spec a (nextLevelK a gamma) hexp gamma _ _ emits h hinit
    (List.pairwise_singleton _ _)).1

--  C5 (engine level): emitted Mappings are pairwise distinct ------------------

/-- Membership in an offset-aligned event list. -/
theorem mem_alignMap {off : List Nat} {l : List (Marker × Nat)} {m : Marker}
    {q : Nat} :
    (m, q) ∈ l.map (fun e => (e.1, off.getD e.2 0)) ↔
      ∃ p, (m, p) ∈ l ∧ q = off.getD p 0 := by
  rw [List.mem_map]
  constructor
  · rintro ⟨⟨m', p⟩, hm, he⟩
    dsimp only at he
    injection he with he₁ he₂
    subst he₁
    subst he₂
    exact ⟨p, hm, rfl⟩
  · rintro ⟨p, hp, rfl⟩
    exact ⟨(m, p), hp, rfl⟩

/-- An `Open` position list entry is an `Open` event. -/
theorem mem_openPositions (evs : List (Marker × Nat)) (v p : Nat) :
    p ∈ openPositions evs v ↔ (Marker.Open v, p) ∈ evs := by
  unfold openPositions
  rw [List.mem_filterMap]
  constructor
  · rintro ⟨⟨m, q⟩, hm, hfe⟩
    cases m with
    | Open w =>
      dsimp only at hfe
      by_cases hw : w = v
      · rw [if_pos hw] at hfe
        injection hfe with h₂
        subst hw
        subst h₂
        exact hm
      · rw [if_neg hw] at hfe
        exact Option.noConfusion hfe
    | Close w => exact Option.noConfusion hfe
  · intro he
    refine ⟨(Marker.Open v, p), he, ?_⟩
    dsimp only
    rw [if_pos rfl]

/-- A `Close` position list entry is a `Close` event. -/
theorem mem_closePositions (evs : List (Marker × Nat)) (v p : Nat) :
    p ∈ closePositions evs v ↔ (Marker.Close v, p) ∈ evs := by
  unfold closePositions
  rw [List.mem_filterMap]
  constructor
  · rintro ⟨⟨m, q⟩, hm, hfe⟩
    cases m with
    | Close w =>
      dsimp only at hfe
      by_cases hw : w = v
      · rw [if_pos hw] at hfe
        injection hfe with h₂
        subst hw
        subst h₂
        exact hm
      · rw [if_neg hw] at hfe
        exact Option.noConfusion hfe
    | Open w => exact Option.noConfusion hfe
  · intro he
    refine ⟨(Marker.Close v, p), he, ?_⟩
    dsimp only
    rw [if_pos rfl]

/-- Content of a successful `Mapping::from_markers` call: a span per
variable exactly when its Open and Close position lists are ordered
singletons. -/
theorem from_markers_mem {evs : List (Marker × Nat)}
    {md : List (Nat × Nat × Nat)} (h : from_markers evs = some md)
    (v i j : Nat) :
    ((v, i, j) ∈ md ↔
      openPositions evs v = [i] ∧ closePositions evs v = [j] ∧ i ≤ j) := by
  cases hbse : buildSpans evs with
  | none =>
    unfold from_markers at h
    rw [hbse] at h
    exact Option.noConfusion h
  | some d =>
    have hfm : from_markers evs = (checkSpans d).map
        (fun r => r.foldl (fun acc e => insertByVar e acc) []) := by
      unfold from_markers
      rw [hbse]
      rfl
    rw [hfm] at h
    cases hcs : checkSpans d with
    | none =>
      rw [hcs] at h
      exact Option.noConfusion h
    | some r =>
      rw [hcs] at h
      injection h with h₂
      subst h₂
      obtain ⟨hnd, hcnt, hlk⟩ := (buildSpans_spec evs).1 d hbse
      rw [mem_insertFold, checkSpans_mem d r hcs v i j]
      have h₀ : ((v, (some i, some j)) ∈ d ∧ i ≤ j) ∨
          (v, i, j) ∈ ([] : List (Nat × Nat × Nat)) ↔
          (v, (some i, some j)) ∈ d ∧ i ≤ j := by simp
      rw [h₀]
      constructor
      · rintro ⟨hmem, hij⟩
        have hlx : d.lookup v = some (some i, some j) :=
          lookup_of_mem_keys_nodup d hnd _ hmem
        have hsp : spanOf evs v = some (some i, some j) :=
          (hlk v).symm.trans hlx
        obtain ⟨ho, hc⟩ := (spanOf_eq_some_iff evs hcnt v i j).1 hsp
        exact ⟨ho, hc, hij⟩
      · rintro ⟨ho, hc, hij⟩
        have hsp := (spanOf_eq_some_iff evs hcnt v i j).2 ⟨ho, hc⟩
        have hlx : d.lookup v = some (some i, some j) := (hlk v).trans hsp
        exact ⟨lookup_mem_beq _ _ _ hlx, hij⟩

/-- An `Open` event of a successful `from_markers` call yields a span
starting at its position. -/
theorem from_markers_ev_open {evs : List (Marker × Nat)}
    {md : List (Nat × Nat × Nat)} (h : from_markers evs = some md)
    {v p : Nat} (he : (Marker.Open v, p) ∈ evs) : ∃ j, (v, p, j) ∈ md := by
  have h0 := h
  cases hbse : buildSpans evs with
  | none =>
    unfold from_markers at h
    rw [hbse] at h
    exact Option.noConfusion h
  | some d =>
    have hfm : from_markers evs = (checkSpans d).map
        (fun r => r.foldl (fun acc e => insertByVar e acc) []) := by
      unfold from_markers
      rw [hbse]
      rfl
    rw [hfm] at h
    cases hcs : checkSpans d with
    | none =>
      rw [hcs] at h
      exact Option.noConfusion h
    | some r =>
      obtain ⟨hnd, hcnt, hlk⟩ := (buildSpans_spec evs).1 d hbse
      have hp : p ∈ openPositions evs v := (mem_openPositions evs v p).2 he
      have hone : openPositions evs v = [p] := by
        have hlen := (hcnt v).1
        cases hops : openPositions evs v with
        | nil =>
          rw [hops] at hp
          exact absurd hp (List.not_mem_nil p)
        | cons a tl =>
          rw [hops] at hlen hp
          cases tl with
          | nil =>
            have hpa : p = a := List.mem_singleton.1 hp
            rw [hpa]
          | cons b tl2 => simp at hlen
      have hsp : spanOf evs v = some (some p, (closePositions evs v).head?) := by
        unfold spanOf
        rw [hone]
        rw [if_neg (by simp)]
        rfl
      have hlx : d.lookup v = some (some p, (closePositions evs v).head?) :=
        (hlk v).trans hsp
      have hmem : (v, (some p, (closePositions evs v).head?)) ∈ d :=
        lookup_mem_beq _ _ _ hlx
      obtain ⟨i, j, hx, hij⟩ := checkSpans_sound d r hcs _ hmem
      dsimp only at hx
      injection hx with hx1 hx2
      injection hx1 with hx1'
      subst hx1'
      have hclose : closePositions evs v = [j] :=
        length_le_one_head (hcnt v).2 hx2
      exact ⟨j, (from_markers_mem h0 v p j).2 ⟨hone, hclose, hij⟩⟩

/-- A `Close` event of a successful `from_markers` call yields a span
ending at its position. -/
theorem from_markers_ev_close {evs : List (Marker × Nat)}
    {md : List (Nat × Nat × Nat)} (h : from_markers evs = some md)
    {v p : Nat} (he : (Marker.Close v, p) ∈ evs) : ∃ i, (v, i, p) ∈ md := by
  have h0 := h
  cases hbse : buildSpans evs with
  | none =>
    unfold from_markers at h
    rw [hbse] at h
    exact Option.noConfusion h
  | some d =>
    have hfm : from_markers evs = (checkSpans d).map
        (fun r => r.foldl (fun acc e => insertByVar e acc) []) := by
      unfold from_markers
      rw [hbse]
      rfl
    rw [hfm] at h
    cases hcs : checkSpans d with
    | none =>
      rw [hcs] at h
      exact Option.noConfusion h
    | some r =>
      obtain ⟨hnd, hcnt, hlk⟩ := (buildSpans_spec evs).1 d hbse
      have hp : p ∈ closePositions evs v := (mem_closePositions evs v p).2 he
      have hone : closePositions evs v = [p] := by
        have hlen := (hcnt v).2
        cases hops : closePositions evs v with
        | nil =>
          rw [hops] at hp
          exact absurd hp (List.not_mem_nil p)
        | cons a tl =>
          rw [hops] at hlen hp
          cases tl with
          | nil =>
            have hpa : p = a := List.mem_singleton.1 hp
            rw [hpa]
          | cons b tl2 => simp at hlen
      have hsp : spanOf evs v = some ((openPositions evs v).head?, some p) := by
        unfold spanOf
        rw [hone]
        rw [if_neg (by simp)]
        rfl
      have hlx : d.lookup v = some ((openPositions evs v).head?, some p) :=
        (hlk v).trans hsp
      have hmem : (v, ((openPositions evs v).head?, some p)) ∈ d :=
        lookup_mem_beq _ _ _ hlx
      obtain ⟨i, j, hx, hij⟩ := checkSpans_sound d r hcs _ hmem
      dsimp only at hx
      injection hx with hx1 hx2
      injection hx2 with hx2'
      subst hx2'
      have hopen : openPositions evs v = [i] :=
        length_le_one_head (hcnt v).1 hx1
      exact ⟨i, (from_markers_mem h0 v i p).2 ⟨hopen, hone, hij⟩⟩

/-- Whether the dictionary records an `Open`/`Close` event of marker `m` at
position `p` (some span of `m`'s variable starts/ends at `p`). -/
def dictEv (md : List (Nat × Nat × Nat)) (m : Marker) (p : Nat) : Prop :=
  match m with
  | .Open v => ∃ j, (v, p, j) ∈ md
  | .Close v => ∃ i, (v, i, p) ∈ md

theorem dictEv_open {md : List (Nat × Nat × Nat)} {v p : Nat} :
    dictEv md (Marker.Open v) p ↔ ∃ j, (v, p, j) ∈ md := Iff.rfl

theorem dictEv_close {md : List (Nat × Nat × Nat)} {v p : Nat} :
    dictEv md (Marker.Close v) p ↔ ∃ i, (v, i, p) ∈ md := Iff.rfl

/-- A successful `from_markers` dictionary records exactly the events of its
input list. -/
theorem dictEv_iff {evs : List (Marker × Nat)} {md : List (Nat × Nat × Nat)}
    (h : from_markers evs = some md) (m : Marker) (p : Nat) :
    dictEv md m p ↔ (m, p) ∈ evs := by
  cases m with
  | Open v =>
    rw [dictEv_open]
    constructor
    · rintro ⟨j, hj⟩
      obtain ⟨ho, _, _⟩ := (from_markers_mem h v p j).1 hj
      refine (mem_openPositions evs v p).1 ?_
      rw [ho]
      exact List.mem_singleton.2 rfl
    · exact fun he => from_markers_ev_open h he
  | Close v =>
    rw [dictEv_close]
    constructor
    · rintro ⟨i, hi⟩
      obtain ⟨_, hc, _⟩ := (from_markers_mem h v i p).1 hi
      refine (mem_closePositions evs v p).1 ?_
      rw [hc]
      exact List.mem_singleton.2 rfl
    · exact fun he => from_markers_ev_close h he

/-- The base offset bounds every entry of the offset table. -/
theorem charOffsets_base_le (text : List Char) :
    ∀ (b q : Nat), q ≤ text.length → b ≤ (charOffsets text b).getD q 0 := by
  induction text with
  | nil =>
    intro b q hq
    have hq0 : q = 0 := Nat.le_zero.1 hq
    subst hq0
    exact Nat.le_refl b
  | cons c rest ih =>
    intro b q hq
    cases q with
    | zero => exact Nat.le_refl b
    | succ q' =>
      have h₁ : (charOffsets (c :: rest) b).getD (q' + 1) 0
          = (charOffsets rest (b + c.utf8Size)).getD q' 0 := rfl
      rw [h₁]
      have h₂ : q' ≤ rest.length := by
        rw [List.length_cons] at hq
        omega
      have h₃ := ih (b + c.utf8Size) q' h₂
      omega

/-- Strict monotonicity of the offset table on the text range (every
character occupies at least one byte). -/
theorem charOffsets_getD_lt (text : List Char) :
    ∀ (b p q : Nat), p < q → q ≤ text.length →
      (charOffsets text b).getD p 0 < (charOffsets text b).getD q 0 := by
  induction text with
  | nil =>
    intro b p q hpq hq
    rw [List.length_nil] at hq
    omega
  | cons c rest ih =>
    intro b p q hpq hq
    cases q with
    | zero => omega
    | succ q' =>
      have hq' : q' ≤ rest.length := by
        rw [List.length_cons] at hq
        omega
      have h₁ : (charOffsets (c :: rest) b).getD (q' + 1) 0
          = (charOffsets rest (b + c.utf8Size)).getD q' 0 := rfl
      cases p with
      | zero =>
        have h₂ : (charOffsets (c :: rest) b).getD 0 0 = b := rfl
        rw [h₁, h₂]
        have h₃ := charOffsets_base_le rest (b + c.utf8Size) q' hq'
        have h₄ := Char.utf8Size_pos c
        omega
      | succ p' =>
        have h₅ : (charOffsets (c :: rest) b).getD (p' + 1) 0
            = (charOffsets rest (b + c.utf8Size)).getD p' 0 := rfl
        rw [h₁, h₅]
        exact ih (b + c.utf8Size) p' q' (by omega) hq'

/-- A strictly monotone offset table is injective on the text range. -/
theorem offsets_inj {off : List Nat} {textLen : Nat}
    (hoff : ∀ p q, p < q → q ≤ textLen → off.getD p 0 < off.getD q 0)
    {p q : Nat} (hp : p ≤ textLen) (hq : q ≤ textLen)
    (h : off.getD p 0 = off.getD q 0) : p = q := by
  rcases Nat.lt_trichotomy p q with hlt | heq | hgt
  · have := hoff p q hlt hq
    omega
  · exact heq
  · have := hoff q p hgt hp
    omega

/-- Positions of a frame's accumulated markers lie strictly above its level
and within the text. -/
def FramePos (textLen : Nat) (f : Nat × List (Marker × Nat)) : Prop :=
  f.1 ≤ textLen ∧ ∀ e ∈ f.2, f.1 < e.2 ∧ e.2 ≤ textLen

/-- Two frames are separated: one already holds a marker event, above the
other's level, that the other can never acquire. -/
def FrameSep (f g : Nat × List (Marker × Nat)) : Prop :=
  ∃ m p, ((m, p) ∈ f.2 ∧ (m, p) ∉ g.2 ∧ g.1 < p) ∨
    ((m, p) ∈ g.2 ∧ (m, p) ∉ f.2 ∧ f.1 < p)

theorem frameSep_symm {f g : Nat × List (Marker × Nat)} (h : FrameSep f g) :
    FrameSep g f := by
  obtain ⟨m, p, hc | hc⟩ := h
  · exact ⟨m, p, Or.inr hc⟩
  · exact ⟨m, p, Or.inl hc⟩

/-- The dictionary `md` was emitted below the frame: it holds all of the
frame's events through the offset alignment, and any further event of the
dictionary lies at or below the frame's level. -/
def FromFrame (off : List Nat) (md : List (Nat × Nat × Nat))
    (f : Nat × List (Marker × Nat)) : Prop :=
  (∀ m p, (m, p) ∈ f.2 → dictEv md m (off.getD p 0)) ∧
  (∀ m q, dictEv md m q →
    (∃ p, (m, p) ∈ f.2 ∧ q = off.getD p 0) ∨ q ≤ off.getD f.1 0)

theorem framePos_push {textLen L : Nat} {mp : List (Marker × Nat)}
    (hf : FramePos textLen (L, mp)) {lvl : Nat} {s_p : List Marker}
    (hlt : lvl < L) :
    FramePos textLen (lvl, mp ++ s_p.map (fun m => (m, L))) := by
  obtain ⟨hL, hev⟩ := hf
  have hL' : L ≤ textLen := hL
  constructor
  · show lvl ≤ textLen
    omega
  · intro e he
    rcases List.mem_append.1 he with he' | he'
    · obtain ⟨h₁, h₂⟩ := hev e he'
      have h₁' : L < e.2 := h₁
      exact ⟨by show lvl < e.2; omega, h₂⟩
    · obtain ⟨m', hm', heq⟩ := List.mem_map.1 he'
      rw [← heq]
      exact ⟨hlt, hL'⟩

theorem frameSep_push_left {L : Nat} {mp : List (Marker × Nat)}
    {g : Nat × List (Marker × Nat)} (h : FrameSep (L, mp) g)
    {lvl : Nat} (s_p : List Marker) (hlt : lvl < L) :
    FrameSep (lvl, mp ++ s_p.map (fun m => (m, L))) g := by
  obtain ⟨m, p, hc | hc⟩ := h
  · exact ⟨m, p, Or.inl ⟨List.mem_append_left _ hc.1, hc.2.1, hc.2.2⟩⟩
  · obtain ⟨h₁, h₂, h₃⟩ := hc
    have h₃' : L < p := h₃
    refine ⟨m, p, Or.inr ⟨h₁, ?_, ?_⟩⟩
    · intro hx
      rcases List.mem_append.1 hx with hx' | hx'
      · exact h₂ hx'
      · obtain ⟨m', hm', heq⟩ := List.mem_map.1 hx'
        have hLp : L = p := congrArg Prod.snd heq
        omega
    · show lvl < p
      omega

theorem frameSep_siblings {L : Nat} {mp : List (Marker × Nat)}
    (hmp : ∀ e ∈ mp, L < e.2) {lvl₁ lvl₂ : Nat} {s_p₁ s_p₂ : List Marker}
    (h₁ : lvl₁ < L) (h₂ : lvl₂ < L) {m : Marker}
    (hm₁ : m ∈ s_p₁) (hm₂ : m ∉ s_p₂) :
    FrameSep (lvl₁, mp ++ s_p₁.map (fun m => (m, L)))
      (lvl₂, mp ++ s_p₂.map (fun m => (m, L))) := by
  refine ⟨m, L, Or.inl ⟨?_, ?_, h₂⟩⟩
  · exact List.mem_append_right _ (List.mem_map.2 ⟨m, hm₁, rfl⟩)
  · intro hx
    rcases List.mem_append.1 hx with hx' | hx'
    · have hcontra : L < L := hmp _ hx'
      omega
    · obtain ⟨m', hm', heq⟩ := List.mem_map.1 hx'
      have hm'm : m' = m := congrArg Prod.fst heq
      subst hm'm
      exact hm₂ hm'

theorem fromFrame_emit {off : List Nat} {mp : List (Marker × Nat)}
    {s_p : List Marker} {md : List (Nat × Nat × Nat)}
    (h : from_markers ((mp ++ s_p.map (fun m => (m, 0))).map
      (fun e : Marker × Nat => (e.1, off.getD e.2 0))) = some md) :
    FromFrame off md (0, mp) := by
  constructor
  · intro m p hmp2
    refine (dictEv_iff h m _).2 ?_
    exact mem_alignMap.2 ⟨p, List.mem_append_left _ hmp2, rfl⟩
  · intro m q hd
    obtain ⟨p, hp, heq⟩ := mem_alignMap.1 ((dictEv_iff h m q).1 hd)
    rcases List.mem_append.1 hp with hp' | hp'
    · exact Or.inl ⟨p, hp', heq⟩
    · obtain ⟨m', hm', he⟩ := List.mem_map.1 hp'
      have hp0 : (0 : Nat) = p := congrArg Prod.snd he
      have hqe : q = off.getD 0 0 := by rw [heq, ← hp0]
      exact Or.inr (le_of_eq hqe)

theorem fromFrame_push {off : List Nat} {textLen : Nat}
    (hoff : ∀ p q, p < q → q ≤ textLen → off.getD p 0 < off.getD q 0)
    {md : List (Nat × Nat × Nat)} {L : Nat} {mp : List (Marker × Nat)}
    (hL : L ≤ textLen) {lvl : Nat} {s_p : List Marker} (hlt : lvl < L)
    (h : FromFrame off md (lvl, mp ++ s_p.map (fun m => (m, L)))) :
    FromFrame off md (L, mp) := by
  constructor
  · intro m p hmp2
    exact h.1 m p (List.mem_append_left _ hmp2)
  · intro m q hd
    rcases h.2 m q hd with ⟨p, hp, heq⟩ | hle
    · rcases List.mem_append.1 hp with hp' | hp'
      · exact Or.inl ⟨p, hp', heq⟩
      · obtain ⟨m', hm', he⟩ := List.mem_map.1 hp'
        have hLp : L = p := congrArg Prod.snd he
        have hqe : q = off.getD L 0 := by rw [heq, ← hLp]
        exact Or.inr (le_of_eq hqe)
    · right
      have hlo : off.getD lvl 0 < off.getD L 0 := hoff lvl L hlt hL
      have hle' : q ≤ off.getD lvl 0 := hle
      show q ≤ off.getD L 0
      omega

/-- Dictionaries emitted below two separated frames differ. -/
theorem fromFrame_ne {off : List Nat} {textLen : Nat}
    (hoff : ∀ p q, p < q → q ≤ textLen → off.getD p 0 < off.getD q 0)
    {md₁ md₂ : List (Nat × Nat × Nat)} {f g : Nat × List (Marker × Nat)}
    (hf : FramePos textLen f) (hg : FramePos textLen g) (hsep : FrameSep f g)
    (h₁ : FromFrame off md₁ f) (h₂ : FromFrame off md₂ g) : md₁ ≠ md₂ := by
  obtain ⟨m, p, hc | hc⟩ := hsep
  · obtain ⟨hmf, hmg, hgp⟩ := hc
    have hd₁ : dictEv md₁ m (off.getD p 0) := h₁.1 m p hmf
    have hple : p ≤ textLen := (hf.2 _ hmf).2
    have hd₂ : ¬ dictEv md₂ m (off.getD p 0) := by
      intro hd
      rcases h₂.2 m _ hd with ⟨p', hp', heq⟩ | hle
      · have hp'le : p' ≤ textLen := (hg.2 _ hp').2
        have hpp : p = p' := offsets_inj hoff hple hp'le heq
        rw [hpp] at hmg
        exact hmg hp'
      · have hlo : off.getD g.1 0 < off.getD p 0 := hoff g.1 p hgp hple
        have hle' : off.getD p 0 ≤ off.getD g.1 0 := hle
        omega
    intro he
    rw [he] at hd₁
    exact hd₂ hd₁
  · obtain ⟨hmg, hmf, hfp⟩ := hc
    have hd₂ : dictEv md₂ m (off.getD p 0) := h₂.1 m p hmg
    have hple : p ≤ textLen := (hg.2 _ hmg).2
    have hd₁ : ¬ dictEv md₁ m (off.getD p 0) := by
      intro hd
      rcases h₁.2 m _ hd with ⟨p', hp', heq⟩ | hle
      · have hp'le : p' ≤ textLen := (hf.2 _ hp').2
        have hpp : p = p' := offsets_inj hoff hple hp'le heq
        rw [hpp] at hmf
        exact hmf hp'
      · have hlo : off.getD f.1 0 < off.getD p 0 := hoff f.1 p hfp hple
        have hle' : off.getD p 0 ≤ off.getD f.1 0 := hle
        omega
    intro he
    rw [← he] at hd₂
    exact hd₁ hd₂

/-- Two level-0 emissions over the same prefix with set-different `S⁺`
give different dictionaries. -/
theorem emitted_ne {off : List Nat} {textLen : Nat}
    (hoff : ∀ p q, p < q → q ≤ textLen → off.getD p 0 < off.getD q 0)
    {mp : List (Marker × Nat)} (hmp : ∀ e ∈ mp, 0 < e.2 ∧ e.2 ≤ textLen)
    {s_p₁ s_p₂ : List Marker} {md₁ md₂ : List (Nat × Nat × Nat)}
    (h₁ : from_markers ((mp ++ s_p₁.map (fun m => (m, 0))).map
      (fun e : Marker × Nat => (e.1, off.getD e.2 0))) = some md₁)
    (h₂ : from_markers ((mp ++ s_p₂.map (fun m => (m, 0))).map
      (fun e : Marker × Nat => (e.1, off.getD e.2 0))) = some md₂)
    {m : Marker} (hm₁ : m ∈ s_p₁) (hm₂ : m ∉ s_p₂) : md₁ ≠ md₂ := by
  have hd₁ : dictEv md₁ m (off.getD 0 0) :=
    (dictEv_iff h₁ m _).2 (mem_alignMap.2
      ⟨0, List.mem_append_right _ (List.mem_map.2 ⟨m, hm₁, rfl⟩), rfl⟩)
  have hd₂ : ¬ dictEv md₂ m (off.getD 0 0) := by
    intro hd
    obtain ⟨p, hp, heq⟩ := mem_alignMap.1 ((dictEv_iff h₂ m _).1 hd)
    rcases List.mem_append.1 hp with hp' | hp'
    · obtain ⟨hpos, hle⟩ := hmp _ hp'
      have hlo : off.getD 0 0 < off.getD p 0 := hoff 0 p hpos hle
      omega
    · obtain ⟨m', hm', he⟩ := List.mem_map.1 hp'
      have hmm : m' = m := congrArg Prod.fst he
      rw [hmm] at hm'
      exact hm₂ hm'
  intro he
  rw [he] at hd₁
  exact hd₂ hd₁

/-- Under the jump-level bound, a jump with a non-empty target set moves to
a strictly lower layer. -/
theorem jump_lt {j : Jump} (hjl : JlInv j.jl) (level : Nat) (γ : List Nat)
    (hne : (j.jump level γ).2 ≠ []) : (j.jump level γ).1 < level := by
  unfold Jump.jump at hne ⊢
  dsimp only at hne ⊢
  cases hmax : (γ.filterMap (fun v => j.jl.lookup (level, v))).max? with
  | none =>
    rw [hmax] at hne
    exact absurd rfl hne
  | some lvl =>
    rw [hmax] at hne
    try dsimp only at hne ⊢
    by_cases hlv : lvl = level
    · rw [if_pos hlv] at hne
      exact absurd rfl hne
    · rw [if_neg hlv] at hne ⊢
      try dsimp only
      have hmem : lvl ∈ γ.filterMap (fun v => j.jl.lookup (level, v)) :=
        List.max?_mem (fun a b => max_choice a b) hmax
      obtain ⟨v, hv, hlk⟩ := List.mem_filterMap.1 hmem
      obtain ⟨hle, hlt⟩ := jl_lookup_bound hjl hlk
      rcases Nat.eq_zero_or_pos level with rfl | hpos
      · show lvl < 0
        omega
      · show lvl < level
        exact hlt hpos

/-- The compiled index satisfies the jump-level bound. -/
theorem compile_jlInv (a : Automaton) (text : List Char) :
    JlInv (IndexedDag.compile a text).jump.jl := by
  unfold IndexedDag.compile compileWithCount
  dsimp only
  exact compileLoop_jlInv a (closureList a) text _ 0 0 (new_jlInv _ _)

/-- Processing the emissions of one per-level expansion: emissions happen
only at level 0 and are pairwise distinct, pushes happen only above level 0,
go to strictly lower layers, extend the frame by their `S⁺` at the current
level, and are pairwise separated. -/
theorem processEmits_spec (dag : IndexedDag) (hjl : JlInv dag.jump.jl)
    (hoff : ∀ p q, p < q → q ≤ dag.text.length →
      dag.char_offsets.getD p 0 < dag.char_offsets.getD q 0)
    (L : Nat) (hL : L ≤ dag.text.length) (mp : List (Marker × Nat))
    (hmp : ∀ e ∈ mp, L < e.2 ∧ e.2 ≤ dag.text.length) :
    ∀ (emits : List (List Marker × List Nat)),
      List.Pairwise SpDiffer emits →
      ∀ (outs : List MappingDict)
        (pushes : List (Nat × List Nat × List (Marker × Nat)))
        (outsOut : List MappingDict)
        (pushesOut : List (Nat × List Nat × List (Marker × Nat))),
        processEmits dag L mp emits outs pushes = some (outsOut, pushesOut) →
        ∃ newOuts newPushes,
          outsOut = outs ++ newOuts ∧
          pushesOut = newPushes ++ pushes ∧
          (∀ md ∈ newOuts, L = 0 ∧ ∃ s_p gma, (s_p, gma) ∈ emits ∧
            from_markers ((mp ++ s_p.map (fun m => (m, L))).map
              (fun e : Marker × Nat =>
                (e.1, dag.char_offsets.getD e.2 0))) = some md) ∧
          (∀ fr ∈ newPushes, ∃ s_p gma, (s_p, gma) ∈ emits ∧
            fr.1 < L ∧ fr.2.2 = mp ++ s_p.map (fun m => (m, L))) ∧
          List.Pairwise (fun md₁ md₂ => md₁ ≠ md₂) newOuts ∧
          List.Pairwise (fun fr₁ fr₂ =>
            FrameSep (fr₁.1, fr₁.2.2) (fr₂.1, fr₂.2.2)) newPushes := by
  intro emits
  induction emits with
  | nil =>
    intro hPw outs pushes outsOut pushesOut h
    have h₁ : (some (outs, pushes) :
        Option (List MappingDict × List (Nat × List Nat × List (Marker × Nat))))
        = some (outsOut, pushesOut) := h
    injection h₁ with h₂
    injection h₂ with hA hB
    refine ⟨[], [], ?_, ?_, ?_, ?_, List.Pairwise.nil, List.Pairwise.nil⟩
    · rw [← hA, List.append_nil]
    · rw [← hB, List.nil_append]
    · intro md hmd
      exact absurd hmd (List.not_mem_nil md)
    · intro fr hfr
      exact absurd hfr (List.not_mem_nil fr)
  | cons e rest ih =>
    intro hPw outs pushes outsOut pushesOut h
    obtain ⟨s_p, gma⟩ := e
    unfold processEmits at h
    try dsimp only at h
    by_cases hge : gma.isEmpty
    · rw [if_pos hge] at h
      obtain ⟨nO, nP, hc1, hc2, hc3, hc4, hc5, hc6⟩ :=
        ih (List.pairwise_cons.1 hPw).2 outs pushes outsOut pushesOut h
      refine ⟨nO, nP, hc1, hc2, ?_, ?_, hc5, hc6⟩
      · intro md hmd
        obtain ⟨hL0, s_p', gma', hmem, hfm'⟩ := hc3 md hmd
        exact ⟨hL0, s_p', gma', List.mem_cons_of_mem _ hmem, hfm'⟩
      · intro fr hfr
        obtain ⟨s_p', gma', hmem, hlt, hshape⟩ := hc4 fr hfr
        exact ⟨s_p', gma', List.mem_cons_of_mem _ hmem, hlt, hshape⟩
    · rw [if_neg hge] at h
      by_cases hcond : L = 0 ∧ dag.automaton.get_initial ∈ gma
      · rw [if_pos hcond] at h
        have hL0 : L = 0 := hcond.1
        subst hL0
        cases hfm : from_markers ((mp ++ s_p.map (fun m => (m, 0))).map
            (fun e : Marker × Nat => (e.1, dag.char_offsets.getD e.2 0))) with
        | none =>
          rw [hfm] at h
          exact Option.noConfusion h
        | some md =>
          rw [hfm] at h
          obtain ⟨nO, nP, hc1, hc2, hc3, hc4, hc5, hc6⟩ :=
            ih (List.pairwise_cons.1 hPw).2 (outs ++ [md]) pushes outsOut
              pushesOut h
          refine ⟨md :: nO, nP, ?_, hc2, ?_, ?_, ?_, hc6⟩
          · rw [hc1, List.append_assoc]
            rfl
          · intro md' hmd'
            rcases List.mem_cons.1 hmd' with rfl | hmd''
            · exact ⟨rfl, s_p, gma, List.mem_cons_self _ _, hfm⟩
            · obtain ⟨hL0', s_p', gma', hmem, hfm'⟩ := hc3 md' hmd''
              exact ⟨hL0', s_p', gma', List.mem_cons_of_mem _ hmem, hfm'⟩
          · intro fr hfr
            obtain ⟨s_p', gma', hmem, hlt, hshape⟩ := hc4 fr hfr
            exact ⟨s_p', gma', List.mem_cons_of_mem _ hmem, hlt, hshape⟩
          · rw [List.pairwise_cons]
            refine ⟨?_, hc5⟩
            intro md' hmd'
            obtain ⟨hL0', s_p', gma', hmem, hfm'⟩ := hc3 md' hmd'
            have hsd : SpDiffer (s_p, gma) (s_p', gma') :=
              (List.pairwise_cons.1 hPw).1 _ hmem
            obtain ⟨m, hm | hm⟩ := hsd
            · exact emitted_ne hoff hmp hfm hfm' hm.1 hm.2
            · exact (emitted_ne hoff hmp hfm' hfm hm.1 hm.2).symm
      · rw [if_neg hcond] at h
        by_cases hje : (dag.jump.jump L gma).2.isEmpty
        · rw [if_pos hje] at h
          obtain ⟨nO, nP, hc1, hc2, hc3, hc4, hc5, hc6⟩ :=
            ih (List.pairwise_cons.1 hPw).2 outs pushes outsOut pushesOut h
          refine ⟨nO, nP, hc1, hc2, ?_, ?_, hc5, hc6⟩
          · intro md hmd
            obtain ⟨hL0, s_p', gma', hmem, hfm'⟩ := hc3 md hmd
            exact ⟨hL0, s_p', gma', List.mem_cons_of_mem _ hmem, hfm'⟩
          · intro fr hfr
            obtain ⟨s_p', gma', hmem, hlt, hshape⟩ := hc4 fr hfr
            exact ⟨s_p', gma', List.mem_cons_of_mem _ hmem, hlt, hshape⟩
        · rw [if_neg hje] at h
          have hne : (dag.jump.jump L gma).2 ≠ [] := by
            intro hx
            exact hje (by rw [hx]; rfl)
          have hlt : (dag.jump.jump L gma).1 < L := jump_lt hjl L gma hne
          obtain ⟨nO, nP, hc1, hc2, hc3, hc4, hc5, hc6⟩ :=
            ih (List.pairwise_cons.1 hPw).2 outs
              (((dag.jump.jump L gma).1, (dag.jump.jump L gma).2,
                mp ++ s_p.map (fun m => (m, L))) :: pushes) outsOut pushesOut h
          refine ⟨nO, nP ++ [((dag.jump.jump L gma).1, (dag.jump.jump L gma).2,
            mp ++ s_p.map (fun m => (m, L)))], hc1, ?_, ?_, ?_, hc5, ?_⟩
          · rw [hc2, List.append_assoc]
            rfl
          · intro md hmd
            obtain ⟨hL0, s_p', gma', hmem, hfm'⟩ := hc3 md hmd
            exact ⟨hL0, s_p', gma', List.mem_cons_of_mem _ hmem, hfm'⟩
          · intro fr hfr
            rcases List.mem_append.1 hfr with hfr' | hfr'
            · obtain ⟨s_p', gma', hmem, hlt', hshape⟩ := hc4 fr hfr'
              exact ⟨s_p', gma', List.mem_cons_of_mem _ hmem, hlt', hshape⟩
            · have hfr2 := List.mem_singleton.1 hfr'
              subst hfr2
              exact ⟨s_p, gma, List.mem_cons_self _ _, hlt, rfl⟩
          · rw [List.pairwise_append]
            refine ⟨hc6, List.pairwise_singleton _ _, ?_⟩
            intro fr' hfr' x hx
            have hx2 := List.mem_singleton.1 hx
            subst hx2
            obtain ⟨s_p', gma', hmem', hlt', hshape'⟩ := hc4 fr' hfr'
            have hsd : SpDiffer (s_p, gma) (s_p', gma') :=
              (List.pairwise_cons.1 hPw).1 _ hmem'
            have hmpL : ∀ e ∈ mp, L < e.2 := fun e he => (hmp e he).1
            obtain ⟨m, hm | hm⟩ := hsd
            · have hss := frameSep_siblings hmpL hlt hlt' hm.1 hm.2
              show FrameSep (fr'.1, fr'.2.2) _
              rw [hshape']
              exact frameSep_symm hss
            · have hss := frameSep_siblings hmpL hlt' hlt hm.1 hm.2
              show FrameSep (fr'.1, fr'.2.2) _
              rw [hshape']
              exact hss

/-- The frame loop of `IndexedDagIterator` emits pairwise-distinct
dictionaries, and every emission extends one of the stack frames. -/
theorem engineLoop_spec (dag : IndexedDag) (hjl : JlInv dag.jump.jl)
    (hoff : ∀ p q, p < q → q ≤ dag.text.length →
      dag.char_offsets.getD p 0 < dag.char_offsets.getD q 0) :
    ∀ (fuel : Nat) (stack : List (Nat × List Nat × List (Marker × Nat)))
      (res : List MappingDict),
      engineLoop dag fuel stack = some res →
      (∀ f ∈ stack, FramePos dag.text.length (f.1, f.2.2)) →
      List.Pairwise (fun f g => FrameSep (f.1, f.2.2) (g.1, g.2.2)) stack →
      List.Pairwise (fun md₁ md₂ => md₁ ≠ md₂) res ∧
      (∀ md ∈ res, ∃ f ∈ stack, FromFrame dag.char_offsets md (f.1, f.2.2)) := by
  intro fuel
  induction fuel with
  | zero =>
    intro stack res h _ _
    exact Option.noConfusion h
  | succ fl ih =>
    intro stack res h hpos hsep
    cases stack with
    | nil =>
      have h₁ : (some ([] : List MappingDict)) = some res := h
      injection h₁ with h₂
      subst h₂
      exact ⟨List.Pairwise.nil, fun md hmd => absurd hmd (List.not_mem_nil md)⟩
    | cons f rest =>
      obtain ⟨L, γ, mp⟩ := f
      unfold engineLoop at h
      cases hemits : nextLevelEmissions dag.automaton γ with
      | none =>
        rw [hemits] at h
        exact Option.noConfusion h
      | some emits =>
        rw [hemits] at h
        try dsimp only at h
        cases hpe : processEmits dag L mp emits [] [] with
        | none =>
          rw [hpe] at h
          exact Option.noConfusion h
        | some pr =>
          obtain ⟨outs_f, pushes_f⟩ := pr
          rw [hpe] at h
          try dsimp only at h
          cases hrec : engineLoop dag fl (pushes_f ++ rest) with
          | none =>
            rw [hrec] at h
            exact Option.noConfusion h
          | some res' =>
            rw [hrec] at h
            injection h with h₂
            subst h₂
            have hPw := nextLevelEmissions_spDiffer dag.automaton γ emits hemits
            have hposf : FramePos dag.text.length (L, mp) :=
              hpos _ (List.mem_cons_self _ _)
            have hLle : L ≤ dag.text.length := hposf.1
            have hmpB : ∀ e ∈ mp, L < e.2 ∧ e.2 ≤ dag.text.length := hposf.2
            obtain ⟨nO, nP, hc1, hc2, hc3, hc4, hc5, hc6⟩ :=
              processEmits_spec dag hjl hoff L hLle mp hmpB emits hPw [] []
                outs_f pushes_f hpe
            rw [List.nil_append] at hc1
            rw [List.append_nil] at hc2
            subst hc1
            subst hc2
            have hheadSep : ∀ g ∈ rest, FrameSep (L, mp) (g.1, g.2.2) :=
              (List.pairwise_cons.1 hsep).1
            have hrestSep := (List.pairwise_cons.1 hsep).2
            have hposStack : ∀ g ∈ pushes_f ++ rest,
                FramePos dag.text.length (g.1, g.2.2) := by
              intro g hg
              rcases List.mem_append.1 hg with hg' | hg'
              · obtain ⟨s_p, gma', hmem, hlt, hshape⟩ := hc4 g hg'
                rw [hshape]
                exact framePos_push hposf hlt
              · exact hpos _ (List.mem_cons_of_mem _ hg')
            have hsepStack : List.Pairwise
                (fun f g => FrameSep (f.1, f.2.2) (g.1, g.2.2))
                (pushes_f ++ rest) := by
              rw [List.pairwise_append]
              refine ⟨hc6, hrestSep, ?_⟩
              intro fr hfr g hg
              obtain ⟨s_p, gma', hmem, hlt, hshape⟩ := hc4 fr hfr
              have hfs := frameSep_push_left (hheadSep g hg) s_p hlt
              show FrameSep (fr.1, fr.2.2) (g.1, g.2.2)
              rw [hshape]
              exact hfs
            obtain ⟨hpwR, hextR⟩ := ih (pushes_f ++ rest) res' hrec hposStack
              hsepStack
            constructor
            · rw [List.pairwise_append]
              refine ⟨hc5, hpwR, ?_⟩
              intro md₁ hmd₁ md₂ hmd₂
              obtain ⟨hL0, s_p, gma', hmem, hfm⟩ := hc3 md₁ hmd₁
              obtain ⟨g, hg, hff₂⟩ := hextR md₂ hmd₂
              rcases List.mem_append.1 hg with hg' | hg'
              · obtain ⟨s_p', gma'', hmem', hlt', hshape'⟩ := hc4 g hg'
                rw [hL0] at hlt'
                exact absurd hlt' (Nat.not_lt_zero _)
              · subst hL0
                have hff₁ : FromFrame dag.char_offsets md₁ (0, mp) :=
                  fromFrame_emit hfm
                exact fromFrame_ne hoff hposf
                  (hpos _ (List.mem_cons_of_mem _ hg')) (hheadSep g hg')
                  hff₁ hff₂
            · intro md hmd
              rcases List.mem_append.1 hmd with hmd' | hmd'
              · refine ⟨(L, γ, mp), List.mem_cons_self _ _, ?_⟩
                obtain ⟨hL0, s_p, gma', hmem, hfm⟩ := hc3 md hmd'
                subst hL0
                exact fromFrame_emit hfm
              · obtain ⟨g, hg, hff⟩ := hextR md hmd'
                rcases List.mem_append.1 hg with hg' | hg'
                · obtain ⟨s_p, gma', hmem, hlt, hshape⟩ := hc4 g hg'
                  refine ⟨(L, γ, mp), List.mem_cons_self _ _, ?_⟩
                  rw [hshape] at hff
                  exact fromFrame_push hoff hLle hlt hff
                · exact ⟨g, List.mem_cons_of_mem _ hg', hff⟩

/-- An automaton whose marker structure makes `follow_sp_sm` refute both
children of a feasible branch: the parallel marker edges into state 3
poison the propagated path sets. -/
def autEmpty : Automaton :=
  ⟨4, [(1, .assign (.Open 0), 2), (1, .assign (.Close 0), 2),
       (2, .assign (.Open 0), 3), (1, .assign (.Close 0), 3),
       (1, .assign (.Open 1), 3)], [3]⟩

/-- C5, counterexample to "every emitted (S⁺, γ₂) has γ₂ witnessed
non-empty at its branch": expanding γ = {3} in `autEmpty` emits the pair
`({Open 0, Close 0}, ∅)` with an empty vertex set — `NextLevelIterator`
assumes the sibling of an unfeasible branch is feasible without checking
it, and the incomplete `follow_sp_sm` refutes both children of the
feasible branch `S⁺ = {Open 0}` — although that branch is genuinely
witnessed: state 1 reaches 3 by the marker path `Close 0 · Open 0`
avoiding `Open 1`. -/
theorem c5_emission_with_empty_gamma2 :
    nextLevelEmissions autEmpty [3]
      = some [([.Open 0, .Close 0], []), ([.Open 0], [2, 1]),
              ([.Open 1], [1]), ([], [3])] ∧
    FollowSpec autEmpty [3] [.Open 0, .Close 0] [.Open 1] 1 :=
  ⟨rfl,
   ⟨[.Close 0, .Open 0], 3, List.mem_singleton.2 rfl,
    .cons (List.mem_cons_of_mem _ (List.mem_cons_self _ _))
      (.cons (List.mem_cons_of_mem _ (List.mem_cons_of_mem _
        (List.mem_cons_self _ _))) (.nil 3)),
    by decide, by decide⟩⟩

/-- Modelled from the spec (§6, the external regex parser): the AST of the
reformatted regex `(.|\s)*(?P<match>a)(.|\s)*`, i.e. of `reformat "a"`. -/
def parsedA : LibHir :=
  .Concat [parsedPadStar 1, .Group (.CaptureName "match") (.Literal 'a'),
    parsedPadStar 2]

/-- The automaton the engine compiles for the regex `a`. -/
def autA : Automaton :=
  (LocalLang.from_hir (Hir.from_lib_hir parsedA 0).2 0).into_automaton

/-- C5 (amended): the engine emits no two equal Mappings — the output
sequence of `IndexedDagIterator` over a compiled index is pairwise
distinct — and within a single per-level expansion no two emitted `S⁺`
sets are equal (any two emissions differ on some marker).  The remaining
part of the claim, that every emitted `(S⁺, γ₂)` has `γ₂` non-empty, is
refuted by the counterexample: such pairs are emitted and only discarded
afterwards by the `new_gamma.is_empty` check of
`IndexedDagIterator::next`. -/
theorem c5_no_duplicate_mappings (a a' : Automaton) (text : List Char)
    (fuel : Nat) (outs : List MappingDict) (gamma : List Nat)
    (emits : List (List Marker × List Nat))
    (h₁ : engineMappings (IndexedDag.compile a text) fuel = some outs)
    (h₂ : nextLevelEmissions a' gamma = some emits) :
    List.Pairwise (fun md₁ md₂ => md₁ ≠ md₂) outs ∧
    List.Pairwise SpDiffer emits := by
  constructor
  · have hjl : JlInv (IndexedDag.compile a text).jump.jl := compile_jlInv a text
    have hoff : ∀ p q, p < q → q ≤ (IndexedDag.compile a text).text.length →
        (IndexedDag.compile a text).char_offsets.getD p 0
          < (IndexedDag.compile a text).char_offsets.getD q 0 := by
      intro p q hpq hq
      exact charOffsets_getD_lt text 0 p q hpq hq
    unfold engineMappings at h₁
    refine (engineLoop_spec (IndexedDag.compile a text) hjl hoff fuel _ outs
      h₁ ?_ (List.pairwise_singleton _ _)).1
    intro f hf
    have hf2 := List.mem_singleton.1 hf
    subst hf2
    exact ⟨Nat.le_refl _, fun e he => absurd he (List.not_mem_nil e)⟩
  · exact nextLevelEmissions_spDiffer a' gamma emits h₂

/-- Concrete instantiation of the amended C5 theorem: the engine output for
the regex `a` over the text "aa" (two distinct single-span mappings), and
the expansion of `autEmpty`. -/
theorem c5_no_duplicate_mappings_witness :
    List.Pairwise (fun md₁ md₂ => md₁ ≠ md₂)
      ([[(0, 0, 1)], [(0, 1, 2)]] : List MappingDict) ∧
    List.Pairwise SpDiffer
      [(([Marker.Open 0, Marker.Close 0] : List Marker), ([] : List Nat)),
       ([Marker.Open 0], [2, 1]), ([Marker.Open 1], [1]), ([], [3])] :=
  c5_no_duplicate_mappings autA autEmpty "aa".toList 1000
    [[(0, 0, 1)], [(0, 1, 2)]] [3]
    [([Marker.Open 0, Marker.Close 0], []), ([Marker.Open 0], [2, 1]),
     ([Marker.Open 1], [1]), ([], [3])] rfl rfl

/-- Concrete instantiation of the C10 theorem: one Open and one Close of
variable 0 in order yield the single span [0, 2). -/
theorem c10_from_markers_witness :
    ((from_markers [(Marker.Open 0, 0), (Marker.Close 0, 2)]).isSome = true) ∧
    (openPositions [(Marker.Open 0, 0), (Marker.Close 0, 2)] 0 = [0] ∧
      closePositions [(Marker.Open 0, 0), (Marker.Close 0, 2)] 0 = [2] ∧
      (0 : Nat) ≤ 2) :=
  ⟨by decide,
   ((c10_from_markers [(Marker.Open 0, 0), (Marker.Close 0, 2)]).2
      _ rfl 0 0 2).1 (by decide)⟩

end EnumSpanner
